import Mathlib

/-!
# Pollaris table cache: a shallow embedding

The definitions below follow `src/cpp/TableSupport.hpp`, `src/cpp/AbstractTable.hpp`,
`src/cpp/Tables.hpp` and `src/cpp/BlockchainInterface.cpp`.

Conventions of the embedding

* A `QList`/`QVector` is a `List`; an iterator into it is its index.
* `std::lower_bound` with `CompareId` is the first position whose id is not less than the key
  (its result on a range that is partitioned by id, which every sorted range is).
* A signal that the table emits, and a request it hands to `callApi`, is appended to the
  `emitted` log of the table, oldest first.
* Unsigned 64-bit row ids are naturals, with `% 2 ^ 64` where the source adds.
* The `RowOps` hooks have empty bodies in `TableRowOperations`; the `PollingGroup` specialisation
  only calls into the `BlockchainInterface`. They change nothing of the table and are left out,
  as are the Qt model signals (`dataChanged`, `beginInsertRows`, ...) and the virtual field tuples.
-/

namespace Pollaris

/-! ## Qt value types -/

/-- A `QString`: a sequence of UTF-16 code units. -/
structure QString where
  units : List Nat
deriving DecidableEq, Repr

namespace QString

/-- Code-unit-wise comparison, as `operator<` on `QString` compares. -/
def lexLess : List Nat → List Nat → Bool
  | [], [] => false
  | [], _ :: _ => true
  | _ :: _, [] => false
  | a :: as, b :: bs => if a < b then true else if b < a then false else lexLess as bs

/-- UTF-16 code units of one character. -/
def utf16 (c : Char) : List Nat :=
  if c.toNat < 65536 then [c.toNat]
  else [55296 + (c.toNat - 65536) / 1024, 56320 + (c.toNat - 65536) % 1024]

/-- The `QString` of a string literal. -/
def ofString (s : String) : QString := ⟨s.data.flatMap utf16⟩

/-- The empty (also the null, also the moved-from) string. -/
def empty : QString := ⟨[]⟩

/-- Concatenation. -/
def append (a b : QString) : QString := ⟨a.units ++ b.units⟩

/-- Decimal rendering, `QString::number(n)`. -/
def number (n : Nat) : QString := ofString (toString n)

/-- Value of a run of decimal digits, most significant first; `none` on any other unit. -/
def digitsValue : List Nat → Nat → Option Nat
  | [], acc => some acc
  | u :: us, acc => if 48 ≤ u ∧ u ≤ 57 then digitsValue us (acc * 10 + (u - 48)) else none

/-- Parsing as `QString::toULongLong` does on a plain run of decimal digits: the value when the
string is a non-empty run of digits below `2 ^ 64`, and failure otherwise. -/
def toULongLong (s : QString) : Option Nat :=
  match s.units with
  | [] => none
  | us =>
    match digitsValue us 0 with
    | some n => if n < 2 ^ 64 then some n else none
    | none => none

end QString

instance : Coe String QString := ⟨QString.ofString⟩

instance : LinearOrder QString where
  le a b := QString.lexLess b.units a.units = false
  lt a b := QString.lexLess a.units b.units = true
  le_refl a := by
    show QString.lexLess a.units a.units = false
    induction a.units with
    | nil => rfl
    | cons x xs ih => simp [QString.lexLess, ih]
  le_trans a b c := by
    show QString.lexLess b.units a.units = false → QString.lexLess c.units b.units = false →
      QString.lexLess c.units a.units = false
    generalize a.units = x
    generalize b.units = y
    generalize c.units = z
    induction x generalizing y z with
    | nil => intro _ _; cases z <;> rfl
    | cons x xs ih =>
      cases y with
      | nil => intro h; simp [QString.lexLess] at h
      | cons y ys =>
        cases z with
        | nil => intro _ h; simp [QString.lexLess] at h
        | cons z zs =>
          simp only [QString.lexLess]
          intro h1 h2
          by_cases p1 : y < x
          · simp [p1] at h1
          · by_cases p2 : z < y
            · simp [p2] at h2
            · by_cases p3 : x < y
              · have q1 : ¬ z < x := by omega
                have q2 : x < z := by omega
                simp [q1, q2]
              · by_cases p4 : y < z
                · have q1 : ¬ z < x := by omega
                  have q2 : x < z := by omega
                  simp [q1, q2]
                · have q1 : ¬ z < x := by omega
                  have q2 : ¬ x < z := by omega
                  simp only [p1, p2, p3, p4, if_false] at h1 h2
                  simp only [q1, q2, if_false]
                  exact ih ys zs h1 h2
  lt_iff_le_not_le a b := by
    show QString.lexLess a.units b.units = true ↔
      QString.lexLess b.units a.units = false ∧ ¬ QString.lexLess a.units b.units = false
    generalize a.units = x
    generalize b.units = y
    induction x generalizing y with
    | nil => cases y <;> simp [QString.lexLess]
    | cons x xs ih =>
      cases y with
      | nil => simp [QString.lexLess]
      | cons y ys =>
        simp only [QString.lexLess]
        by_cases p1 : x < y
        · have q1 : ¬ y < x := by omega
          simp [p1, q1]
        · by_cases p2 : y < x
          · simp [p1, p2]
          · simp only [p1, p2, if_false]
            exact ih ys
  le_antisymm a b := by
    show QString.lexLess b.units a.units = false → QString.lexLess a.units b.units = false → a = b
    obtain ⟨x⟩ := a
    obtain ⟨y⟩ := b
    simp only [QString.mk.injEq]
    induction x generalizing y with
    | nil => cases y <;> simp [QString.lexLess]
    | cons x xs ih =>
      cases y with
      | nil => simp [QString.lexLess]
      | cons y ys =>
        simp only [QString.lexLess, List.cons.injEq]
        intro h1 h2
        by_cases p1 : y < x
        · simp [p1] at h1
        · by_cases p2 : x < y
          · simp [p2] at h2
          · simp only [p1, p2, if_false] at h1 h2
            exact ⟨by omega, ih ys h1 h2⟩
  le_total a b := by
    show QString.lexLess b.units a.units = false ∨ QString.lexLess a.units b.units = false
    generalize a.units = x
    generalize b.units = y
    induction x generalizing y with
    | nil => cases y <;> simp [QString.lexLess]
    | cons x xs ih =>
      cases y with
      | nil => simp [QString.lexLess]
      | cons y ys =>
        simp only [QString.lexLess]
        by_cases p1 : y < x
        · have q1 : ¬ x < y := by omega
          simp [p1, q1]
        · by_cases p2 : x < y
          · simp [p1, p2]
          · simp only [p1, p2, if_false]
            exact ih ys
  decidableLE a b := inferInstanceAs (Decidable (QString.lexLess b.units a.units = false))
  decidableLT a b := inferInstanceAs (Decidable (QString.lexLess a.units b.units = true))
  decidableEq := inferInstance

/-- A `QVariant`, restricted to the value types the reflected rows use. -/
inductive QVariant where
  | invalid
  | bool (b : Bool)
  | ulonglong (n : Nat)
  | string (s : QString)
  | stringList (l : List QString)
deriving DecidableEq, Repr

namespace QVariant

/-- Conversion `QVariant::value<qulonglong>()`: the held number, a parsed string, and 0 where Qt
cannot convert. -/
def toULongLong : QVariant → Nat
  | invalid => 0
  | bool b => b.toNat
  | ulonglong n => n
  | string s => (s.toULongLong).getD 0
  | stringList _ => 0

/-- Conversion `QVariant::value<QString>()`. -/
def toQString : QVariant → QString
  | invalid => QString.empty
  | bool b => if b then QString.ofString "true" else QString.ofString "false"
  | ulonglong n => QString.number n
  | string s => s
  | stringList [s] => s
  | stringList _ => QString.empty

/-- Conversion `QVariant::value<QStringList>()`. -/
def toQStringList : QVariant → List QString
  | stringList l => l
  | string s => [s]
  | _ => []

/-- Conversion of a string to `bool` as Qt does it. -/
def stringToBool (s : QString) : Bool :=
  !(s = QString.empty ∨ s = QString.ofString "0" ∨ s = QString.ofString "false")

/-- Comparison `operator==` of two variants: values of one type compare by value, two numeric
types numerically, and otherwise the right operand is converted to the type of the left one
(or, when it cannot be, the left to the type of the right) and a failed conversion is unequal. -/
def cmp : QVariant → QVariant → Bool
  | invalid, invalid => true
  | bool a, bool b => a == b
  | ulonglong a, ulonglong b => a == b
  | string a, string b => a == b
  | stringList a, stringList b => a == b
  | bool a, ulonglong b => a.toNat == b
  | ulonglong a, bool b => a == b.toNat
  | string a, ulonglong b => a == QString.number b
  | ulonglong a, string b => b.toULongLong == some a
  | string a, bool b => a == (if b then QString.ofString "true" else QString.ofString "false")
  | bool a, string b => a == stringToBool b
  | string a, stringList b => b == [a]
  | stringList a, string b => a == [b]
  | _, _ => false

end QVariant

/-- A `QVariantMap` (`QMap<QString, QVariant>`): the entries in key order, one per key. -/
abbrev QVariantMap := List (QString × QVariant)

namespace QVariantMap

/-- Lookup `find(key)`: the value stored under `key`, if any. -/
def find : QVariantMap → QString → Option QVariant
  | [], _ => none
  | (k, v) :: rest, key => if k = key then some v else find rest key

/-- Reading `map[key]` on a copy: the stored value, or a default-constructed variant. -/
def value (m : QVariantMap) (key : QString) : QVariant := (find m key).getD QVariant.invalid

/-- Assignment `map[key] = v`: replaces the value of an existing key, inserts a new key at its
place in key order. -/
def insert : QVariantMap → QString → QVariant → QVariantMap
  | [], key, v => [(key, v)]
  | (k, w) :: rest, key, v =>
    if key < k then (key, v) :: (k, w) :: rest
    else if k < key then (k, w) :: insert rest key v
    else (key, v) :: rest

/-- Removal `remove(key)` (also `erase` of the iterator that `find(key)` returned). -/
def remove : QVariantMap → QString → QVariantMap
  | [], _ => []
  | (k, v) :: rest, key => if k = key then remove rest key else (k, v) :: remove rest key

/-- Assignment through the iterator that `find(key)` returned, `*pos = v`. -/
def assign : QVariantMap → QString → QVariant → QVariantMap
  | [], _, _ => []
  | (k, w) :: rest, key, v => if k = key then (k, v) :: rest else (k, w) :: assign rest key v

/-- The keys, `keys()`, in map order. -/
def keys (m : QVariantMap) : List QString := m.map Prod.fst

end QVariantMap

/-- String constants of `Strings.cpp` that the table uses. -/
def Strings.DraftId : QString := QString.ofString "DRAFT_ID"

/-- The key of the marker map of a settled delete. -/
def Strings.Deleted : QString := QString.ofString "DELETED"

/-- Enumeration `Pollaris::LoadState`. -/
inductive LoadState where
  | Loaded
  | Loading
  | Stale
  | DraftEdit
  | DraftAdd
  | DraftDelete
  | PendingEdit
  | PendingAdd
  | PendingDelete
deriving DecidableEq, Repr

/-! ## Reflection of a row type -/

/-- One reflected member of a row struct (a descriptor of `infra::reflector<Row>::members`):
its name, its C++ type with `operator==`, the accessor `get` (read and written), and the two
`QVariant` conversions of that type. -/
structure Member (Row : Type) where
  name : QString
  type : Type
  eqType : DecidableEq type
  get : Row → type
  set : Row → type → Row
  fromValue : type → QVariant
  value : QVariant → type

/-- The two branches of the source on `std::is_integral_v<RowId>`. An integral id comes with
`RowId()`, with the successor `id + 1` in the id type and with the constant `BASE_DRAFT_ID`
(declared in `AbstractTableInterface.hpp`, which is not among the sources). -/
inductive IdKind (Id : Type) where
  | integral (zero : Id) (succ : Id → Id) (baseDraftId : Id)
  | other

/-- What the table template needs to know of its `Row` parameter. -/
structure RowSchema (Row Id : Type) where
  /-- Constant `TableName<Row>::name`. -/
  tableName : QString
  /-- Reflected members, in the order of `REFLECT_STRUCT`. -/
  members : List (Member Row)
  getId : Row → Id
  setId : Row → Id → Row
  /-- Value-initialised row, `Row()`. -/
  valueInit : Row
  /-- Default-initialised row, `Row row;`. -/
  defaultInit : Row
  /-- What is left in an object after `std::move` took its value. -/
  moved : Row → Row
  /-- Conversion `QVariant::fromValue(id)`. -/
  idFromValue : Id → QVariant
  /-- Conversion `v.value<RowId>()`. -/
  idValue : QVariant → Id
  kind : IdKind Id
  /-- The row id that a journal key denotes (the `key` lambda of `processJournal`). -/
  journalKey : Nat → Id
  /-- The `lowerBound` text of a single-row request (`refreshRow`). -/
  lowerBoundText : Id → QString

/-- Position of the first element that satisfies `p` (`std::find_if`); `none` for `end()`. -/
def findFirst {α : Type} (p : α → Bool) : List α → Option Nat
  | [] => none
  | a :: rest => if p a then some 0 else (findFirst p rest).map (· + 1)

/-- First position of `l` whose key is not less than `id`. -/
def lowerBound {α Id : Type} [LinearOrder Id] (key : α → Id) : List α → Id → Nat
  | [], _ => 0
  | a :: rest, id => if key a < id then lowerBound key rest id + 1 else 0

/-- Search `std::lower_bound(first, end, id)` started at position `first`. -/
def lowerBoundFrom {α Id : Type} [LinearOrder Id] (key : α → Id) (l : List α) (first : Nat)
    (id : Id) : Nat :=
  first + lowerBound key (l.drop first) id

/-- The element with key `k` and its companion in a parallel list, by a scan from the front. -/
def lookup {α σ Id : Type} [LinearOrder Id] (key : α → Id) : List α → List σ → Id → Option (α × σ)
  | a :: as, s :: ss, k => if key a = k then some (a, s) else lookup key as ss k
  | _, _, _ => none

/-- The list is strictly increasing by key. -/
def StrictlySorted {α Id : Type} [LinearOrder Id] (key : α → Id) (l : List α) : Prop :=
  l.Pairwise (fun a b => key a < key b)

instance {α Id : Type} [LinearOrder Id] (key : α → Id) (l : List α) :
    Decidable (StrictlySorted key l) :=
  inferInstanceAs (Decidable (l.Pairwise (fun a b => key a < key b)))

namespace Convert

/-- Conversion `Convert<Row>::toVariantMap`. -/
def toVariantMap {Row Id : Type} (S : RowSchema Row Id) (record : Row) : QVariantMap :=
  S.members.foldl (fun result m => QVariantMap.insert result m.name (m.fromValue (m.get record))) []

/-- One step of the member loop of `fromVariantMap`. -/
def fromVariantStep {Row : Type} (acc : QVariantMap × Row) (m : Member Row) : QVariantMap × Row :=
  match QVariantMap.find acc.1 m.name with
  | some v => (QVariantMap.remove acc.1 m.name, m.set acc.2 (m.value v))
  | none => acc

/-- Conversion `Convert<Row>::fromVariantMap(map, defaultValues, &unusedKeys)`: the row and the
unused keys. -/
def fromVariantMap {Row Id : Type} (S : RowSchema Row Id) (map : QVariantMap) (defaultValues : Row) :
    Row × List QString :=
  let r := S.members.foldl fromVariantStep (map, defaultValues)
  (r.2, QVariantMap.keys r.1)

end Convert

/-! ## The backup manager -/

/-- Class `BackupManager<Row>`: backups of rows and of their load states, in two parallel lists
ordered by row id. -/
structure BackupManager (Row : Type) where
  rows : List Row
  states : List LoadState
deriving DecidableEq, Repr

namespace BackupManager

variable {Row Id : Type} [LinearOrder Id]

/-- The empty manager. -/
def empty : BackupManager Row := ⟨[], []⟩

/-- Query `isEmpty()`. -/
def isEmpty (b : BackupManager Row) : Bool := b.rows.isEmpty

/-- Method `clear()`. -/
def clear (_b : BackupManager Row) : BackupManager Row := ⟨[], []⟩

/-- Method `get(id)`. Reading the parallel list `states` outside its range is undefined in the
source; the embedding reads `Loaded` there. -/
def get (S : RowSchema Row Id) (b : BackupManager Row) (id : Id) : Option (Row × LoadState) :=
  let i := lowerBound S.getId b.rows id
  match b.rows[i]? with
  | some r => if S.getId r = id then some (r, b.states.getD i LoadState.Loaded) else none
  | none => none

/-- Method `remove(id, &rowValue, &rowState)`: the removed backup (`none` for the result
`false`) and the manager afterwards. -/
def remove (S : RowSchema Row Id) (b : BackupManager Row) (id : Id) :
    Option (Row × LoadState) × BackupManager Row :=
  let i := lowerBound S.getId b.rows id
  match b.rows[i]? with
  | some r =>
    if S.getId r = id then
      (some (r, b.states.getD i LoadState.Loaded), ⟨b.rows.eraseIdx i, b.states.eraseIdx i⟩)
    else (none, b)
  | none => (none, b)

/-- Method `save(row, rowState)`. -/
def save (S : RowSchema Row Id) (b : BackupManager Row) (row : Row) (rowState : LoadState) :
    BackupManager Row :=
  let i := lowerBound S.getId b.rows (S.getId row)
  match b.rows[i]? with
  | some r =>
    if S.getId r = S.getId row then b
    else ⟨b.rows.insertIdx i row, b.states.insertIdx i rowState⟩
  | none => ⟨b.rows.insertIdx i row, b.states.insertIdx i rowState⟩

/-- The backups are strictly increasing by row id and every backup has its state. -/
structure WellFormed (S : RowSchema Row Id) (b : BackupManager Row) : Prop where
  sorted : StrictlySorted S.getId b.rows
  parallel : b.states.length = b.rows.length

/-- The deleter that the mutable `forEach` hands to its callback:
`rows.removeAt(i); states.removeAt(i)` (a `removeAt` outside the range does nothing). -/
def removeAt (b : BackupManager Row) (i : Nat) : BackupManager Row :=
  ⟨b.rows.eraseIdx i, b.states.eraseIdx i⟩

end BackupManager

/-! ## The table -/

/-- What a table sends out: its Qt signals and its `callApi` requests. -/
inductive Emitted where
  /-- Signal `hasPendingEditsChanged(pendingEdits)`. -/
  | hasPendingEditsChanged (value : Bool)
  /-- Signal `draftEditInvalidated(QVariant::fromValue(id))`. -/
  | draftEditInvalidated (id : QVariant)
  /-- Signal `pendingEditSettled(before, after)`. -/
  | pendingEditSettled (before after : QVariantMap)
  /-- Signal `scopeChanged(scope)`. -/
  | scopeChanged (scope : QString)
  /-- Request `callApi(Strings::GetTableRows, getTableJson(table, scope, lowerBound, limit))`;
  an argument that the call leaves to its default is `none`. -/
  | getTableRows (table scope : QString) (lowerBound : Option QString) (limit : Option Nat)
deriving DecidableEq, Repr

/-- Class `AbstractTable<Row>`: the data members of the table, the `modelIds` of each of its
models, and the log of what it has sent out. -/
structure AbstractTable (Row Id : Type) where
  scope : QString
  rowList : List Row
  rowStates : List LoadState
  locallyAddedRows : List QVariantMap
  backups : BackupManager Row
  pendingEdits : Bool
  loadingRows : List (Id × Int)
  models : List (List Id)
  emitted : List Emitted
deriving DecidableEq, Repr

/-- What comes back for a `get_table_rows` request, as `processRowsResponse` tells it apart:
a network error, a response that `parseRows` rejects, or the decoded rows together with the
continuation key (`none` when the response has no more rows). -/
inductive RowsReply (Row : Type) where
  | networkError
  | notSensible
  | rows (newRows : List Row) (nextKey : Option QString)

/-- Kind of a journal entry, `JournalEntry::Type`. -/
inductive JournalType where
  | AddRow
  | DeleteRow
  | ModifyRow
deriving DecidableEq, Repr

/-- Modelled from the spec: the struct `JournalEntry` is declared in
`AbstractTableInterface.hpp`, which is not among the sources; the fields are those of the
journal entry of the data model, `{id, timestamp, table, scope, key, type}`, with 64-bit unsigned
`id`, `scope` and `key`. -/
structure JournalEntry where
  id : Nat
  timestamp : Int
  table : QString
  scope : Nat
  key : Nat
  type : JournalType
deriving DecidableEq, Repr

namespace AbstractTable

variable {Row Id : Type} [LinearOrder Id]

/-- A table with no rows, as constructed. -/
def init (scope : QString) : AbstractTable Row Id :=
  { scope := scope, rowList := [], rowStates := [], locallyAddedRows := [],
    backups := BackupManager.empty, pendingEdits := false, loadingRows := [], models := [],
    emitted := [] }

/-- Appends one item to the log. -/
def emit (t : AbstractTable Row Id) (e : Emitted) : AbstractTable Row Id :=
  { t with emitted := t.emitted ++ [e] }

/-- Method `hasPendingEdits()`. -/
def hasPendingEdits (t : AbstractTable Row Id) : Bool := t.pendingEdits

/-- Method `getRow(id, &rowState)`. Reading `rowStates` outside its range is undefined in the
source; the embedding reads `Loaded` there. -/
def getRow (S : RowSchema Row Id) (t : AbstractTable Row Id) (id : Id) : Option (Row × LoadState) :=
  let pos := lowerBound S.getId t.rowList id
  match t.rowList[pos]? with
  | some r => if S.getId r = id then some (r, t.rowStates.getD pos LoadState.Loaded) else none
  | none => none

/-- The cache is strictly increasing by row id, every row has its state, and the backup manager
is well formed. -/
structure WellFormed (S : RowSchema Row Id) (t : AbstractTable Row Id) : Prop where
  sorted : StrictlySorted S.getId t.rowList
  parallel : t.rowStates.length = t.rowList.length
  backups : t.backups.WellFormed S

/-- No record of `locallyAddedRows` carries the draft id `k`: the row with id `k` is not a locally
added row (`locallyAddedRows` is "the list of rows in DraftAdd or PendingAdd states"). -/
def NoRecord (S : RowSchema Row Id) (k : Id) (t : AbstractTable Row Id) : Prop :=
  ∀ record ∈ t.locallyAddedRows, S.idValue (QVariantMap.value record Strings.DraftId) ≠ k

/-- The table `t1` comes from the well-formed `t` by steps that leave the cached row with id `k`
as it is, create no backup for `k`, add no record and only add to what was sent out. -/
structure Keeps (S : RowSchema Row Id) (k : Id) (t t1 : AbstractTable Row Id) : Prop where
  wellFormed : t1.WellFormed S
  row : lookup S.getId t1.rowList t1.rowStates k = lookup S.getId t.rowList t.rowStates k
  backup : lookup S.getId t.backups.rows t.backups.states k = none →
    lookup S.getId t1.backups.rows t1.backups.states k = none
  records : ∀ record ∈ t1.locallyAddedRows, record ∈ t.locallyAddedRows
  emitted : ∃ es, t1.emitted = t.emitted ++ es

/-- Method `deleteBackupRow(id, &rowValue, &stateValue)`. -/
def deleteBackupRow (S : RowSchema Row Id) (t : AbstractTable Row Id) (id : Id) :
    Option (Row × LoadState) × AbstractTable Row Id :=
  let r := t.backups.remove S id
  let t1 := { t with backups := r.2 }
  (r.1, if r.2.isEmpty then emit { t1 with pendingEdits := false } (.hasPendingEditsChanged false)
        else t1)

/-! ### Models -/

/-- The `while` loop of `Model::updateRows` over the rows still to place, `pos` being the
iterator into `modelIds`. -/
def modelUpdateLoop (S : RowSchema Row Id) : List Row → Nat → List Id → List Id
  | [], _, ids => ids
  | r :: rest, pos, ids =>
    let ids1 := if ids[pos]? = some (S.getId r) then ids else ids.insertIdx pos (S.getId r)
    match rest with
    | [] => ids1
    | r1 :: _ => modelUpdateLoop S rest (lowerBoundFrom id ids1 pos (S.getId r1)) ids1

/-- Method `Model::updateRows(rows)` on the `modelIds` of one model. -/
def modelUpdateRows (S : RowSchema Row Id) (rows : List Row) (ids : List Id) : List Id :=
  match rows with
  | [] => ids
  | r :: _ =>
    let pos := lowerBound id ids (S.getId r)
    if pos = ids.length then ids ++ rows.map S.getId
    else modelUpdateLoop S rows pos ids

/-- Method `Model::deleteRow(id)` on the `modelIds` of one model. -/
def modelDeleteRow (ident : Id) (ids : List Id) : List Id :=
  let pos := lowerBound id ids ident
  if ids[pos]? = some ident then ids.eraseIdx pos else ids

/-- Notification of every model with `updateRows(rows)`. -/
def notifyUpdateRows (S : RowSchema Row Id) (t : AbstractTable Row Id) (rows : List Row) :
    AbstractTable Row Id :=
  { t with models := t.models.map (modelUpdateRows S rows) }

/-- Notification of every model with `deleteRow(id)`. -/
def notifyDeleteRow (t : AbstractTable Row Id) (ident : Id) : AbstractTable Row Id :=
  { t with models := t.models.map (modelDeleteRow ident) }

/-! ### Loading single rows -/

/-- Insertion into the `std::map` `loadingRows`, which keeps the entry of a key it already has. -/
def loadingInsert : List (Id × Int) → Id → Int → List (Id × Int)
  | [], ident, now => [(ident, now)]
  | (k, v) :: rest, ident, now =>
    if ident < k then (ident, now) :: (k, v) :: rest
    else if k < ident then (k, v) :: loadingInsert rest ident now
    else (k, v) :: rest

/-- Lookup in `loadingRows`. -/
def loadingFind : List (Id × Int) → Id → Option Int
  | [], _ => none
  | (k, v) :: rest, ident => if k = ident then some v else loadingFind rest ident

/-- Removal `loadingRows.erase(id)`. -/
def loadingErase (l : List (Id × Int)) (ident : Id) : List (Id × Int) :=
  l.filter (fun e => e.1 ≠ ident)

/-- Method `rowIsLoading(id, markAsLoading)` at the clock reading `now` (seconds since epoch). -/
def rowIsLoading (t : AbstractTable Row Id) (ident : Id) (markAsLoading : Bool) (now : Int) :
    Bool × AbstractTable Row Id :=
  match loadingFind t.loadingRows ident with
  | some since =>
    if now - since < 7 then (true, t)
    else (false, if markAsLoading then { t with loadingRows := loadingInsert t.loadingRows ident now }
                 else t)
  | none =>
    (false, if markAsLoading then { t with loadingRows := loadingInsert t.loadingRows ident now }
            else t)

/-- Method `refreshRow(id)`: the request goes out unless the row is already loading. -/
def refreshRow (S : RowSchema Row Id) (t : AbstractTable Row Id) (ident : Id) (now : Int) :
    AbstractTable Row Id :=
  let r := rowIsLoading t ident true now
  if r.1 then r.2
  else emit r.2 (.getTableRows S.tableName t.scope (some (S.lowerBoundText ident)) (some 1))

/-- Method `fullRefresh()`. -/
def fullRefresh (S : RowSchema Row Id) (t : AbstractTable Row Id) : AbstractTable Row Id :=
  emit t (.getTableRows S.tableName t.scope none none)

/-- Method `updateScope(newScope)`. -/
def updateScope (S : RowSchema Row Id) (t : AbstractTable Row Id) (newScope : QString) :
    AbstractTable Row Id :=
  if newScope ≠ t.scope then
    fullRefresh S (emit { t with scope := newScope } (.scopeChanged newScope))
  else t

/-- Notification of every model with `markRowStale(id)`; each model asks the table to
refresh the row. -/
def notifyMarkRowStale (S : RowSchema Row Id) (t : AbstractTable Row Id) (ident : Id) (now : Int) :
    AbstractTable Row Id :=
  t.models.foldl (fun acc _ => refreshRow S acc ident now) t

/-! ### Rows deleted, stale and new (journal) -/

/-- Method `deleteRow(id)`. -/
def deleteRow (S : RowSchema Row Id) (t : AbstractTable Row Id) (ident : Id) :
    AbstractTable Row Id :=
  let pos := lowerBound S.getId t.rowList ident
  let t1 :=
    match t.rowList[pos]? with
    | some row =>
      if S.getId row = ident then
        let state := t.rowStates.getD pos LoadState.Loaded
        let t2 := { t with rowStates := t.rowStates.eraseIdx pos, rowList := t.rowList.eraseIdx pos }
        if state = LoadState.PendingDelete then
          (deleteBackupRow S
            (emit t2 (.pendingEditSettled (Convert.toVariantMap S row)
              [(Strings.Deleted, QVariant.bool true)])) ident).2
        else if state = LoadState.DraftAdd ∨ state = LoadState.DraftEdit
            ∨ state = LoadState.DraftDelete then
          (deleteBackupRow S (emit t2 (.draftEditInvalidated (S.idFromValue ident))) ident).2
        else t2
      else t
    | none => t
  notifyDeleteRow t1 ident

/-- Method `markStale(id)`. -/
def markStale (S : RowSchema Row Id) (t : AbstractTable Row Id) (ident : Id) (now : Int) :
    AbstractTable Row Id :=
  let pos := lowerBound S.getId t.rowList ident
  match t.rowList[pos]? with
  | some row =>
    if S.getId row = ident then
      let state := t.rowStates.getD pos LoadState.Loaded
      if state = LoadState.PendingEdit ∨ state = LoadState.PendingDelete then
        refreshRow S t ident now
      else
        let t1 :=
          if state = LoadState.DraftAdd ∨ state = LoadState.DraftEdit
              ∨ state = LoadState.DraftDelete then
            let r := deleteBackupRow S (emit t (.draftEditInvalidated (S.idFromValue ident))) ident
            match r.1 with
            | some bak => { r.2 with rowList := r.2.rowList.set pos bak.1 }
            | none => r.2
          else t
        notifyMarkRowStale S { t1 with rowStates := t1.rowStates.set pos LoadState.Stale } ident now
    else notifyMarkRowStale S t ident now
  | none => notifyMarkRowStale S t ident now

/-- Method `getNew(id)`. -/
def getNew (S : RowSchema Row Id) (t : AbstractTable Row Id) (ident : Id) (now : Int) :
    AbstractTable Row Id :=
  let t1 := refreshRow S t ident now
  let pos := lowerBound S.getId t1.rowList ident
  if (t1.rowList[pos]?).map S.getId = some ident then t1
  else
    { t1 with rowList := t1.rowList.insertIdx pos (S.setId S.defaultInit ident),
              rowStates := t1.rowStates.insertIdx pos LoadState.Loading }

/-- The body of the `for_each` of `processJournal` for one entry. -/
def processJournalEntry (S : RowSchema Row Id) (t : AbstractTable Row Id) (entry : JournalEntry)
    (now : Int) : AbstractTable Row Id :=
  if entry.table = S.tableName ∧ QString.number entry.scope = t.scope then
    match entry.type with
    | JournalType.DeleteRow => deleteRow S t (S.journalKey entry.key)
    | JournalType.ModifyRow => markStale S t (S.journalKey entry.key) now
    | JournalType.AddRow => getNew S t (S.journalKey entry.key) now
  else t

/-- Method `processJournal(entries)`. -/
def processJournal (S : RowSchema Row Id) (t : AbstractTable Row Id) (entries : List JournalEntry)
    (now : Int) : AbstractTable Row Id :=
  entries.foldl (fun acc entry => processJournalEntry S acc entry now) t

/-! ### Draft edits -/

/-- The `while (!keys.empty())` loop of `draftEditRow` that copies changed values into the record
of a locally added row: a key that the record has is taken off the list, a key that it does not have
stays first. `none` when the loop has not finished after `fuel` turns. -/
def foldChanges : Nat → List QString → QVariantMap → QVariantMap → Option QVariantMap
  | _, [], record, _ => some record
  | 0, _ :: _, _, _ => none
  | fuel + 1, k :: ks, record, changeMap =>
    match QVariantMap.find record k with
    | some _ =>
      foldChanges fuel ks (QVariantMap.assign record k (QVariantMap.value changeMap k)) changeMap
    | none => foldChanges fuel (k :: ks) record changeMap

/-- Method `draftEditRow(rowId, changeMap)`; `none` when the loop over the keys of the change
map has not finished after `fuel` turns. The row is moved out of `rowList` into `oldRow` before
the id check, so a rejection by that check leaves the moved-from object in the list. -/
def draftEditRow (S : RowSchema Row Id) (fuel : Nat) (t : AbstractTable Row Id) (rowId : QVariant)
    (changeMap : QVariantMap) : Option (AbstractTable Row Id) :=
  if t.pendingEdits then some t
  else
    let ident := S.idValue rowId
    let pos := lowerBound S.getId t.rowList ident
    match t.rowList[pos]? with
    | none => some t
    | some oldRow =>
      if S.getId oldRow ≠ ident then some t
      else
        let rowState := t.rowStates.getD pos LoadState.Loaded
        if rowState = LoadState.DraftDelete then some t
        else
          let t0 := { t with rowList := t.rowList.set pos (S.moved oldRow) }
          let scratchRow := (Convert.fromVariantMap S changeMap oldRow).1
          if S.getId scratchRow ≠ S.getId oldRow then some t0
          else
            let edited : Option (AbstractTable Row Id) :=
              if rowState ≠ LoadState.DraftAdd ∧ rowState ≠ LoadState.DraftEdit then
                some { t0 with backups := t0.backups.save S oldRow rowState,
                               rowStates := t0.rowStates.set pos LoadState.DraftEdit }
              else if rowState = LoadState.DraftAdd then
                match findFirst (fun row => QVariant.cmp (QVariantMap.value row Strings.DraftId) rowId)
                    t0.locallyAddedRows with
                | some j =>
                  (foldChanges fuel (QVariantMap.keys changeMap) (t0.locallyAddedRows.getD j [])
                      changeMap).map
                    (fun record => { t0 with locallyAddedRows := t0.locallyAddedRows.set j record })
                | none => some t0
              else some t0
            edited.map (fun t1 =>
              notifyUpdateRows S { t1 with rowList := t1.rowList.set pos scratchRow } [scratchRow])

/-- The id that `draftAddRow` gives the new row, or `none` when it rejects the field map. -/
def draftAddId (S : RowSchema Row Id) (t : AbstractTable Row Id) (newRow : Row) : Option Id :=
  match S.kind with
  | IdKind.integral zero succ baseDraftId =>
    if S.getId newRow ≠ zero then none
    else
      match t.rowList.getLast? with
      | none => some baseDraftId
      | some last => if S.getId last < baseDraftId then some baseDraftId else some (succ (S.getId last))
  | IdKind.other =>
    if (getRow S t (S.getId newRow)).isSome then none else some (S.getId newRow)

/-- Method `draftAddRow(fieldMap)`. -/
def draftAddRow (S : RowSchema Row Id) (t : AbstractTable Row Id) (fieldMap : QVariantMap) :
    AbstractTable Row Id :=
  if t.pendingEdits then t
  else
    let parsed := (Convert.fromVariantMap S fieldMap S.valueInit).1
    match draftAddId S t parsed with
    | none => t
    | some ident =>
      let newRow := match S.kind with
        | IdKind.integral _ _ _ => S.setId parsed ident
        | IdKind.other => parsed
      let fieldMap1 := QVariantMap.insert fieldMap Strings.DraftId (S.idFromValue (S.getId newRow))
      let pos := lowerBound S.getId t.rowList (S.getId newRow)
      let t1 := { t with rowList := t.rowList.insertIdx pos newRow,
                         rowStates := t.rowStates.insertIdx pos LoadState.DraftAdd,
                         locallyAddedRows := t.locallyAddedRows ++ [fieldMap1] }
      notifyUpdateRows S { t1 with backups := t1.backups.save S newRow LoadState.DraftAdd } [newRow]

/-- Method `draftDeleteRow(rowId)`. -/
def draftDeleteRow (S : RowSchema Row Id) (t : AbstractTable Row Id) (rowId : QVariant) :
    AbstractTable Row Id :=
  if t.pendingEdits then t
  else
    let ident := S.idValue rowId
    let pos := lowerBound S.getId t.rowList ident
    match t.rowList[pos]? with
    | none => t
    | some row =>
      if S.getId row ≠ ident then t
      else
        let state := t.rowStates.getD pos LoadState.Loaded
        if state = LoadState.DraftAdd then
          let isDraft := fun (r : QVariantMap) => QVariant.cmp (QVariantMap.value r Strings.DraftId) rowId
          let t1 := { t with locallyAddedRows := t.locallyAddedRows.filter (fun r => !isDraft r) }
          (deleteBackupRow S (deleteRow S t1 ident) ident).2
        else
          notifyUpdateRows S
            { t with backups := t.backups.save S row state,
                     rowStates := t.rowStates.set pos LoadState.DraftDelete } [row]

/-- The state that `markEditsPending` gives a row in state `state`. -/
def pendingOf (state : LoadState) : LoadState :=
  if state = LoadState.DraftEdit then LoadState.PendingEdit
  else if state = LoadState.DraftAdd then LoadState.PendingAdd
  else if state = LoadState.DraftDelete then LoadState.PendingDelete
  else state

/-- The callback of the `forEach` of `markEditsPending` for one backup: the table afterwards and
the list `updates`. -/
def markPendingStep (S : RowSchema Row Id) (acc : AbstractTable Row Id × List Row) (bak : Row) :
    AbstractTable Row Id × List Row :=
  let pos := lowerBound S.getId acc.1.rowList (S.getId bak)
  match acc.1.rowList[pos]? with
  | some row =>
    if S.getId row = S.getId bak then
      ({ acc.1 with rowStates :=
          acc.1.rowStates.set pos (pendingOf (acc.1.rowStates.getD pos LoadState.Loaded)) },
       acc.2 ++ [row])
    else acc
  | none => acc

/-- Method `markEditsPending()`. -/
def markEditsPending (S : RowSchema Row Id) (t : AbstractTable Row Id) : AbstractTable Row Id :=
  let r := t.backups.rows.foldl (markPendingStep S) (t, [])
  let t1 := notifyUpdateRows S r.1 r.2
  if !t1.backups.isEmpty then emit { t1 with pendingEdits := true } (.hasPendingEditsChanged true)
  else t1

/-- The mutable `forEach` of the backup manager with the callback of `resetEdits`, from
position `i` on. The deleter decrements `i` and the loop increments it, so after a deletion the
loop goes on at the same position. `fuel` bounds the number of turns. -/
def resetEditsLoop (S : RowSchema Row Id) : Nat → Nat → AbstractTable Row Id → AbstractTable Row Id
  | 0, _, t => t
  | fuel + 1, i, t =>
    match t.backups.rows[i]? with
    | none => t
    | some bak =>
      let bakState := t.backups.states.getD i LoadState.Loaded
      let pos := lowerBound S.getId t.rowList (S.getId bak)
      let found := match t.rowList[pos]? with
        | some row => decide (S.getId row = S.getId bak)
        | none => false
      if found then
        let rowState := t.rowStates.getD pos LoadState.Loaded
        if rowState = LoadState.DraftAdd ∨ rowState = LoadState.PendingAdd then
          let t1 := deleteRow S t (S.getId bak)
          resetEditsLoop S fuel i { t1 with backups := t1.backups.removeAt i }
        else
          let t1 :=
            if rowState = LoadState.DraftEdit ∨ rowState = LoadState.PendingEdit then
              { t with rowList := t.rowList.set pos bak }
            else t
          resetEditsLoop S fuel (i + 1) { t1 with rowStates := t1.rowStates.set pos bakState }
      else
        resetEditsLoop S fuel i { t with backups := t.backups.removeAt i }

/-- Method `resetEdits()`. Every turn of the loop over the backups either removes a backup or
advances the position, so as many turns as there are backups suffice. -/
def resetEdits (S : RowSchema Row Id) (t : AbstractTable Row Id) : AbstractTable Row Id :=
  let t1 := resetEditsLoop S t.backups.rows.length 0 t
  let t2 := notifyUpdateRows S t1 t1.backups.rows
  { t2 with backups := t2.backups.clear, locallyAddedRows := [] }

/-! ### Rows from the backend -/

/-- The predicate `matchesRow` of `checkPendingInsertion`: every field that the map
specifies equals the field of the row. -/
def matchesRow (S : RowSchema Row Id) (newRow : Row) (newFields : QVariantMap) : Bool :=
  S.members.all (fun m =>
    match QVariantMap.find newFields m.name with
    | some v => @decide (m.value v = m.get newRow) (m.eqType _ _)
    | none => true)

/-- Method `checkPendingInsertion(newRow)`. -/
def checkPendingInsertion (S : RowSchema Row Id) (t : AbstractTable Row Id) (newRow : Row) :
    AbstractTable Row Id :=
  if !t.pendingEdits then t
  else if t.locallyAddedRows.isEmpty then t
  else
    match findFirst (matchesRow S newRow) t.locallyAddedRows with
    | none => t
    | some j =>
      let matchFields := t.locallyAddedRows.getD j []
      let t1 := { t with locallyAddedRows := t.locallyAddedRows.eraseIdx j }
      let draftID := S.idValue (QVariantMap.value matchFields Strings.DraftId)
      let t2 := if draftID ≠ S.getId newRow then deleteRow S t1 draftID else t1
      let t3 := emit t2 (.pendingEditSettled (QVariantMap.remove matchFields Strings.DraftId)
                  (Convert.toVariantMap S newRow))
      (deleteBackupRow S t3 draftID).2

/-- Method `checkOverwrittenEdit(oldRow, oldState, newRow)`. -/
def checkOverwrittenEdit (S : RowSchema Row Id) (t : AbstractTable Row Id) (oldRow : Row)
    (oldState : LoadState) (newRow : Row) : AbstractTable Row Id :=
  if ¬ oldState ∈ [LoadState.Loading, LoadState.DraftAdd, LoadState.DraftEdit,
      LoadState.DraftDelete, LoadState.PendingAdd, LoadState.PendingEdit,
      LoadState.PendingDelete] then t
  else
    let ident := S.getId oldRow
    let t1 :=
      if oldState = LoadState.DraftAdd then
        let t2 := emit t (.draftEditInvalidated (S.idFromValue ident))
        match findFirst (fun row => decide (S.idValue (QVariantMap.value row Strings.DraftId) = ident))
            t2.locallyAddedRows with
        | some j => { t2 with locallyAddedRows := t2.locallyAddedRows.eraseIdx j }
        | none => t2
      else if oldState = LoadState.DraftEdit then
        emit t (.draftEditInvalidated (S.idFromValue ident))
      else if oldState = LoadState.PendingEdit then
        emit t (.pendingEditSettled (Convert.toVariantMap S oldRow) (Convert.toVariantMap S newRow))
      else if oldState = LoadState.DraftDelete ∨ oldState = LoadState.PendingDelete then
        emit t (.draftEditInvalidated (S.idFromValue ident))
      else t
    (deleteBackupRow S t1 ident).2

/-- One turn of the `while` loop of `processRowsResponse` for the row `newRow` at the
iterator `pos`: overwrite or insert, then check against the edit tracking. -/
def placeRow (S : RowSchema Row Id) (t : AbstractTable Row Id) (pos : Nat) (newRow : Row) :
    AbstractTable Row Id :=
  let inserted := checkPendingInsertion S
    { t with rowList := t.rowList.insertIdx pos newRow,
             rowStates := t.rowStates.insertIdx pos LoadState.Loaded } newRow
  match t.rowList[pos]? with
  | some oldRow =>
    if S.getId oldRow = S.getId newRow then
      let oldState := t.rowStates.getD pos LoadState.Loaded
      let t1 := { t with rowList := t.rowList.set pos newRow,
                         rowStates := t.rowStates.set pos LoadState.Loaded }
      if oldState = LoadState.PendingAdd ∨ oldState = LoadState.Loading then
        checkPendingInsertion S t1 newRow
      else checkOverwrittenEdit S t1 oldRow oldState newRow
    else inserted
  | none => inserted

/-- What the table sends out when the backend overwrites a row that has a local edit. -/
def overwriteSignal (S : RowSchema Row Id) (oldRow newRow : Row) (oldState : LoadState) : Emitted :=
  if oldState = LoadState.PendingEdit then
    Emitted.pendingEditSettled (Convert.toVariantMap S oldRow) (Convert.toVariantMap S newRow)
  else Emitted.draftEditInvalidated (S.idFromValue (S.getId oldRow))

/-- One turn of the loop with the iterator at the lower bound of the id of `newRow`, where
`std::lower_bound` puts it. -/
def placeSorted (S : RowSchema Row Id) (t : AbstractTable Row Id) (newRow : Row) :
    AbstractTable Row Id :=
  placeRow S t (lowerBound S.getId t.rowList (S.getId newRow)) newRow

/-- The `while (newPos != newRows.end())` loop of `processRowsResponse`. The iterator `pos`
keeps its index when a nested `deleteRow` erases another row; on a list sorted by id the
search that follows finds the same position from there as from the neighbouring index. -/
def updateLoop (S : RowSchema Row Id) : List Row → Nat → AbstractTable Row Id → AbstractTable Row Id
  | [], _, t => t
  | newRow :: rest, pos, t =>
    let t1 := placeRow S t pos newRow
    match rest with
    | [] => t1
    | next :: _ => updateLoop S rest (lowerBoundFrom S.getId t1.rowList pos (S.getId next)) t1

/-- The step "check if there's more to load and load it" of `processRowsResponse`: the
request for the rows after `nextKey`, when the response of `count` rows names one. -/
def requestMore (S : RowSchema Row Id) (t : AbstractTable Row Id) (count : Nat)
    (nextKey : Option QString) (loadCount : Nat) : AbstractTable Row Id :=
  match nextKey with
  | some key =>
    if loadCount = 0 ∨ count < loadCount then
      emit t (.getTableRows S.tableName t.scope (some key) none)
    else t
  | none => t

/-- Method `processRowsResponse(reply, loadCount)`. -/
def processRowsResponse (S : RowSchema Row Id) (t : AbstractTable Row Id) (reply : RowsReply Row)
    (loadCount : Nat) : AbstractTable Row Id :=
  match reply with
  | RowsReply.networkError => t
  | RowsReply.notSensible => t
  | RowsReply.rows newRows nextKey =>
    let t0 := requestMore S t newRows.length nextKey loadCount
    match newRows with
    | [] => t0
    | first :: _ =>
      let pos := lowerBound S.getId t0.rowList (S.getId first)
      let t1 :=
        if pos = t0.rowList.length then
          { t0 with rowList := t0.rowList ++ newRows,
                    rowStates := t0.rowStates ++ List.replicate newRows.length LoadState.Loaded }
        else updateLoop S newRows pos t0
      notifyUpdateRows S t1 newRows

/-- The slot that `refreshRow(id)` connects to the reply of its request. -/
def refreshRowReply (S : RowSchema Row Id) (t : AbstractTable Row Id) (ident : Id)
    (reply : RowsReply Row) : AbstractTable Row Id :=
  processRowsResponse S { t with loadingRows := loadingErase t.loadingRows ident } reply 1

/-- Method `allRows()` at the clock reading `now`: the first model asks for a full refresh; the
constructor of the model takes the ids of all cached rows for its `modelIds` and refreshes the
rows that are stale. -/
def allRows (S : RowSchema Row Id) (t : AbstractTable Row Id) (now : Int) : AbstractTable Row Id :=
  let t1 := if t.models.isEmpty then fullRefresh S t else t
  let stale := (t1.rowList.zip t1.rowStates).filter (fun e => e.2 = LoadState.Stale)
  let t2 := stale.foldl (fun acc e => refreshRow S acc (S.getId e.1) now) t1
  { t2 with models := t2.models ++ [t1.rowList.map S.getId] }

/-- The `modelIds` of every model are the ids of the cached rows, in order. -/
def ModelsFollow (S : RowSchema Row Id) (t : AbstractTable Row Id) : Prop :=
  ∀ ids ∈ t.models, ids = t.rowList.map S.getId

end AbstractTable

/-! ## The reflected row types of `Tables.hpp` -/

/-- Struct `PollingGroup`, a row of the table `poll.groups`. -/
structure PollingGroup where
  id : Nat
  name : QString
  tags : List QString
deriving DecidableEq, Repr

/-- Struct `GroupMember`, a row of the table `group.accts`. -/
structure GroupMember where
  account : QString
  weight : Nat
  tags : List QString
deriving DecidableEq, Repr

namespace eosio

/-- The character map of `name_to_string`, `".12345abcdefghijklmnopqrstuvwxyz"`. -/
def charmap : List Nat := (QString.ofString ".12345abcdefghijklmnopqrstuvwxyz").units

/-- The characters `str[0] .. str[k-1]` that the loop of `name_to_string` writes for the upper
bits `tmp`, five bits a character. -/
def upperChars : Nat → Nat → List Nat
  | 0, _ => []
  | k + 1, tmp => upperChars k (tmp / 32) ++ [charmap.getD (tmp % 32) 46]

/-- Function `eosio::name_to_string(name)`. -/
def name_to_string (name : Nat) : QString :=
  ⟨((upperChars 12 (name / 16) ++ [charmap.getD (name % 16) 46]).reverse.dropWhile
      (fun c => c = 46)).reverse⟩

/-- Function `eosio::char_to_symbol(c)` on the code of the character `c`. -/
def char_to_symbol (c : Nat) : Nat :=
  if 97 ≤ c ∧ c ≤ 122 then c - 97 + 6
  else if 49 ≤ c ∧ c ≤ 53 then c - 49 + 1
  else 0

/-- The character `str[i].toLatin1()`: a code unit above 255 has no Latin-1 character and gives
the null character, and so does a read at an index that is not below the length (there Qt reads
the terminator of the string). -/
def latin1At (str : QString) (i : Nat) : Nat :=
  if str.units.getD i 0 > 255 then 0 else str.units.getD i 0

/-- The `for` loop of `string_to_uint64_t` from the index `i` with the value `n`: the index and
the value at the exit, and the positions of `str` that were read, in order. `fuel` bounds the
number of turns, of which there are at most 12. -/
def encodeLoop (str : QString) : Nat → Nat → Nat → List Nat → Nat × Nat × List Nat
  | 0, i, n, reads => (i, n, reads)
  | fuel + 1, i, n, reads =>
    if i < str.units.length ∧ i < 12 then
      encodeLoop str fuel (i + 1)
        (n ||| ((char_to_symbol (latin1At str i) &&& 0x1f) <<< (64 - 5 * (i + 1))) % 2 ^ 64)
        (reads ++ [i])
    else (i, n, reads)

/-- Function `eosio::string_to_uint64_t(str)` with the positions of `str` that it reads. -/
def string_to_uint64_t_trace (str : QString) : Nat × List Nat :=
  let r := encodeLoop str 12 0 0 []
  if r.1 = 12 then
    (r.2.1 ||| (char_to_symbol (latin1At str 12) &&& 0x0F), r.2.2 ++ [12])
  else (r.2.1, r.2.2)

/-- Function `eosio::string_to_uint64_t(str)`. -/
def string_to_uint64_t (str : QString) : Nat := (string_to_uint64_t_trace str).1

/-- The symbol of the character at position `i` of `str`, 0 past the end. -/
def symbolAt (str : QString) (i : Nat) : Nat := char_to_symbol (latin1At str i)

/-- The upper bits of the name whose first `i` symbols are `f 0 .. f (i - 1)`, five bits a
symbol from bit 59 down. -/
def upperBits (f : Nat → Nat) : Nat → Nat
  | 0 => 0
  | i + 1 => upperBits f i + (f i % 32) * 2 ^ (59 - 5 * i)

/-- The name with the symbols `f 0 .. f 12`: twelve symbols of five bits and one of four. -/
def nameValue (f : Nat → Nat) : Nat := upperBits f 12 + f 12 % 16

end eosio

/-- The instance of the table template for `PollingGroup`; `baseDraftId` is the constant
`BASE_DRAFT_ID`. The id of a default-initialised row is indeterminate; `getNew`, the one place
that default-initialises a row, sets the id before it is read. -/
def PollingGroup.schema (baseDraftId : Nat) : RowSchema PollingGroup Nat where
  tableName := QString.ofString "poll.groups"
  members :=
    [ { name := QString.ofString "id", type := Nat, eqType := inferInstance,
        get := fun r => r.id, set := fun r v => { r with id := v },
        fromValue := QVariant.ulonglong, value := QVariant.toULongLong },
      { name := QString.ofString "name", type := QString, eqType := inferInstance,
        get := fun r => r.name, set := fun r v => { r with name := v },
        fromValue := QVariant.string, value := QVariant.toQString },
      { name := QString.ofString "tags", type := List QString, eqType := inferInstance,
        get := fun r => r.tags, set := fun r v => { r with tags := v },
        fromValue := QVariant.stringList, value := QVariant.toQStringList } ]
  getId := fun r => r.id
  setId := fun r i => { r with id := i }
  valueInit := ⟨0, QString.empty, []⟩
  defaultInit := ⟨0, QString.empty, []⟩
  moved := fun r => ⟨r.id, QString.empty, []⟩
  idFromValue := QVariant.ulonglong
  idValue := QVariant.toULongLong
  kind := IdKind.integral 0 (fun i => (i + 1) % 2 ^ 64) baseDraftId
  journalKey := fun k => k
  lowerBoundText := QString.number

/-- The instance of the table template for `GroupMember`; `indeterminate` is the weight that
a default-initialised row happens to hold. -/
def GroupMember.schema (indeterminate : Nat) : RowSchema GroupMember QString where
  tableName := QString.ofString "group.accts"
  members :=
    [ { name := QString.ofString "account", type := QString, eqType := inferInstance,
        get := fun r => r.account, set := fun r v => { r with account := v },
        fromValue := QVariant.string, value := QVariant.toQString },
      { name := QString.ofString "weight", type := Nat, eqType := inferInstance,
        get := fun r => r.weight, set := fun r v => { r with weight := v },
        fromValue := QVariant.ulonglong, value := fun v => QVariant.toULongLong v % 2 ^ 32 },
      { name := QString.ofString "tags", type := List QString, eqType := inferInstance,
        get := fun r => r.tags, set := fun r v => { r with tags := v },
        fromValue := QVariant.stringList, value := QVariant.toQStringList } ]
  getId := fun r => r.account
  setId := fun r i => { r with account := i }
  valueInit := ⟨QString.empty, 0, []⟩
  defaultInit := ⟨QString.empty, indeterminate, []⟩
  moved := fun r => ⟨QString.empty, r.weight, []⟩
  idFromValue := QVariant.string
  idValue := QVariant.toQString
  kind := IdKind.other
  journalKey := eosio.name_to_string
  lowerBoundText := fun i => QString.append (QString.append (QString.ofString "\"") i)
    (QString.ofString "\"")

/-! ## The journal side of `BlockchainInterface` -/

/-- Enumeration `BlockchainInterface::SyncStatus`. -/
inductive SyncStatus where
  | Idle
  | WaitingForConnection
  | RecoveringConnection
  | Connected
  | Synchronized
  | SynchronizedStale
deriving DecidableEq, Repr

/-- Signals of `BlockchainInterface` that the journal processing emits. -/
inductive ChainSignal where
  | syncStatusChanged (status : SyncStatus)
  | nodeResponseNonsense
  | newJournalEntries (entries : List JournalEntry)
  | refreshAllTables
deriving DecidableEq, Repr

/-- Class `BlockchainInterface_Private`, the fields that the journal processing reads and
writes, and the log of the signals of the interface, oldest first. -/
structure BlockchainInterface where
  syncStatus : SyncStatus
  lastJournalEntry : JournalEntry
  emitted : List ChainSignal
deriving DecidableEq, Repr

/-- What comes back for the journal request, as `processJournalReply` tells it apart. -/
inductive JournalReply where
  | networkError
  | notSensible
  | rows (entries : List JournalEntry)

namespace BlockchainInterface

/-- Method `updateSyncStatus(status)`. -/
def updateSyncStatus (d : BlockchainInterface) (status : SyncStatus) : BlockchainInterface :=
  if status ≠ d.syncStatus then
    { d with syncStatus := status, emitted := d.emitted ++ [.syncStatusChanged status] }
  else d

/-- Method `processJournalReply(reply)`. The predicate `isValid` is `JournalEntry::isValid()`,
declared in `AbstractTableInterface.hpp`, which is not among the sources; the sum
`lastJournalEntry.id + 1` is taken in the 64-bit id type. -/
def processJournalReply (isValid : JournalEntry → Bool) (d : BlockchainInterface)
    (reply : JournalReply) : BlockchainInterface :=
  match reply with
  | JournalReply.networkError => d
  | JournalReply.notSensible =>
    updateSyncStatus { d with emitted := d.emitted ++ [.nodeResponseNonsense] }
      SyncStatus.RecoveringConnection
  | JournalReply.rows entries =>
    match entries.head?, entries.getLast? with
    | some first, some last =>
      let d1 : BlockchainInterface :=
        if isValid d.lastJournalEntry ∧ first.id = (d.lastJournalEntry.id + 1) % 2 ^ 64 then
          { d with emitted := d.emitted ++ [ChainSignal.newJournalEntries entries] }
        else { d with emitted := d.emitted ++ [ChainSignal.refreshAllTables] }
      { d1 with lastJournalEntry := last }
    | _, _ => d

end BlockchainInterface

/-! ## The connection side of `BlockchainInterface` -/

/-- The value of a status in the enumeration `SyncStatus`, where `Connected = 7`. -/
def SyncStatus.value : SyncStatus → Nat
  | SyncStatus.Idle => 0
  | SyncStatus.WaitingForConnection => 1
  | SyncStatus.RecoveringConnection => 2
  | SyncStatus.Connected => 7
  | SyncStatus.Synchronized => 8
  | SyncStatus.SynchronizedStale => 9

/-- The interface with two more members of `BlockchainInterface_Private` that the setters and the
slots of `connectNetworkReply` use: `headBlockTime`, in seconds since the epoch, and
`syncStaleSeconds`. The log `chain.emitted` does not record the signals `nodeError` and
`syncStaleSecondsChanged`. -/
structure Connection where
  chain : BlockchainInterface
  headBlockTime : Int
  syncStaleSeconds : Nat
deriving DecidableEq, Repr

/-- The completion of a call: whether the reply has an error, and the clock reading, in seconds
since the epoch, when its slots run. -/
structure Completion where
  failed : Bool
  now : Int
deriving DecidableEq, Repr

namespace Connection

/-- The interface as constructed: status `Idle`, `syncStaleSeconds` 10. -/
def init (lastJournalEntry : JournalEntry) (headBlockTime : Int) : Connection :=
  { chain := { syncStatus := SyncStatus.Idle, lastJournalEntry := lastJournalEntry, emitted := [] },
    headBlockTime := headBlockTime, syncStaleSeconds := 10 }

/-- Method `setSyncStaleSeconds(syncStaleSeconds)`. -/
def setSyncStaleSeconds (c : Connection) (syncStaleSeconds : Nat) : Connection :=
  if c.syncStaleSeconds = syncStaleSeconds then c
  else { c with syncStaleSeconds := syncStaleSeconds }

/-- Method `disconnect()`, as far as the status goes. -/
def disconnect (c : Connection) : Connection :=
  if c.chain.syncStatus ≠ SyncStatus.Idle then
    { c with chain := { c.chain with
        syncStatus := SyncStatus.Idle,
        emitted := c.chain.emitted ++ [ChainSignal.syncStatusChanged SyncStatus.Idle] } }
  else c

/-- Method `connectNow()` with a valid node URL, as far as the status goes. -/
def connectNow (c : Connection) : Connection :=
  { c with chain := { (disconnect c).chain with
      syncStatus := SyncStatus.WaitingForConnection,
      emitted := (disconnect c).chain.emitted
        ++ [ChainSignal.syncStatusChanged SyncStatus.WaitingForConnection] } }

/-- The slot that `connectNetworkReply` connects to `QNetworkReply::finished`. -/
def replyFinished (c : Connection) (error : Bool) (now : Int) : Connection :=
  if error then c
  else
    let stale : Bool := now - c.headBlockTime > 10
    let status := if stale then SyncStatus.SynchronizedStale else SyncStatus.Synchronized
    { c with chain := BlockchainInterface.updateSyncStatus c.chain status }

/-- The slot that `connectNetworkReply` connects to `QNetworkReply::errorOccurred`. -/
def replyErrorOccurred (c : Connection) : Connection :=
  let status :=
    if c.chain.syncStatus.value > SyncStatus.Connected.value then SyncStatus.RecoveringConnection
    else SyncStatus.WaitingForConnection
  { c with chain := BlockchainInterface.updateSyncStatus c.chain status }

/-- The slots of `connectNetworkReply` for one completed call: a reply with an error signals
`errorOccurred` and then `finished`, a reply without one signals `finished`. -/
def complete (c : Connection) (e : Completion) : Connection :=
  if e.failed then replyFinished (replyErrorOccurred c) true e.now
  else replyFinished c false e.now

/-- The slots for a sequence of completed calls, in order. -/
def completeAll (c : Connection) (es : List Completion) : Connection := es.foldl complete c

end Connection

/-! ## Reachable tables and the backup invariant -/

namespace AbstractTable

variable {Row Id : Type} [LinearOrder Id]

/-- The tables that the operations of the table reach from the empty table. -/
inductive Reachable (S : RowSchema Row Id) : AbstractTable Row Id → Prop where
  | init (scope : QString) : Reachable S (init scope)
  | processRowsResponse (t : AbstractTable Row Id) (reply : RowsReply Row) (loadCount : Nat) :
      Reachable S t → Reachable S (processRowsResponse S t reply loadCount)
  | processJournal (t : AbstractTable Row Id) (entries : List JournalEntry) (now : Int) :
      Reachable S t → Reachable S (processJournal S t entries now)
  | draftAddRow (t : AbstractTable Row Id) (fieldMap : QVariantMap) :
      Reachable S t → Reachable S (draftAddRow S t fieldMap)
  | draftEditRow (t t1 : AbstractTable Row Id) (fuel : Nat) (rowId : QVariant)
      (changeMap : QVariantMap) :
      Reachable S t → draftEditRow S fuel t rowId changeMap = some t1 → Reachable S t1
  | draftDeleteRow (t : AbstractTable Row Id) (rowId : QVariant) :
      Reachable S t → Reachable S (draftDeleteRow S t rowId)
  | markEditsPending (t : AbstractTable Row Id) :
      Reachable S t → Reachable S (markEditsPending S t)
  | resetEdits (t : AbstractTable Row Id) :
      Reachable S t → Reachable S (resetEdits S t)

/-- The state is one of the `Draft*` and `Pending*` states. -/
def isLocalEdit (state : LoadState) : Bool :=
  state = LoadState.DraftAdd ∨ state = LoadState.DraftEdit ∨ state = LoadState.DraftDelete
    ∨ state = LoadState.PendingAdd ∨ state = LoadState.PendingEdit
    ∨ state = LoadState.PendingDelete

/-- The backup invariant: the backup ledger has an entry for `k` if and only if the cache holds a
row with id `k` in a `Draft*` or `Pending*` state. -/
def BackupInvariant (S : RowSchema Row Id) (t : AbstractTable Row Id) : Prop :=
  ∀ k, (t.backups.get S k).isSome = true ↔
    ∃ row state, getRow S t k = some (row, state) ∧ isLocalEdit state = true

end AbstractTable

/-! ## Concrete tables for the statements -/

namespace Examples

/-- A value of the constant `BASE_DRAFT_ID` for the examples. -/
def baseDraftId : Nat := 2 ^ 63

/-- The schema of the polling groups table with that constant. -/
def groups : RowSchema PollingGroup Nat := PollingGroup.schema baseDraftId

/-- The schema of the group members table. -/
def members : RowSchema GroupMember QString := GroupMember.schema 0

/-- The scope of the example tables. -/
def scope : QString := QString.ofString "1"

/-- A polling group with no tags. -/
def group (id : Nat) (name : String) : PollingGroup := ⟨id, QString.ofString name, []⟩

/-- A group member with no tags. -/
def member (account : String) (weight : Nat) : GroupMember := ⟨QString.ofString account, weight, []⟩

/-- The polling groups table that holds the one row `{id: 5, value: A}` in the given state, with
the backup `{id: 5, state: Loaded, value: Z}`, shown by one model. -/
def editedTable (state : LoadState) (pending : Bool) : AbstractTable PollingGroup Nat :=
  { scope := scope, rowList := [group 5 "A"], rowStates := [state], locallyAddedRows := [],
    backups := ⟨[group 5 "Z"], [LoadState.Loaded]⟩, pendingEdits := pending, loadingRows := [],
    models := [[5]], emitted := [] }

/-- The polling groups table after the backend delivered the rows with the ids 0 and
`2 ^ 64 - 1`. -/
def fullRangeTable : AbstractTable PollingGroup Nat :=
  AbstractTable.processRowsResponse groups (AbstractTable.init scope)
    (RowsReply.rows [group 0 "first", group (2 ^ 64 - 1) "last"] none) 0

/-- The group members table after the backend delivered the rows of `alice` and `bob`. -/
def membersTable : AbstractTable GroupMember QString :=
  AbstractTable.processRowsResponse members (AbstractTable.init scope)
    (RowsReply.rows [member "alice" 1, member "bob" 2] none) 0

/-- The group members table after the backend delivered the row of `bob`. -/
def bobTable : AbstractTable GroupMember QString :=
  AbstractTable.processRowsResponse members (AbstractTable.init scope)
    (RowsReply.rows [member "bob" 2] none) 0

/-- The polling groups table after two calls of `draftAddRow` on the empty table. -/
def twoDraftsTable (baseDraftId : Nat) : AbstractTable PollingGroup Nat :=
  AbstractTable.draftAddRow (PollingGroup.schema baseDraftId)
    (AbstractTable.draftAddRow (PollingGroup.schema baseDraftId) (AbstractTable.init scope) []) []

/-- The polling groups table after `draftAddRow` and `markEditsPending` on the empty table. -/
def pendingAddTable : AbstractTable PollingGroup Nat :=
  AbstractTable.markEditsPending groups (AbstractTable.draftAddRow groups (AbstractTable.init scope) [])

/-- The group members table with the row of `bob` from the backend and the draft-added row of
`alice`. -/
def aliceDraftTable : AbstractTable GroupMember QString :=
  AbstractTable.draftAddRow members bobTable
    [(QString.ofString "account", QVariant.string (QString.ofString "alice"))]

/-- A change map that sets the weight. -/
def setWeight (weight : Nat) : QVariantMap := [(QString.ofString "weight", QVariant.ulonglong weight)]

/-- The field map `{name: "X"}` of a new polling group. -/
def nameX : QVariantMap := [(QString.ofString "name", QVariant.string (QString.ofString "X"))]

/-- A journal entry with the given id. -/
def entry (id : Nat) : JournalEntry :=
  { id := id, timestamp := 0, table := QString.ofString "poll.groups", scope := 1, key := 7,
    type := JournalType.ModifyRow }

/-- The polling groups table after the backend delivered the row `{id: 5, name: "Z"}`. -/
def loadedTable : AbstractTable PollingGroup Nat :=
  AbstractTable.processRowsResponse groups (AbstractTable.init scope)
    (RowsReply.rows [group 5 "Z"] none) 0

/-- A change map that names the id field, `{id: 6}`. -/
def setId6 : QVariantMap := [(QString.ofString "id", QVariant.ulonglong 6)]

/-- The table `loadedTable` after `draftEditRow(5, {name: "X"})` and `markEditsPending()`. -/
def submittedTable : Option (AbstractTable PollingGroup Nat) :=
  (AbstractTable.draftEditRow groups 0 loadedTable (QVariant.ulonglong 5) nameX).map
    (AbstractTable.markEditsPending groups)

/-- The empty polling groups table after `refreshRow(5)` at second 0, whose request is not
answered. -/
def waitingTable : AbstractTable PollingGroup Nat :=
  AbstractTable.refreshRow groups (AbstractTable.init scope) 5 0

/-- The field map `{account: "alice"}` of a new group member. -/
def aliceMap : QVariantMap :=
  [(QString.ofString "account", QVariant.string (QString.ofString "alice"))]

/-- The empty group members table after `draftAddRow({account: "alice"})` and a `deleteRow` of
`alice`, as a journal entry asks for it: the draft row and its backup are gone, the record of the
draft add is still in `locallyAddedRows`. -/
def staleRecordTable : AbstractTable GroupMember QString :=
  AbstractTable.deleteRow members
    (AbstractTable.draftAddRow members (AbstractTable.init scope) aliceMap) (QString.ofString "alice")

/-- The empty polling groups table after `draftAddRow({name: "X"})`. -/
def draftXTable : AbstractTable PollingGroup Nat :=
  AbstractTable.draftAddRow groups (AbstractTable.init scope) nameX

/-- A change map that sets the tags, `{tags: ["t"]}`. -/
def setTags : QVariantMap := [(QString.ofString "tags", QVariant.stringList [QString.ofString "t"])]

/-- A change map that sets the name, `{name: "Y"}`. -/
def nameY : QVariantMap := [(QString.ofString "name", QVariant.string (QString.ofString "Y"))]

/-- The empty polling groups table with one model, from `allRows()` at second 0. -/
def watchedTable : AbstractTable PollingGroup Nat :=
  AbstractTable.allRows groups (AbstractTable.init scope) 0

/-- The empty group members table after `draftAddRow({account: "alice"})`. -/
def aliceOnlyTable : AbstractTable GroupMember QString :=
  AbstractTable.draftAddRow members (AbstractTable.init scope) aliceMap

/-- The interface after `connectNow()`, with the head block time of second 0. -/
def connected : Connection := Connection.connectNow (Connection.init (entry 0) 0)

/-- A name of twelve characters. -/
def twelve : QString := QString.ofString "aaaaaaaaaaaa"

/-- The journal entry of the deletion of the row 5 of the polling groups table of scope 1. -/
def deleteEntry : JournalEntry :=
  { id := 1, timestamp := 0, table := QString.ofString "poll.groups", scope := 1, key := 5,
    type := JournalType.DeleteRow }

end Examples

/-! ## Theorems -/

set_option linter.unusedSectionVars false

/-! ## Positions and lookups in lists ordered by key -/

section ListFacts

variable {α σ Id : Type} [LinearOrder Id] (key : α → Id)

theorem lowerBound_le_length (l : List α) (k : Id) : lowerBound key l k ≤ l.length := by
  induction l with
  | nil => simp [lowerBound]
  | cons a l ih =>
    simp only [lowerBound, List.length_cons]
    split_ifs <;> omega

theorem lowerBound_lt_of_getElem? (l : List α) (k : Id) (i : Nat) (a : α)
    (hi : i < lowerBound key l k) (ha : l[i]? = some a) : key a < k := by
  induction l generalizing i with
  | nil => simp [lowerBound] at hi
  | cons b l ih =>
    simp only [lowerBound] at hi
    split_ifs at hi with hb
    · cases i with
      | zero => simp at ha; subst ha; exact hb
      | succ j => simp at ha; exact ih j (by omega) ha
    · omega

theorem lowerBound_getElem?_not_lt (l : List α) (k : Id) (a : α)
    (ha : l[lowerBound key l k]? = some a) : ¬ key a < k := by
  induction l with
  | nil => simp at ha
  | cons b l ih =>
    simp only [lowerBound] at ha
    split_ifs at ha with hb
    · simp at ha; exact ih ha
    · simp at ha; subst ha; exact hb

theorem lowerBoundFrom_eq (l : List α) (k : Id) (p : Nat) (hp : p ≤ lowerBound key l k) :
    lowerBoundFrom key l p k = lowerBound key l k := by
  unfold lowerBoundFrom
  induction l generalizing p with
  | nil => simp [lowerBound] at hp ⊢; exact hp
  | cons b l ih =>
    cases p with
    | zero => simp
    | succ q =>
      simp only [lowerBound] at hp ⊢
      split_ifs at hp ⊢ with hb
      · have := ih q (by omega)
        simp only [List.drop_succ_cons]
        omega
      · omega

theorem lowerBound_eraseIdx (l : List α) (k : Id) (j : Nat) :
    lowerBound key l k ≤ lowerBound key (l.eraseIdx j) k + 1 := by
  induction l generalizing j with
  | nil => simp [lowerBound]
  | cons b l ih =>
    cases j with
    | zero =>
      simp only [List.eraseIdx_cons_zero, lowerBound]
      split_ifs <;> omega
    | succ i =>
      simp only [List.eraseIdx_cons_succ, lowerBound]
      split_ifs
      · have := ih i; omega
      · omega

theorem lowerBound_set_succ_le (l : List α) (x a : α) (k : Id)
    (ha : l[lowerBound key l (key x)]? = some a) (hk : key x < k) :
    lowerBound key l (key x) + 1 ≤ lowerBound key (l.set (lowerBound key l (key x)) x) k := by
  induction l with
  | nil => simp at ha
  | cons b l ih =>
    simp only [lowerBound] at ha ⊢
    split_ifs at ha ⊢ with hb
    · simp only [List.getElem?_cons_succ] at ha
      simp only [List.set_cons_succ, lowerBound, if_pos (lt_trans hb hk)]
      have := ih ha
      omega
    · simp only [List.set_cons_zero, lowerBound, if_pos hk]
      omega

theorem lowerBound_insertIdx_succ_le (l : List α) (x : α) (k : Id) (hk : key x < k) :
    lowerBound key l (key x) + 1 ≤ lowerBound key (l.insertIdx (lowerBound key l (key x)) x) k := by
  induction l with
  | nil => simp [lowerBound, hk]
  | cons b l ih =>
    simp only [lowerBound]
    split_ifs with hb
    · rw [List.insertIdx_succ_cons]
      simp only [lowerBound, if_pos (lt_trans hb hk)]
      have := ih
      omega
    · simp only [List.insertIdx_zero, lowerBound, if_pos hk]
      omega

theorem findFirst_some {β : Type} (p : β → Bool) (l : List β) (j : Nat)
    (h : findFirst p l = some j) : ∃ a, l[j]? = some a ∧ p a = true := by
  induction l generalizing j with
  | nil => simp [findFirst] at h
  | cons b l ih =>
    simp only [findFirst] at h
    split_ifs at h with hb
    · simp only [Option.some.injEq] at h
      subst h
      exact ⟨b, by simp, hb⟩
    · cases hf : findFirst p l with
      | none => rw [hf] at h; simp at h
      | some i =>
        rw [hf] at h
        simp only [Option.map_some', Option.some.injEq] at h
        subst h
        obtain ⟨a, ha, hp⟩ := ih i hf
        exact ⟨a, by simpa using ha, hp⟩

theorem findFirst_none {β : Type} (p : β → Bool) (l : List β)
    (h : findFirst p l = none) : ∀ a ∈ l, p a = false := by
  induction l with
  | nil => simp
  | cons b l ih =>
    simp only [findFirst] at h
    split_ifs at h with hb
    cases hf : findFirst p l with
    | none =>
      intro a ha
      rcases List.mem_cons.mp ha with h1 | h1
      · subst h1; simpa using hb
      · exact ih hf a h1
    | some i => rw [hf] at h; simp at h

theorem lookup_eq_none (l : List α) (ss : List σ) (k : Id) (h : ∀ a ∈ l, key a ≠ k) :
    lookup key l ss k = none := by
  induction l generalizing ss with
  | nil => cases ss <;> rfl
  | cons b l ih =>
    cases ss with
    | nil => rfl
    | cons s ss =>
      simp only [lookup, if_neg (h b (List.mem_cons_self b l))]
      exact ih ss (fun a ha => h a (List.mem_cons_of_mem b ha))

theorem lookup_some_mem (l : List α) (ss : List σ) (k : Id) (e : α × σ)
    (h : lookup key l ss k = some e) : e.1 ∈ l ∧ key e.1 = k := by
  induction l generalizing ss with
  | nil => cases ss <;> simp [lookup] at h
  | cons b l ih =>
    cases ss with
    | nil => simp [lookup] at h
    | cons s ss =>
      simp only [lookup] at h
      split_ifs at h with hb
      · simp at h; subst h; exact ⟨List.mem_cons_self b l, hb⟩
      · have := ih ss h
        exact ⟨List.mem_cons_of_mem b this.1, this.2⟩

theorem lookup_isSome_of_mem (l : List α) (ss : List σ) (k : Id) (hl : ss.length = l.length)
    (a : α) (ha : a ∈ l) (hk : key a = k) : (lookup key l ss k).isSome = true := by
  induction l generalizing ss with
  | nil => simp at ha
  | cons b l ih =>
    cases ss with
    | nil => simp at hl
    | cons s ss =>
      simp only [lookup]
      split_ifs with hb
      · rfl
      · rcases List.mem_cons.mp ha with h | h
        · subst h; exact absurd hk hb
        · exact ih ss (by simpa using hl) h

theorem lookupAt_eq_lookup (l : List α) (ss : List σ) (d : σ) (k : Id)
    (hs : StrictlySorted key l) (hl : ss.length = l.length) :
    (match l[lowerBound key l k]? with
     | some r => if key r = k then some (r, ss.getD (lowerBound key l k) d) else none
     | none => none) = lookup key l ss k := by
  induction l generalizing ss with
  | nil => cases ss <;> simp [lookup, lowerBound]
  | cons b l ih =>
    cases ss with
    | nil => simp at hl
    | cons s ss =>
      have hs' := List.pairwise_cons.mp hs
      simp only [lowerBound, lookup]
      by_cases hb : key b < k
      · simp only [if_pos hb, if_neg (ne_of_lt hb), List.getElem?_cons_succ, List.getD_cons_succ]
        exact ih ss hs'.2 (by simpa using hl)
      · by_cases hb' : key b = k
        · simp [hb, hb']
        · simp only [if_neg hb, List.getElem?_cons_zero, if_neg hb']
          symm
          apply lookup_eq_none
          intro a ha
          have h1 := hs'.1 a ha
          have h2 : k < key b := lt_of_le_of_ne (not_lt.mp hb) (Ne.symm hb')
          exact ne_of_gt (lt_trans h2 h1)

theorem lookup_set_lowerBound (l : List α) (ss : List σ) (x a : α) (s : σ) (k : Id)
    (hl : ss.length = l.length)
    (ha : l[lowerBound key l (key x)]? = some a) (hk : key a = key x) :
    lookup key (l.set (lowerBound key l (key x)) x) (ss.set (lowerBound key l (key x)) s) k
      = if k = key x then some (x, s) else lookup key l ss k := by
  induction l generalizing ss with
  | nil => simp at ha
  | cons b l ih =>
    cases ss with
    | nil => simp at hl
    | cons s0 ss =>
      simp only [lowerBound] at ha ⊢
      by_cases hb : key b < key x
      · simp only [if_pos hb, List.getElem?_cons_succ] at ha
        simp only [if_pos hb, List.set_cons_succ, lookup]
        rw [ih ss (by simpa using hl) ha]
        by_cases hkx : k = key x
        · subst hkx
          simp [ne_of_lt hb]
        · simp [hkx]
      · simp only [if_neg hb, List.getElem?_cons_zero, Option.some.injEq] at ha
        subst ha
        simp only [if_neg hb, List.set_cons_zero, lookup]
        by_cases hkx : k = key x
        · subst hkx
          simp
        · have h1 : ¬ key x = k := fun h => hkx h.symm
          have h2 : ¬ key b = k := by rw [hk]; exact h1
          simp [hkx, h1, h2]

theorem lookup_insertIdx_lowerBound (l : List α) (ss : List σ) (x : α) (s : σ) (k : Id)
    (hl : ss.length = l.length)
    (hno : ∀ a, l[lowerBound key l (key x)]? = some a → key a ≠ key x) :
    lookup key (l.insertIdx (lowerBound key l (key x)) x)
        (ss.insertIdx (lowerBound key l (key x)) s) k
      = if k = key x then some (x, s) else lookup key l ss k := by
  induction l generalizing ss with
  | nil =>
    cases ss with
    | nil =>
      simp only [lowerBound, List.insertIdx_zero, lookup]
      split_ifs with h1 h2 h2 <;> first | rfl | exact absurd h1.symm h2 | exact absurd h2.symm h1
    | cons s0 ss => simp at hl
  | cons b l ih =>
    cases ss with
    | nil => simp at hl
    | cons s0 ss =>
      simp only [lowerBound] at hno ⊢
      by_cases hb : key b < key x
      · simp only [if_pos hb, List.getElem?_cons_succ] at hno
        simp only [if_pos hb]
        rw [List.insertIdx_succ_cons, List.insertIdx_succ_cons]
        simp only [lookup]
        rw [ih ss (by simpa using hl) hno]
        by_cases hkx : k = key x
        · subst hkx
          simp [ne_of_lt hb]
        · simp [hkx]
      · simp only [if_neg hb, List.insertIdx_zero, lookup]
        by_cases hkx : k = key x
        · subst hkx
          simp
        · have h1 : ¬ key x = k := fun h => hkx h.symm
          simp [hkx, h1]

theorem lookup_eraseIdx_lowerBound (l : List α) (ss : List σ) (d k : Id) (a : α)
    (hs : StrictlySorted key l) (hl : ss.length = l.length)
    (ha : l[lowerBound key l d]? = some a) (hk : key a = d) :
    lookup key (l.eraseIdx (lowerBound key l d)) (ss.eraseIdx (lowerBound key l d)) k
      = if k = d then none else lookup key l ss k := by
  induction l generalizing ss with
  | nil => simp at ha
  | cons b l ih =>
    cases ss with
    | nil => simp at hl
    | cons s0 ss =>
      have hs' := List.pairwise_cons.mp hs
      simp only [lowerBound] at ha ⊢
      by_cases hb : key b < d
      · simp only [if_pos hb, List.getElem?_cons_succ] at ha
        simp only [if_pos hb, List.eraseIdx_cons_succ, lookup]
        rw [ih ss hs'.2 (by simpa using hl) ha]
        by_cases hkd : k = d
        · subst hkd
          simp [ne_of_lt hb]
        · simp [hkd]
      · simp only [if_neg hb, List.getElem?_cons_zero, Option.some.injEq] at ha
        subst ha
        simp only [if_neg hb, List.eraseIdx_cons_zero, lookup]
        by_cases hkd : k = d
        · simp only [if_pos hkd]
          apply lookup_eq_none
          intro c hc
          rw [hkd, ← hk]
          exact ne_of_gt (hs'.1 c hc)
        · have h2 : ¬ key b = k := by rw [hk]; exact fun h => hkd h.symm
          simp [hkd, h2]

theorem strictlySorted_set_lowerBound (l : List α) (x a : α)
    (hs : StrictlySorted key l)
    (ha : l[lowerBound key l (key x)]? = some a) (hk : key a = key x) :
    StrictlySorted key (l.set (lowerBound key l (key x)) x) := by
  induction l with
  | nil => simp at ha
  | cons b l ih =>
    have hs' := List.pairwise_cons.mp hs
    simp only [lowerBound] at ha ⊢
    split_ifs at ha ⊢ with hb
    · simp only [List.getElem?_cons_succ] at ha
      simp only [List.set_cons_succ]
      refine List.pairwise_cons.mpr ⟨?_, ih hs'.2 ha⟩
      intro c hc
      rcases List.mem_or_eq_of_mem_set hc with h | h
      · exact hs'.1 c h
      · rw [h]; exact hb
    · simp only [List.getElem?_cons_zero, Option.some.injEq] at ha
      subst ha
      simp only [List.set_cons_zero]
      refine List.pairwise_cons.mpr ⟨?_, hs'.2⟩
      intro c hc
      rw [← hk]
      exact hs'.1 c hc

theorem strictlySorted_insertIdx_lowerBound (l : List α) (x : α)
    (hs : StrictlySorted key l)
    (hno : ∀ a, l[lowerBound key l (key x)]? = some a → key a ≠ key x) :
    StrictlySorted key (l.insertIdx (lowerBound key l (key x)) x) := by
  induction l with
  | nil => simp [lowerBound, StrictlySorted]
  | cons b l ih =>
    have hs' := List.pairwise_cons.mp hs
    simp only [lowerBound] at hno ⊢
    split_ifs at hno ⊢ with hb
    · simp only [List.getElem?_cons_succ] at hno
      rw [List.insertIdx_succ_cons]
      refine List.pairwise_cons.mpr ⟨?_, ih hs'.2 hno⟩
      intro c hc
      rcases (List.mem_insertIdx (lowerBound_le_length key l (key x))).mp hc with h | h
      · rw [h]; exact hb
      · exact hs'.1 c h
    · simp only [List.insertIdx_zero]
      have hbx : key x < key b :=
        lt_of_le_of_ne (not_lt.mp hb) (Ne.symm (hno b (by simp)))
      refine List.pairwise_cons.mpr ⟨?_, hs⟩
      intro c hc
      rcases List.mem_cons.mp hc with h | h
      · rw [h]; exact hbx
      · exact lt_trans hbx (hs'.1 c h)

theorem strictlySorted_eraseIdx (l : List α) (i : Nat) (hs : StrictlySorted key l) :
    StrictlySorted key (l.eraseIdx i) :=
  List.Pairwise.sublist (List.eraseIdx_sublist l i) hs

end ListFacts

/-! ## The backup manager as a finite map -/

section BackupFacts

variable {Row Id : Type} [LinearOrder Id] (S : RowSchema Row Id)

theorem BackupManager.get_eq_lookup (b : BackupManager Row) (k : Id) (h : b.WellFormed S) :
    b.get S k = lookup S.getId b.rows b.states k := by
  unfold BackupManager.get
  exact lookupAt_eq_lookup S.getId b.rows b.states LoadState.Loaded k h.sorted h.parallel

theorem BackupManager.remove_fst (b : BackupManager Row) (k : Id) :
    (b.remove S k).1 = b.get S k := by
  cases hr : b.rows[lowerBound S.getId b.rows k]? with
  | none => simp [BackupManager.remove, BackupManager.get, hr]
  | some r => by_cases hk : S.getId r = k <;> simp [BackupManager.remove, BackupManager.get, hr, hk]

theorem BackupManager.remove_wellFormed (b : BackupManager Row) (k : Id) (h : b.WellFormed S) :
    (b.remove S k).2.WellFormed S := by
  cases hr : b.rows[lowerBound S.getId b.rows k]? with
  | none => simpa [BackupManager.remove, hr] using h
  | some r =>
    by_cases hk : S.getId r = k
    · simp only [BackupManager.remove, hr, hk, if_true]
      refine ⟨strictlySorted_eraseIdx S.getId _ _ h.sorted, ?_⟩
      simp [List.length_eraseIdx, h.parallel]
    · simpa [BackupManager.remove, hr, hk] using h

theorem BackupManager.remove_lookup (b : BackupManager Row) (id k : Id) (h : b.WellFormed S) :
    lookup S.getId (b.remove S id).2.rows (b.remove S id).2.states k
      = if k = id then none else lookup S.getId b.rows b.states k := by
  have hg := lookupAt_eq_lookup S.getId b.rows b.states LoadState.Loaded id h.sorted h.parallel
  cases hr : b.rows[lowerBound S.getId b.rows id]? with
  | none =>
    rw [hr] at hg
    simp only [BackupManager.remove, hr]
    by_cases hk : k = id
    · subst hk; simp [← hg]
    · simp [hk]
  | some r =>
    rw [hr] at hg
    by_cases hi : S.getId r = id
    · simp only [BackupManager.remove, hr, hi, if_true]
      exact lookup_eraseIdx_lowerBound S.getId b.rows b.states id k r h.sorted h.parallel hr hi
    · simp only [hi, if_false] at hg
      simp only [BackupManager.remove, hr, hi, if_false]
      by_cases hk : k = id
      · subst hk; simp [← hg]
      · simp [hk]

theorem BackupManager.save_wellFormed (b : BackupManager Row) (row : Row) (st : LoadState)
    (h : b.WellFormed S) : (b.save S row st).WellFormed S := by
  have hle := lowerBound_le_length S.getId b.rows (S.getId row)
  cases hr : b.rows[lowerBound S.getId b.rows (S.getId row)]? with
  | none =>
    simp only [BackupManager.save, hr]
    refine ⟨strictlySorted_insertIdx_lowerBound S.getId _ _ h.sorted (by simp [hr]), ?_⟩
    simp only
    rw [List.length_insertIdx _ _ hle, List.length_insertIdx _ _ (by rw [h.parallel]; exact hle),
      h.parallel]
  | some r =>
    by_cases hk : S.getId r = S.getId row
    · simpa [BackupManager.save, hr, hk] using h
    · simp only [BackupManager.save, hr, hk, if_false]
      refine ⟨strictlySorted_insertIdx_lowerBound S.getId _ _ h.sorted ?_, ?_⟩
      · intro a ha
        rw [hr] at ha
        simp only [Option.some.injEq] at ha
        subst ha
        exact hk
      · simp only
        rw [List.length_insertIdx _ _ hle,
          List.length_insertIdx _ _ (by rw [h.parallel]; exact hle), h.parallel]

theorem BackupManager.save_get (b : BackupManager Row) (row : Row) (st : LoadState) (k : Id)
    (h : b.WellFormed S) :
    (b.save S row st).get S k
      = if k = S.getId row then (match b.get S k with
                                 | some e => some e
                                 | none => some (row, st))
        else b.get S k := by
  rw [BackupManager.get_eq_lookup S _ k (BackupManager.save_wellFormed S b row st h),
    BackupManager.get_eq_lookup S b k h]
  have hg := lookupAt_eq_lookup S.getId b.rows b.states LoadState.Loaded (S.getId row)
    h.sorted h.parallel
  cases hr : b.rows[lowerBound S.getId b.rows (S.getId row)]? with
  | none =>
    rw [hr] at hg
    simp only [BackupManager.save, hr]
    rw [lookup_insertIdx_lowerBound S.getId b.rows b.states row st k h.parallel (by simp [hr])]
    by_cases hk : k = S.getId row
    · subst hk; simp [← hg]
    · simp [hk]
  | some r =>
    rw [hr] at hg
    by_cases hi : S.getId r = S.getId row
    · simp only [hi, if_true] at hg
      simp only [BackupManager.save, hr, hi, if_true]
      by_cases hk : k = S.getId row
      · subst hk; simp [← hg]
      · simp [hk]
    · simp only [hi, if_false] at hg
      simp only [BackupManager.save, hr, hi, if_false]
      rw [lookup_insertIdx_lowerBound S.getId b.rows b.states row st k h.parallel
        (by intro a ha; rw [hr] at ha; simp only [Option.some.injEq] at ha; subst ha; exact hi)]
      by_cases hk : k = S.getId row
      · subst hk; simp [← hg]
      · simp [hk]

end BackupFacts

/-! ## The cache as a finite map -/

section TableFacts

open AbstractTable

variable {Row Id : Type} [LinearOrder Id] (S : RowSchema Row Id)

theorem AbstractTable.getRow_eq_lookup (t : AbstractTable Row Id) (k : Id) (h : t.WellFormed S) :
    getRow S t k = lookup S.getId t.rowList t.rowStates k := by
  unfold getRow
  exact lookupAt_eq_lookup S.getId t.rowList t.rowStates LoadState.Loaded k h.sorted h.parallel

/-- On a well-formed cache a row found by `lookup` sits at its lower bound. -/
theorem AbstractTable.lookup_some_at (t : AbstractTable Row Id) (k : Id) (h : t.WellFormed S)
    (row : Row) (st : LoadState)
    (hk : lookup S.getId t.rowList t.rowStates k = some (row, st)) :
    t.rowList[lowerBound S.getId t.rowList k]? = some row ∧ S.getId row = k
      ∧ t.rowStates.getD (lowerBound S.getId t.rowList k) LoadState.Loaded = st := by
  have hg := lookupAt_eq_lookup S.getId t.rowList t.rowStates LoadState.Loaded k h.sorted h.parallel
  rw [hk] at hg
  cases hr : t.rowList[lowerBound S.getId t.rowList k]? with
  | none => rw [hr] at hg; simp at hg
  | some r =>
    rw [hr] at hg
    by_cases hi : S.getId r = k
    · simp only [hi, if_true, Option.some.injEq, Prod.mk.injEq] at hg
      exact ⟨by rw [hg.1], by rw [← hg.1]; exact hi, hg.2⟩
    · simp [hi] at hg

theorem AbstractTable.Keeps.refl (k : Id) (t : AbstractTable Row Id) (h : t.WellFormed S) :
    Keeps S k t t :=
  ⟨h, rfl, fun x => x, fun _ x => x, ⟨[], by simp⟩⟩

theorem AbstractTable.Keeps.trans (k : Id) (t t1 t2 : AbstractTable Row Id)
    (h1 : Keeps S k t t1) (h2 : Keeps S k t1 t2) : Keeps S k t t2 := by
  obtain ⟨es1, he1⟩ := h1.emitted
  obtain ⟨es2, he2⟩ := h2.emitted
  exact ⟨h2.wellFormed, h2.row.trans h1.row, fun x => h2.backup (h1.backup x),
    fun r x => h1.records r (h2.records r x), ⟨es1 ++ es2, by rw [he2, he1, List.append_assoc]⟩⟩

theorem AbstractTable.keeps_emit (k : Id) (t : AbstractTable Row Id) (e : Emitted)
    (h : t.WellFormed S) : Keeps S k t (emit t e) :=
  ⟨⟨h.sorted, h.parallel, h.backups⟩, rfl, fun x => x, fun _ x => x, ⟨[e], rfl⟩⟩

@[simp]
theorem AbstractTable.deleteBackupRow_rowList (t : AbstractTable Row Id) (id : Id) :
    (deleteBackupRow S t id).2.rowList = t.rowList := by
  simp only [deleteBackupRow]; split_ifs <;> rfl

@[simp]
theorem AbstractTable.deleteBackupRow_rowStates (t : AbstractTable Row Id) (id : Id) :
    (deleteBackupRow S t id).2.rowStates = t.rowStates := by
  simp only [deleteBackupRow]; split_ifs <;> rfl

@[simp]
theorem AbstractTable.deleteBackupRow_locallyAddedRows (t : AbstractTable Row Id) (id : Id) :
    (deleteBackupRow S t id).2.locallyAddedRows = t.locallyAddedRows := by
  simp only [deleteBackupRow]; split_ifs <;> rfl

@[simp]
theorem AbstractTable.deleteBackupRow_backups (t : AbstractTable Row Id) (id : Id) :
    (deleteBackupRow S t id).2.backups = (t.backups.remove S id).2 := by
  simp only [deleteBackupRow]; split_ifs <;> rfl

theorem AbstractTable.deleteBackupRow_emitted (t : AbstractTable Row Id) (id : Id) :
    (deleteBackupRow S t id).2.emitted
      = t.emitted ++ (if (t.backups.remove S id).2.isEmpty then [Emitted.hasPendingEditsChanged false]
                      else []) := by
  simp only [deleteBackupRow]; split_ifs <;> simp [emit]

theorem AbstractTable.keeps_deleteBackupRow (k id : Id) (t : AbstractTable Row Id)
    (h : t.WellFormed S) : Keeps S k t (deleteBackupRow S t id).2 := by
  have hw := BackupManager.remove_wellFormed S t.backups id h.backups
  have hl := BackupManager.remove_lookup S t.backups id k h.backups
  refine ⟨⟨by simpa using h.sorted, by simpa using h.parallel, by simpa using hw⟩, by simp, ?_,
    by simp, ?_⟩
  · intro hn
    rw [deleteBackupRow_backups, hl, hn]; simp
  · exact ⟨_, deleteBackupRow_emitted S t id⟩

theorem AbstractTable.deleteBackupRow_backup (id : Id) (t : AbstractTable Row Id)
    (h : t.WellFormed S) :
    lookup S.getId (deleteBackupRow S t id).2.backups.rows
      (deleteBackupRow S t id).2.backups.states id = none := by
  have hl := BackupManager.remove_lookup S t.backups id id h.backups
  rw [deleteBackupRow_backups, hl]; simp

theorem AbstractTable.keeps_notifyDeleteRow (k id : Id) (t : AbstractTable Row Id)
    (h : t.WellFormed S) : Keeps S k t (notifyDeleteRow t id) :=
  ⟨⟨h.sorted, h.parallel, h.backups⟩, rfl, fun x => x, fun _ x => x,
    ⟨[], by simp [notifyDeleteRow]⟩⟩

theorem AbstractTable.keeps_notifyUpdateRows (k : Id) (t : AbstractTable Row Id) (rows : List Row)
    (h : t.WellFormed S) : Keeps S k t (notifyUpdateRows S t rows) :=
  ⟨⟨h.sorted, h.parallel, h.backups⟩, rfl, fun x => x, fun _ x => x,
    ⟨[], by simp [notifyUpdateRows]⟩⟩

/-- The cache after the row at the lower bound of `d` was erased. -/
theorem AbstractTable.erase_wellFormed (d : Id) (t : AbstractTable Row Id) (h : t.WellFormed S) :
    ({ t with rowStates := t.rowStates.eraseIdx (lowerBound S.getId t.rowList d),
              rowList := t.rowList.eraseIdx (lowerBound S.getId t.rowList d) }
      : AbstractTable Row Id).WellFormed S :=
  ⟨strictlySorted_eraseIdx S.getId _ _ h.sorted, by simp [List.length_eraseIdx, h.parallel],
    h.backups⟩

theorem AbstractTable.keeps_deleteRow (k d : Id) (t : AbstractTable Row Id)
    (h : t.WellFormed S) (hkd : k ≠ d) : Keeps S k t (deleteRow S t d) := by
  cases hr : t.rowList[lowerBound S.getId t.rowList d]? with
  | none =>
    simp only [deleteRow, hr]
    exact keeps_notifyDeleteRow S k d t h
  | some row =>
    by_cases hi : S.getId row = d
    · have hw := erase_wellFormed S d t h
      have hrow : Keeps S k t
          { t with rowStates := t.rowStates.eraseIdx (lowerBound S.getId t.rowList d),
                   rowList := t.rowList.eraseIdx (lowerBound S.getId t.rowList d) } := by
        refine ⟨hw, ?_, fun x => x, fun _ x => x, ⟨[], by simp⟩⟩
        simp only
        rw [lookup_eraseIdx_lowerBound S.getId t.rowList t.rowStates d k row h.sorted h.parallel
          hr hi, if_neg hkd]
      simp only [deleteRow, hr, hi, if_true]
      split_ifs
      · refine Keeps.trans S k _ _ _ (Keeps.trans S k _ _ _ (Keeps.trans S k _ _ _ hrow
          (keeps_emit S k _ _ hw)) (keeps_deleteBackupRow S k d _ ?_)) (keeps_notifyDeleteRow S k d _ ?_)
        · exact (keeps_emit S k _ _ hw).wellFormed
        · exact (keeps_deleteBackupRow S k d _ (keeps_emit S k _ _ hw).wellFormed).wellFormed
      · refine Keeps.trans S k _ _ _ (Keeps.trans S k _ _ _ (Keeps.trans S k _ _ _ hrow
          (keeps_emit S k _ _ hw)) (keeps_deleteBackupRow S k d _ ?_)) (keeps_notifyDeleteRow S k d _ ?_)
        · exact (keeps_emit S k _ _ hw).wellFormed
        · exact (keeps_deleteBackupRow S k d _ (keeps_emit S k _ _ hw).wellFormed).wellFormed
      · exact Keeps.trans S k _ _ _ hrow (keeps_notifyDeleteRow S k d _ hw)
    · simp only [deleteRow, hr, hi, if_false]
      exact keeps_notifyDeleteRow S k d t h

theorem AbstractTable.keeps_checkPendingInsertion (k : Id) (t : AbstractTable Row Id) (newRow : Row)
    (h : t.WellFormed S) (hn : NoRecord S k t) :
    Keeps S k t (checkPendingInsertion S t newRow) := by
  simp only [checkPendingInsertion]
  split_ifs with h1 h2
  · exact Keeps.refl S k t h
  · exact Keeps.refl S k t h
  · cases hf : findFirst (matchesRow S newRow) t.locallyAddedRows with
    | none => simp only; exact Keeps.refl S k t h
    | some j =>
      simp only
      obtain ⟨record, hj, _⟩ := findFirst_some _ _ _ hf
      have hget : t.locallyAddedRows.getD j [] = record := by
        rw [List.getD_eq_getElem?_getD, hj]; rfl
      rw [hget]
      have hd : k ≠ S.idValue (QVariantMap.value record Strings.DraftId) :=
        fun e => hn record (List.mem_iff_getElem?.mpr ⟨j, hj⟩) e.symm
      have hw1 : ({ t with locallyAddedRows := t.locallyAddedRows.eraseIdx j }
          : AbstractTable Row Id).WellFormed S := ⟨h.sorted, h.parallel, h.backups⟩
      have hrec : Keeps S k t { t with locallyAddedRows := t.locallyAddedRows.eraseIdx j } :=
        ⟨hw1, rfl, fun x => x, fun r x => (List.eraseIdx_sublist _ _).subset x, ⟨[], by simp⟩⟩
      have hdel : Keeps S k t
          (if S.idValue (QVariantMap.value record Strings.DraftId) ≠ S.getId newRow then
            deleteRow S { t with locallyAddedRows := t.locallyAddedRows.eraseIdx j }
              (S.idValue (QVariantMap.value record Strings.DraftId))
           else { t with locallyAddedRows := t.locallyAddedRows.eraseIdx j }) := by
        split_ifs
        · exact Keeps.trans S k _ _ _ hrec (keeps_deleteRow S k _ _ hw1 hd)
        · exact hrec
      exact Keeps.trans S k _ _ _ (Keeps.trans S k _ _ _ hdel
        (keeps_emit S k _ _ hdel.wellFormed))
        (keeps_deleteBackupRow S k _ _ (keeps_emit S k _ _ hdel.wellFormed).wellFormed)

theorem AbstractTable.keeps_eraseRecord (k : Id) (t : AbstractTable Row Id)
    (p : QVariantMap → Bool) (h : t.WellFormed S) :
    Keeps S k t (match findFirst p t.locallyAddedRows with
      | some j => { t with locallyAddedRows := t.locallyAddedRows.eraseIdx j }
      | none => t) := by
  cases findFirst p t.locallyAddedRows with
  | none => exact Keeps.refl S k t h
  | some j =>
    exact ⟨⟨h.sorted, h.parallel, h.backups⟩, rfl, fun x => x,
      fun r x => (List.eraseIdx_sublist _ _).subset x, ⟨[], by simp⟩⟩

/-- The branches of `checkOverwrittenEdit`, one per state of the overwritten row. -/
theorem AbstractTable.checkOverwrittenEdit_eq (t : AbstractTable Row Id)
    (oldRow newRow : Row) (oldState : LoadState) :
    checkOverwrittenEdit S t oldRow oldState newRow =
      match oldState with
      | LoadState.Loaded => t
      | LoadState.Stale => t
      | LoadState.Loading => (deleteBackupRow S t (S.getId oldRow)).2
      | LoadState.PendingAdd => (deleteBackupRow S t (S.getId oldRow)).2
      | LoadState.PendingEdit =>
        (deleteBackupRow S (emit t (Emitted.pendingEditSettled (Convert.toVariantMap S oldRow)
          (Convert.toVariantMap S newRow))) (S.getId oldRow)).2
      | LoadState.DraftAdd =>
        (deleteBackupRow S
          (match findFirst (fun row => decide (S.idValue (QVariantMap.value row Strings.DraftId)
              = S.getId oldRow))
              (emit t (Emitted.draftEditInvalidated (S.idFromValue (S.getId oldRow)))).locallyAddedRows with
            | some j =>
              { emit t (Emitted.draftEditInvalidated (S.idFromValue (S.getId oldRow))) with
                locallyAddedRows := (emit t (Emitted.draftEditInvalidated
                  (S.idFromValue (S.getId oldRow)))).locallyAddedRows.eraseIdx j }
            | none => emit t (Emitted.draftEditInvalidated (S.idFromValue (S.getId oldRow))))
          (S.getId oldRow)).2
      | _ =>
        (deleteBackupRow S (emit t (Emitted.draftEditInvalidated (S.idFromValue (S.getId oldRow))))
          (S.getId oldRow)).2 := by
  cases oldState <;> rfl

theorem AbstractTable.keeps_checkOverwrittenEdit (k : Id) (t : AbstractTable Row Id)
    (oldRow newRow : Row) (oldState : LoadState) (h : t.WellFormed S) :
    Keeps S k t (checkOverwrittenEdit S t oldRow oldState newRow) := by
  have he := fun e => keeps_emit S k t e h
  have hinv := he (Emitted.draftEditInvalidated (S.idFromValue (S.getId oldRow)))
  have hset := he (Emitted.pendingEditSettled (Convert.toVariantMap S oldRow)
    (Convert.toVariantMap S newRow))
  rw [checkOverwrittenEdit_eq]
  cases oldState with
  | Loaded => exact Keeps.refl S k t h
  | Stale => exact Keeps.refl S k t h
  | Loading => exact keeps_deleteBackupRow S k _ t h
  | PendingAdd => exact keeps_deleteBackupRow S k _ t h
  | PendingEdit =>
    exact Keeps.trans S k t _ _ hset (keeps_deleteBackupRow S k (S.getId oldRow) _ hset.wellFormed)
  | DraftAdd =>
    have hrec := keeps_eraseRecord S k
      (emit t (Emitted.draftEditInvalidated (S.idFromValue (S.getId oldRow))))
      (fun row => decide (S.idValue (QVariantMap.value row Strings.DraftId) = S.getId oldRow))
      hinv.wellFormed
    exact Keeps.trans S k t _ _ (Keeps.trans S k t _ _ hinv hrec)
      (keeps_deleteBackupRow S k (S.getId oldRow) _ hrec.wellFormed)
  | DraftEdit =>
    exact Keeps.trans S k t _ _ hinv (keeps_deleteBackupRow S k (S.getId oldRow) _ hinv.wellFormed)
  | DraftDelete =>
    exact Keeps.trans S k t _ _ hinv (keeps_deleteBackupRow S k (S.getId oldRow) _ hinv.wellFormed)
  | PendingDelete =>
    exact Keeps.trans S k t _ _ hinv (keeps_deleteBackupRow S k (S.getId oldRow) _ hinv.wellFormed)

end TableFacts

/-! ## One turn of the loop of `processRowsResponse` -/

section PlaceFacts

open AbstractTable

variable {Row Id : Type} [LinearOrder Id] (S : RowSchema Row Id)

theorem AbstractTable.deleteRow_rowList (t : AbstractTable Row Id) (d : Id) :
    ∃ j, (deleteRow S t d).rowList = t.rowList.eraseIdx j := by
  cases hr : t.rowList[lowerBound S.getId t.rowList d]? with
  | none =>
    refine ⟨t.rowList.length, ?_⟩
    simp [deleteRow, hr, notifyDeleteRow, List.eraseIdx_of_length_le]
  | some row =>
    by_cases hi : S.getId row = d
    · refine ⟨lowerBound S.getId t.rowList d, ?_⟩
      simp only [deleteRow, hr, hi, if_true, notifyDeleteRow]
      split_ifs <;> simp [emit]
    · refine ⟨t.rowList.length, ?_⟩
      simp [deleteRow, hr, hi, notifyDeleteRow, List.eraseIdx_of_length_le]

theorem AbstractTable.checkPendingInsertion_rowList (t : AbstractTable Row Id) (newRow : Row) :
    ∃ j, (checkPendingInsertion S t newRow).rowList = t.rowList.eraseIdx j := by
  have hself : ∃ j, t.rowList = t.rowList.eraseIdx j :=
    ⟨t.rowList.length, by simp [List.eraseIdx_of_length_le]⟩
  simp only [checkPendingInsertion]
  split_ifs with h1 h2
  · exact hself
  · exact hself
  · cases hf : findFirst (matchesRow S newRow) t.locallyAddedRows with
    | none => exact hself
    | some j =>
      simp only [deleteBackupRow_rowList, emit]
      split_ifs
      · exact deleteRow_rowList S _ _
      · exact hself

theorem AbstractTable.checkOverwrittenEdit_rowList (t : AbstractTable Row Id)
    (oldRow newRow : Row) (oldState : LoadState) :
    (checkOverwrittenEdit S t oldRow oldState newRow).rowList = t.rowList := by
  rw [checkOverwrittenEdit_eq]
  cases oldState <;> simp [emit]
  cases findFirst (fun row => decide (S.idValue (QVariantMap.value row Strings.DraftId)
    = S.getId oldRow)) t.locallyAddedRows <;> rfl

theorem AbstractTable.checkOverwrittenEdit_rowStates (t : AbstractTable Row Id)
    (oldRow newRow : Row) (oldState : LoadState) :
    (checkOverwrittenEdit S t oldRow oldState newRow).rowStates = t.rowStates := by
  rw [checkOverwrittenEdit_eq]
  cases oldState <;> simp [emit]
  cases findFirst (fun row => decide (S.idValue (QVariantMap.value row Strings.DraftId)
    = S.getId oldRow)) t.locallyAddedRows <;> rfl

/-- After one turn the iterator is not past the lower bound of any greater id. -/
theorem AbstractTable.placeSorted_lowerBound (t : AbstractTable Row Id) (newRow : Row) (k : Id)
    (hk : S.getId newRow < k) :
    lowerBound S.getId t.rowList (S.getId newRow)
      ≤ lowerBound S.getId (placeSorted S t newRow).rowList k := by
  have key : ∀ l : List Row, (∃ j, l = (t.rowList.insertIdx
        (lowerBound S.getId t.rowList (S.getId newRow)) newRow).eraseIdx j) →
      lowerBound S.getId t.rowList (S.getId newRow) ≤ lowerBound S.getId l k := by
    rintro l ⟨j, rfl⟩
    have h1 := lowerBound_insertIdx_succ_le S.getId t.rowList newRow k hk
    have h2 := lowerBound_eraseIdx S.getId (t.rowList.insertIdx
        (lowerBound S.getId t.rowList (S.getId newRow)) newRow) k j
    omega
  simp only [placeSorted, placeRow]
  cases hr : t.rowList[lowerBound S.getId t.rowList (S.getId newRow)]? with
  | none => exact key _ (checkPendingInsertion_rowList S _ _)
  | some old =>
    simp only
    by_cases hi : S.getId old = S.getId newRow
    · have key2 : ∀ l : List Row, (∃ j, l = (t.rowList.set
            (lowerBound S.getId t.rowList (S.getId newRow)) newRow).eraseIdx j) →
          lowerBound S.getId t.rowList (S.getId newRow) ≤ lowerBound S.getId l k := by
        rintro l ⟨j, rfl⟩
        have h1 := lowerBound_set_succ_le S.getId t.rowList newRow old k hr hk
        have h2 := lowerBound_eraseIdx S.getId (t.rowList.set
            (lowerBound S.getId t.rowList (S.getId newRow)) newRow) k j
        omega
      simp only [hi, if_true]
      split_ifs
      · exact key2 _ (checkPendingInsertion_rowList S _ _)
      · apply key2
        refine ⟨t.rowList.length, ?_⟩
        rw [checkOverwrittenEdit_rowList]
        simp [List.eraseIdx_of_length_le]
    · simp only [hi, if_false]
      exact key _ (checkPendingInsertion_rowList S _ _)

/-- The loop of `processRowsResponse` over a batch that is strictly increasing by id places
every row at its lower bound. -/
theorem AbstractTable.updateLoop_eq_foldl (rows : List Row) (r : Row) (t : AbstractTable Row Id)
    (hs : StrictlySorted S.getId (r :: rows)) :
    updateLoop S (r :: rows) (lowerBound S.getId t.rowList (S.getId r)) t
      = (r :: rows).foldl (placeSorted S) t := by
  induction rows generalizing r t with
  | nil => simp [updateLoop, placeSorted]
  | cons next rest ih =>
    have hs' := List.pairwise_cons.mp hs
    have hlt : S.getId r < S.getId next := hs'.1 next (List.mem_cons_self _ _)
    rw [updateLoop]
    have hp := placeSorted_lowerBound S t r (S.getId next) hlt
    change updateLoop S (next :: rest)
      (lowerBoundFrom S.getId (placeSorted S t r).rowList
        (lowerBound S.getId t.rowList (S.getId r)) (S.getId next)) (placeSorted S t r) = _
    rw [lowerBoundFrom_eq S.getId _ _ _ hp, ih next (placeSorted S t r) hs'.2]
    rfl

end PlaceFacts

/-! ## A batch of rows and the row with id `k` -/

section BatchFacts

open AbstractTable

variable {Row Id : Type} [LinearOrder Id] (S : RowSchema Row Id)

/-- The cache after a new row went in at its lower bound. -/
theorem AbstractTable.insert_spec (t : AbstractTable Row Id) (r : Row) (h : t.WellFormed S)
    (hno : ∀ a, t.rowList[lowerBound S.getId t.rowList (S.getId r)]? = some a →
      S.getId a ≠ S.getId r) :
    let t1 : AbstractTable Row Id :=
      { t with rowList := t.rowList.insertIdx (lowerBound S.getId t.rowList (S.getId r)) r,
               rowStates := t.rowStates.insertIdx (lowerBound S.getId t.rowList (S.getId r))
                 LoadState.Loaded }
    t1.WellFormed S ∧ ∀ k, lookup S.getId t1.rowList t1.rowStates k
      = if k = S.getId r then some (r, LoadState.Loaded)
        else lookup S.getId t.rowList t.rowStates k := by
  have hle := lowerBound_le_length S.getId t.rowList (S.getId r)
  refine ⟨⟨strictlySorted_insertIdx_lowerBound S.getId _ _ h.sorted hno, ?_, h.backups⟩, ?_⟩
  · simp only
    rw [List.length_insertIdx _ _ hle, List.length_insertIdx _ _ (by rw [h.parallel]; exact hle),
      h.parallel]
  · intro k
    exact lookup_insertIdx_lowerBound S.getId t.rowList t.rowStates r LoadState.Loaded k
      h.parallel hno

/-- The cache after a row was overwritten at its lower bound. -/
theorem AbstractTable.set_spec (t : AbstractTable Row Id) (r old : Row) (h : t.WellFormed S)
    (ho : t.rowList[lowerBound S.getId t.rowList (S.getId r)]? = some old)
    (hi : S.getId old = S.getId r) :
    let t1 : AbstractTable Row Id :=
      { t with rowList := t.rowList.set (lowerBound S.getId t.rowList (S.getId r)) r,
               rowStates := t.rowStates.set (lowerBound S.getId t.rowList (S.getId r))
                 LoadState.Loaded }
    t1.WellFormed S ∧ ∀ k, lookup S.getId t1.rowList t1.rowStates k
      = if k = S.getId r then some (r, LoadState.Loaded)
        else lookup S.getId t.rowList t.rowStates k := by
  refine ⟨⟨strictlySorted_set_lowerBound S.getId _ _ old h.sorted ho hi, ?_, h.backups⟩, ?_⟩
  · simp [h.parallel]
  · intro k
    exact lookup_set_lowerBound S.getId t.rowList t.rowStates r old LoadState.Loaded k
      h.parallel ho hi

theorem AbstractTable.keeps_placeSorted (k : Id) (t : AbstractTable Row Id) (r : Row)
    (h : t.WellFormed S) (hn : NoRecord S k t) (hk : k ≠ S.getId r) :
    Keeps S k t (placeSorted S t r) := by
  have hins : (∀ a, t.rowList[lowerBound S.getId t.rowList (S.getId r)]? = some a →
      S.getId a ≠ S.getId r) →
      Keeps S k t (checkPendingInsertion S
        { t with rowList := t.rowList.insertIdx (lowerBound S.getId t.rowList (S.getId r)) r,
                 rowStates := t.rowStates.insertIdx (lowerBound S.getId t.rowList (S.getId r))
                   LoadState.Loaded } r) := by
    intro hno
    obtain ⟨hw, hl⟩ := insert_spec S t r h hno
    have h1 : Keeps S k t
        { t with rowList := t.rowList.insertIdx (lowerBound S.getId t.rowList (S.getId r)) r,
                 rowStates := t.rowStates.insertIdx (lowerBound S.getId t.rowList (S.getId r))
                   LoadState.Loaded } :=
      ⟨hw, by rw [hl k, if_neg hk], fun x => x, fun _ x => x, ⟨[], by simp⟩⟩
    exact Keeps.trans S k _ _ _ h1 (keeps_checkPendingInsertion S k _ r hw hn)
  simp only [placeSorted, placeRow]
  cases hr : t.rowList[lowerBound S.getId t.rowList (S.getId r)]? with
  | none => exact hins (by simp [hr])
  | some old =>
    simp only
    by_cases hi : S.getId old = S.getId r
    · simp only [hi, if_true]
      obtain ⟨hw, hl⟩ := set_spec S t r old h hr hi
      have h1 : Keeps S k t
          { t with rowList := t.rowList.set (lowerBound S.getId t.rowList (S.getId r)) r,
                   rowStates := t.rowStates.set (lowerBound S.getId t.rowList (S.getId r))
                     LoadState.Loaded } :=
        ⟨hw, by rw [hl k, if_neg hk], fun x => x, fun _ x => x, ⟨[], by simp⟩⟩
      split_ifs
      · exact Keeps.trans S k _ _ _ h1 (keeps_checkPendingInsertion S k _ r hw hn)
      · exact Keeps.trans S k _ _ _ h1 (keeps_checkOverwrittenEdit S k _ old r _ hw)
    · simp only [hi, if_false]
      exact hins (by intro a ha; rw [hr] at ha; simp only [Option.some.injEq] at ha; subst ha; exact hi)

theorem AbstractTable.Keeps.noRecord (k : Id) (t t1 : AbstractTable Row Id)
    (h : Keeps S k t t1) (hn : NoRecord S k t) : NoRecord S k t1 :=
  fun record hr => hn record (h.records record hr)

theorem AbstractTable.keeps_foldl_placeSorted (k : Id) (rows : List Row) (t : AbstractTable Row Id)
    (h : t.WellFormed S) (hn : NoRecord S k t) (hk : ∀ r ∈ rows, k ≠ S.getId r) :
    Keeps S k t (rows.foldl (placeSorted S) t) := by
  induction rows generalizing t with
  | nil => exact Keeps.refl S k t h
  | cons r rest ih =>
    have h1 := keeps_placeSorted S k t r h hn (hk r (List.mem_cons_self _ _))
    exact Keeps.trans S k _ _ _ h1
      (ih (placeSorted S t r) h1.wellFormed (Keeps.noRecord S k _ _ h1 hn)
        (fun r' hr' => hk r' (List.mem_cons_of_mem _ hr')))

/-- The turn of the loop that overwrites a row in state `DraftEdit`, `DraftDelete` or
`PendingEdit`. -/
theorem AbstractTable.placeSorted_hit (t : AbstractTable Row Id) (b p : Row) (st : LoadState)
    (h : t.WellFormed S)
    (hp : lookup S.getId t.rowList t.rowStates (S.getId b) = some (p, st))
    (hst : st = LoadState.DraftEdit ∨ st = LoadState.DraftDelete ∨ st = LoadState.PendingEdit) :
    (placeSorted S t b).WellFormed S
      ∧ lookup S.getId (placeSorted S t b).rowList (placeSorted S t b).rowStates (S.getId b)
          = some (b, LoadState.Loaded)
      ∧ lookup S.getId (placeSorted S t b).backups.rows (placeSorted S t b).backups.states
          (S.getId b) = none
      ∧ (∃ es, (placeSorted S t b).emitted = t.emitted ++ es ∧ overwriteSignal S p b st ∈ es)
      ∧ (∀ record ∈ (placeSorted S t b).locallyAddedRows, record ∈ t.locallyAddedRows) := by
  obtain ⟨hr, hi, hs⟩ := lookup_some_at S t (S.getId b) h p st hp
  obtain ⟨hw, hl⟩ := set_spec S t b p h hr hi
  have hne1 : ¬ (st = LoadState.PendingAdd ∨ st = LoadState.Loading) := by
    rcases hst with h1 | h1 | h1 <;> simp [h1]
  simp only [placeSorted, placeRow, hr, hi, if_true, hs, if_neg hne1]
  have hkeep := keeps_checkOverwrittenEdit S (S.getId b) _ p b st hw
  refine ⟨hkeep.wellFormed, ?_, ?_, ?_, hkeep.records⟩
  · rw [hkeep.row, hl]; simp
  · rw [checkOverwrittenEdit_eq]
    have hb : ∀ t1 : AbstractTable Row Id, t1.WellFormed S →
        lookup S.getId (deleteBackupRow S t1 (S.getId p)).2.backups.rows
          (deleteBackupRow S t1 (S.getId p)).2.backups.states (S.getId b) = none := by
      intro t1 h1
      rw [← hi]
      exact deleteBackupRow_backup S _ _ h1
    rcases hst with h1 | h1 | h1 <;> subst h1 <;> simp only <;>
      exact hb _ (keeps_emit S (S.getId p) _ _ hw).wellFormed
  · rw [checkOverwrittenEdit_eq]
    rcases hst with h1 | h1 | h1 <;> subst h1 <;>
      simp only [overwriteSignal, deleteBackupRow_emitted, emit, List.append_assoc] <;>
      exact ⟨_, rfl, by simp⟩

end BatchFacts

section OverwriteFacts

open AbstractTable

variable {Row Id : Type} [LinearOrder Id] (S : RowSchema Row Id)

/-- A batch whose first row has an id above every cached id holds no cached id. -/
theorem AbstractTable.lowerBound_first_lt_length (t : AbstractTable Row Id) (first b p : Row)
    (rest : List Row) (st : LoadState)
    (hb : StrictlySorted S.getId (first :: rest)) (hmem : b ∈ first :: rest)
    (hp : lookup S.getId t.rowList t.rowStates (S.getId b) = some (p, st)) :
    lowerBound S.getId t.rowList (S.getId first) ≠ t.rowList.length := by
  intro hlen
  obtain ⟨hpm, hpk⟩ := lookup_some_mem S.getId _ _ _ _ hp
  obtain ⟨i, hi⟩ := List.mem_iff_getElem?.mp hpm
  have hilt : i < t.rowList.length := by
    rcases List.getElem?_eq_some.mp hi with ⟨h1, _⟩
    exact h1
  have h1 := lowerBound_lt_of_getElem? S.getId t.rowList (S.getId first) i p (by omega) hi
  simp only at hpk
  have h2 : S.getId first ≤ S.getId b := by
    rcases List.mem_cons.mp hmem with h3 | h3
    · rw [h3]
    · exact le_of_lt ((List.pairwise_cons.mp hb).1 b h3)
  rw [hpk] at h1
  exact absurd h1 (not_lt.mpr h2)

/-- The rows of a batch from the backend that overwrite a locally edited row: the row takes the
value of the backend with state `Loaded`, the edit is reported, and its backup is dropped. -/
theorem AbstractTable.processRowsResponse_overwrite (t : AbstractTable Row Id)
    (batch : List Row) (nextKey : Option QString) (loadCount : Nat) (b p : Row) (st : LoadState)
    (h : t.WellFormed S) (hb : StrictlySorted S.getId batch) (hmem : b ∈ batch)
    (hp : getRow S t (S.getId b) = some (p, st))
    (hst : st = LoadState.DraftEdit ∨ st = LoadState.DraftDelete ∨ st = LoadState.PendingEdit)
    (hn : NoRecord S (S.getId b) t) :
    getRow S (processRowsResponse S t (RowsReply.rows batch nextKey) loadCount) (S.getId b)
        = some (b, LoadState.Loaded)
      ∧ (∃ es, (processRowsResponse S t (RowsReply.rows batch nextKey) loadCount).emitted
            = t.emitted ++ es ∧ overwriteSignal S p b st ∈ es)
      ∧ (processRowsResponse S t (RowsReply.rows batch nextKey) loadCount).backups.get S (S.getId b)
          = none := by
  rw [getRow_eq_lookup S t _ h] at hp
  -- the continuation request, if any
  obtain ⟨t0, ht0, hk0⟩ : ∃ t0 : AbstractTable Row Id,
      t0 = requestMore S t batch.length nextKey loadCount ∧ Keeps S (S.getId b) t t0 := by
    refine ⟨_, rfl, ?_⟩
    cases nextKey with
    | none => exact Keeps.refl S _ t h
    | some key =>
      simp only [requestMore]
      split_ifs
      · exact keeps_emit S _ t _ h
      · exact Keeps.refl S _ t h
  have hp0 : lookup S.getId t0.rowList t0.rowStates (S.getId b) = some (p, st) := by
    rw [hk0.row]; exact hp
  have hn0 := Keeps.noRecord S _ _ _ hk0 hn
  cases batch with
  | nil => simp at hmem
  | cons first rest =>
    have hlen := lowerBound_first_lt_length S t0 first b p rest st hb hmem hp0
    have hloop := updateLoop_eq_foldl S rest first t0 hb
    -- the batch around `b`
    obtain ⟨pre, post, hsplit⟩ := List.append_of_mem hmem
    have hb' := hb
    rw [hsplit] at hb'
    have hpw := List.pairwise_append.mp hb'
    have hpre : ∀ r ∈ pre, S.getId b ≠ S.getId r :=
      fun r hr => ne_of_gt (hpw.2.2 r hr b (List.mem_cons_self _ _))
    have hpost : ∀ r ∈ post, S.getId b ≠ S.getId r :=
      fun r hr => ne_of_lt ((List.pairwise_cons.mp hpw.2.1).1 r hr)
    have hk1 := keeps_foldl_placeSorted S (S.getId b) pre t0 hk0.wellFormed hn0 hpre
    have hn1 := Keeps.noRecord S _ _ _ hk1 hn0
    have hp1 : lookup S.getId (pre.foldl (placeSorted S) t0).rowList
        (pre.foldl (placeSorted S) t0).rowStates (S.getId b) = some (p, st) := by
      rw [hk1.row]; exact hp0
    obtain ⟨hw2, hrow2, hbak2, ⟨es2, hes2, hev2⟩, hrec2⟩ :=
      placeSorted_hit S (pre.foldl (placeSorted S) t0) b p st hk1.wellFormed hp1 hst
    have hn2 : NoRecord S (S.getId b) (placeSorted S (pre.foldl (placeSorted S) t0) b) :=
      fun record hr => hn1 record (hrec2 record hr)
    have hk3 := keeps_foldl_placeSorted S (S.getId b) post
      (placeSorted S (pre.foldl (placeSorted S) t0) b) hw2 hn2 hpost
    have hfold : (first :: rest).foldl (placeSorted S) t0
        = post.foldl (placeSorted S) (placeSorted S (pre.foldl (placeSorted S) t0) b) := by
      rw [hsplit, List.foldl_append, List.foldl_cons]
    have hk4 := keeps_notifyUpdateRows S (S.getId b)
      (post.foldl (placeSorted S) (placeSorted S (pre.foldl (placeSorted S) t0) b))
      (first :: rest) hk3.wellFormed
    have hfinal : processRowsResponse S t (RowsReply.rows (first :: rest) nextKey) loadCount
        = notifyUpdateRows S
            (post.foldl (placeSorted S) (placeSorted S (pre.foldl (placeSorted S) t0) b))
            (first :: rest) := by
      simp only [processRowsResponse]
      rw [← ht0, if_neg hlen, hloop, hfold]
    rw [hfinal]
    refine ⟨?_, ?_, ?_⟩
    · rw [getRow_eq_lookup S _ _ hk4.wellFormed, hk4.row, hk3.row, hrow2]
    · obtain ⟨es0, he0⟩ := hk0.emitted
      obtain ⟨es1, he1⟩ := hk1.emitted
      obtain ⟨es3, he3⟩ := hk3.emitted
      obtain ⟨es4, he4⟩ := hk4.emitted
      refine ⟨es0 ++ (es1 ++ (es2 ++ (es3 ++ es4))), ?_, ?_⟩
      · rw [he4, he3, hes2, he1, he0]
        simp only [List.append_assoc]
      · simp [hev2]
    · rw [BackupManager.get_eq_lookup S _ _ hk4.wellFormed.backups]
      exact hk4.backup (hk3.backup hbak2)

end OverwriteFacts

section BackupClaims

variable {Row Id : Type} [LinearOrder Id] (S : RowSchema Row Id)

/-- Once a backup is saved for an id, a further `save` for that id leaves the manager as it is. -/
theorem BackupManager.save_save (b : BackupManager Row) (r1 r2 : Row) (s1 s2 : LoadState)
    (h : b.WellFormed S) (hid : S.getId r2 = S.getId r1) :
    (b.save S r1 s1).save S r2 s2 = b.save S r1 s1 := by
  have hw := BackupManager.save_wellFormed S b r1 s1 h
  have hg := BackupManager.save_get S b r1 s1 (S.getId r1) h
  rw [if_pos rfl] at hg
  have hsome : ∃ e, (b.save S r1 s1).get S (S.getId r1) = some e := by
    cases hb : b.get S (S.getId r1) with
    | none => rw [hb] at hg; exact ⟨_, hg⟩
    | some e => rw [hb] at hg; exact ⟨_, hg⟩
  obtain ⟨e, he⟩ := hsome
  simp only [BackupManager.get] at he
  cases hr : (b.save S r1 s1).rows[lowerBound S.getId (b.save S r1 s1).rows (S.getId r1)]? with
  | none => rw [hr] at he; simp at he
  | some r =>
    rw [hr] at he
    by_cases hi : S.getId r = S.getId r1
    · conv_lhs => rw [BackupManager.save]
      simp only [hid, hr, hi, if_true]
    · simp [hi] at he

/-- C8. Backup first-write-wins: in a backup manager (backups ordered by id, one state a
backup), after `save(r1, s1)` and then `save(r2, s2)` for a row `r2` with the id of `r1`, `get(id)`
returns what it returned after the first `save`; when there was no backup for the id before, that
is `(r1, s1)`. -/
theorem C8_backup_first_write_wins (b : BackupManager Row) (r1 r2 : Row) (s1 s2 : LoadState)
    (hwf : b.WellFormed S) (hid : S.getId r2 = S.getId r1) :
    ((b.save S r1 s1).save S r2 s2).get S (S.getId r1) = (b.save S r1 s1).get S (S.getId r1)
      ∧ (b.get S (S.getId r1) = none →
          ((b.save S r1 s1).save S r2 s2).get S (S.getId r1) = some (r1, s1)) := by
  rw [BackupManager.save_save S b r1 r2 s1 s2 hwf hid]
  refine ⟨rfl, fun hnone => ?_⟩
  rw [BackupManager.save_get S b r1 s1 (S.getId r1) hwf, if_pos rfl, hnone]

end BackupClaims

section JournalClaims

open BlockchainInterface

/-- C6. Journal continuity rule: for a non-empty journal batch `E`, `processJournalReply`
forwards the entries (`newJournalEntries(E)`, in the received order, and no `refreshAllTables`)
exactly when the last-seen entry is valid and the id of the first entry of `E` is
`lastJournalEntry.id + 1` (the sum of the 64-bit id type); otherwise it emits `refreshAllTables`
and forwards nothing; either way the last-seen entry becomes the last entry of `E`. -/
theorem C6_journal_continuity (isValid : JournalEntry → Bool) (d : BlockchainInterface)
    (E : List JournalEntry) (hE : E ≠ []) :
    (processJournalReply isValid d (JournalReply.rows E)).emitted
        = d.emitted ++
          [if isValid d.lastJournalEntry = true
              ∧ (E.head hE).id = (d.lastJournalEntry.id + 1) % 2 ^ 64
            then ChainSignal.newJournalEntries E else ChainSignal.refreshAllTables]
      ∧ (processJournalReply isValid d (JournalReply.rows E)).lastJournalEntry = E.getLast hE
      ∧ (processJournalReply isValid d (JournalReply.rows E)).syncStatus = d.syncStatus := by
  have h1 : E.head? = some (E.head hE) := List.head?_eq_head hE
  have h2 : E.getLast? = some (E.getLast hE) := List.getLast?_eq_getLast E hE
  simp only [processJournalReply, h1, h2]
  split_ifs <;> simp

end JournalClaims

section DeleteClaims

open AbstractTable

variable {Row Id : Type} [LinearOrder Id] (S : RowSchema Row Id)

theorem AbstractTable.getRow_congr (t t1 : AbstractTable Row Id) (k : Id)
    (h1 : t1.rowList = t.rowList) (h2 : t1.rowStates = t.rowStates) :
    getRow S t1 k = getRow S t k := by
  simp only [getRow, h1, h2]

/-- The cache after `deleteRow` found the row. -/
theorem AbstractTable.deleteRow_found (t : AbstractTable Row Id) (k : Id) (row : Row)
    (hr : t.rowList[lowerBound S.getId t.rowList k]? = some row) (hi : S.getId row = k) :
    (deleteRow S t k).rowList = t.rowList.eraseIdx (lowerBound S.getId t.rowList k)
      ∧ (deleteRow S t k).rowStates = t.rowStates.eraseIdx (lowerBound S.getId t.rowList k)
      ∧ (deleteRow S t k).locallyAddedRows = t.locallyAddedRows := by
  simp only [deleteRow, hr, hi, if_true]
  split_ifs <;> simp [notifyDeleteRow, emit]

end DeleteClaims

section OverwriteClaims

open AbstractTable

variable {Row Id : Type} [LinearOrder Id] (S : RowSchema Row Id)

/-- C3. Reconciliation of a draft collision: for a table (cache ordered by id, one state a row)
that holds a row with id `k` in state `DraftEdit` or `DraftDelete`, the row not being a locally
added one, `processRowsResponse` on a batch (strictly increasing by id) that contains an
authoritative row `b` with id `k` leaves row `k` equal to `b` with state `Loaded`, emits
`draftEditInvalidated(k)`, and leaves the backup ledger without an entry for `k`. -/
theorem C3_draft_collision_reconciled (t : AbstractTable Row Id) (batch : List Row)
    (nextKey : Option QString) (loadCount : Nat) (b p : Row) (st : LoadState)
    (hwf : t.WellFormed S) (hsorted : StrictlySorted S.getId batch) (hmem : b ∈ batch)
    (hrow : getRow S t (S.getId b) = some (p, st))
    (hst : st = LoadState.DraftEdit ∨ st = LoadState.DraftDelete)
    (hnr : NoRecord S (S.getId b) t) :
    getRow S (processRowsResponse S t (RowsReply.rows batch nextKey) loadCount) (S.getId b)
        = some (b, LoadState.Loaded)
      ∧ (∃ es, (processRowsResponse S t (RowsReply.rows batch nextKey) loadCount).emitted
            = t.emitted ++ es
          ∧ Emitted.draftEditInvalidated (S.idFromValue (S.getId b)) ∈ es)
      ∧ (processRowsResponse S t (RowsReply.rows batch nextKey) loadCount).backups.get S (S.getId b)
          = none := by
  have hid : S.getId p = S.getId b := by
    rw [getRow_eq_lookup S t _ hwf] at hrow
    exact (lookup_some_mem S.getId _ _ _ _ hrow).2
  have hne : st ≠ LoadState.PendingEdit := by
    rcases hst with h | h <;> simp [h]
  have h := processRowsResponse_overwrite S t batch nextKey loadCount b p st hwf hsorted hmem hrow
    (by rcases hst with h | h
        · exact Or.inl h
        · exact Or.inr (Or.inl h)) hnr
  simp only [overwriteSignal, if_neg hne, hid] at h
  exact h

/-- C5. Pending-edit settlement, remote wins: for a table (cache ordered by id, one state a row)
that holds a row with id `k` in state `PendingEdit` with local value `p`, the row not being a
locally added one, `processRowsResponse` on a batch (strictly increasing by id) that contains an
authoritative row `b` with id `k` leaves row `k` equal to `b` with state `Loaded`, emits
`pendingEditSettled(p, b)` and removes the backup for `k`, whether or not `b` equals `p`. -/
theorem C5_pending_edit_settled (t : AbstractTable Row Id) (batch : List Row)
    (nextKey : Option QString) (loadCount : Nat) (b p : Row)
    (hwf : t.WellFormed S) (hsorted : StrictlySorted S.getId batch) (hmem : b ∈ batch)
    (hrow : getRow S t (S.getId b) = some (p, LoadState.PendingEdit))
    (hnr : NoRecord S (S.getId b) t) :
    getRow S (processRowsResponse S t (RowsReply.rows batch nextKey) loadCount) (S.getId b)
        = some (b, LoadState.Loaded)
      ∧ (∃ es, (processRowsResponse S t (RowsReply.rows batch nextKey) loadCount).emitted
            = t.emitted ++ es
          ∧ Emitted.pendingEditSettled (Convert.toVariantMap S p) (Convert.toVariantMap S b) ∈ es)
      ∧ (processRowsResponse S t (RowsReply.rows batch nextKey) loadCount).backups.get S (S.getId b)
          = none := by
  have h := processRowsResponse_overwrite S t batch nextKey loadCount b p LoadState.PendingEdit
    hwf hsorted hmem hrow (Or.inr (Or.inr rfl)) hnr
  simp only [overwriteSignal, if_true] at h
  exact h

end OverwriteClaims

section Witnesses

open AbstractTable Examples

theorem C3_draft_collision_reconciled_witness :
    getRow groups (editedTable LoadState.DraftEdit false) 5
        = some (group 5 "A", LoadState.DraftEdit)
      ∧ getRow groups (processRowsResponse groups (editedTable LoadState.DraftEdit false)
          (RowsReply.rows [group 5 "B"] none) 1) 5 = some (group 5 "B", LoadState.Loaded)
      ∧ (∃ es, (processRowsResponse groups (editedTable LoadState.DraftEdit false)
            (RowsReply.rows [group 5 "B"] none) 1).emitted
            = (editedTable LoadState.DraftEdit false).emitted ++ es
          ∧ Emitted.draftEditInvalidated (QVariant.ulonglong 5) ∈ es)
      ∧ (processRowsResponse groups (editedTable LoadState.DraftEdit false)
          (RowsReply.rows [group 5 "B"] none) 1).backups.get groups 5 = none :=
  ⟨by decide,
    C3_draft_collision_reconciled groups (editedTable LoadState.DraftEdit false) [group 5 "B"]
      none 1 (group 5 "B") (group 5 "A") LoadState.DraftEdit
      ⟨by decide, by decide, ⟨by decide, by decide⟩⟩ (by decide) (by decide) (by decide) (Or.inl rfl)
      (by intro r hr; cases hr)⟩

theorem C5_pending_edit_settled_witness :
    getRow groups (editedTable LoadState.PendingEdit true) 5
        = some (group 5 "A", LoadState.PendingEdit)
      ∧ getRow groups (processRowsResponse groups (editedTable LoadState.PendingEdit true)
          (RowsReply.rows [group 5 "B"] none) 1) 5 = some (group 5 "B", LoadState.Loaded)
      ∧ (∃ es, (processRowsResponse groups (editedTable LoadState.PendingEdit true)
            (RowsReply.rows [group 5 "B"] none) 1).emitted
            = (editedTable LoadState.PendingEdit true).emitted ++ es
          ∧ Emitted.pendingEditSettled (Convert.toVariantMap groups (group 5 "A"))
              (Convert.toVariantMap groups (group 5 "B")) ∈ es)
      ∧ (processRowsResponse groups (editedTable LoadState.PendingEdit true)
          (RowsReply.rows [group 5 "B"] none) 1).backups.get groups 5 = none :=
  ⟨by decide,
    C5_pending_edit_settled groups (editedTable LoadState.PendingEdit true) [group 5 "B"]
      none 1 (group 5 "B") (group 5 "A")
      ⟨by decide, by decide, ⟨by decide, by decide⟩⟩ (by decide) (by decide) (by decide)
      (by intro r hr; cases hr)⟩

end Witnesses

section Defects

open AbstractTable Examples

/-- C1. Ordering invariant, broken by `draftAddRow`. The polling groups table holds the rows with
the ids 0 and `2 ^ 64 - 1`, strictly increasing by id, and no edit is pending. `draftAddRow`
takes `rowList.last().getId() + 1` for the draft id, which is 0 in the 64-bit id type, and inserts
the new row in front of the row with id 0: the ids of `rowList` are then `0, 0, 2 ^ 64 - 1`, not
strictly increasing. This holds for every value of `BASE_DRAFT_ID` of the 64-bit id type. -/
theorem C1_ordering_broken_by_draftAddRow (baseDraftId : Nat) (hbase : baseDraftId < 2 ^ 64) :
    StrictlySorted PollingGroup.id fullRangeTable.rowList
      ∧ fullRangeTable.pendingEdits = false
      ∧ (draftAddRow (PollingGroup.schema baseDraftId) fullRangeTable []).rowList.map PollingGroup.id
          = [0, 0, 2 ^ 64 - 1]
      ∧ ¬ StrictlySorted PollingGroup.id
          (draftAddRow (PollingGroup.schema baseDraftId) fullRangeTable []).rowList := by
  have hb : ¬ (18446744073709551615 < baseDraftId) := by omega
  have hrows : (draftAddRow (PollingGroup.schema baseDraftId) fullRangeTable []).rowList
      = [⟨0, QString.empty, []⟩, group 0 "first", group (2 ^ 64 - 1) "last"] := by
    simp [draftAddRow, fullRangeTable, processRowsResponse, requestMore, AbstractTable.init,
      lowerBound, notifyUpdateRows, draftAddId, PollingGroup.schema, groups, group,
      Convert.fromVariantMap, Convert.fromVariantStep, QVariantMap.find, hb, List.insertIdx,
      BackupManager.save, BackupManager.empty]
  refine ⟨by decide, by decide, ?_, ?_⟩
  · rw [hrows]; rfl
  · rw [hrows]; decide

theorem C1_ordering_broken_by_draftAddRow_witness :
    Examples.baseDraftId < 2 ^ 64
      ∧ StrictlySorted PollingGroup.id fullRangeTable.rowList
      ∧ fullRangeTable.pendingEdits = false
      ∧ (draftAddRow groups fullRangeTable []).rowList.map PollingGroup.id = [0, 0, 2 ^ 64 - 1]
      ∧ ¬ StrictlySorted PollingGroup.id (draftAddRow groups fullRangeTable []).rowList :=
  ⟨by decide, C1_ordering_broken_by_draftAddRow Examples.baseDraftId (by decide)⟩

/-- C2. Reset-all law, broken by `resetEdits`. The empty table has no backups, no records and a
clear pending flag. After two calls of `draftAddRow`, `resetEdits()` deletes the first draft row:
`deleteRow` removes the backup of that row, and the deleter of the loop over the backups then
removes the backup that has moved to its position, the one of the second draft row, before the
loop has looked at it. The second draft row stays in `rowList` with state `DraftAdd`. -/
theorem C2_resetEdits_keeps_second_draft :
    (AbstractTable.init scope : AbstractTable PollingGroup Nat).rowList = []
      ∧ (resetEdits groups (twoDraftsTable Examples.baseDraftId)).rowList
          = [⟨Examples.baseDraftId + 1, QString.empty, []⟩]
      ∧ (resetEdits groups (twoDraftsTable Examples.baseDraftId)).rowStates = [LoadState.DraftAdd]
      ∧ (resetEdits groups (twoDraftsTable Examples.baseDraftId)).backups = BackupManager.empty := by
  decide

/-- C7. Backup invariant, broken in a reachable table: after two calls of `draftAddRow` and
`resetEdits()` on the empty table the cache holds the second draft row in state `DraftAdd`, and
the backup ledger is empty. -/
theorem C7_backup_invariant_broken :
    ∃ t : AbstractTable PollingGroup Nat, Reachable groups t ∧ ¬ BackupInvariant groups t := by
  refine ⟨resetEdits groups (twoDraftsTable Examples.baseDraftId), ?_, ?_⟩
  · exact Reachable.resetEdits _ (Reachable.draftAddRow _ _ (Reachable.draftAddRow _ _
      (Reachable.init scope)))
  · intro h
    have h1 := (h (Examples.baseDraftId + 1)).mpr
      ⟨⟨Examples.baseDraftId + 1, QString.empty, []⟩, LoadState.DraftAdd, by decide, by decide⟩
    exact absurd h1 (by decide)

/-- C9. Repeated edits revert to the original, broken by `resetEdits`. The group members table
holds the row of `bob` in state `Loaded` with weight 2 and the draft-added row of `alice`. Two
calls of `draftEditRow` set the weight of `bob` to 7 and then to 9, and `resetEdits()` follows: the
loop over the backups deletes the draft row of `alice`, whose backup `deleteRow` removes, and the
deleter of the loop then removes the backup of `bob` unread. The row of `bob` keeps weight 9 and
state `DraftEdit`. -/
theorem C9_repeated_edits_not_reverted :
    getRow members aliceDraftTable (QString.ofString "bob") = some (member "bob" 2, LoadState.Loaded)
      ∧ ((draftEditRow members 0 aliceDraftTable (QVariant.string (QString.ofString "bob"))
            (setWeight 7)).bind
          (fun t => draftEditRow members 0 t (QVariant.string (QString.ofString "bob"))
            (setWeight 9))).map
          (fun t => getRow members (resetEdits members t) (QString.ofString "bob"))
        = some (some (member "bob" 9, LoadState.DraftEdit)) := by
  decide

/-- Method `deleteRow` on the placeholder of a promoted draft add, a row in state `PendingAdd`:
it emits no `draftEditInvalidated` and leaves the backup and the locally-added-row record of the
draft id in place; `checkPendingInsertion` and `resetEdits`, which call it for such a row, settle
the backup and the record themselves. -/
theorem AbstractTable.deleteRow_pendingAdd_silent :
    getRow groups pendingAddTable Examples.baseDraftId
        = some (⟨Examples.baseDraftId, QString.empty, []⟩, LoadState.PendingAdd)
      ∧ Emitted.draftEditInvalidated (QVariant.ulonglong Examples.baseDraftId)
          ∉ (deleteRow groups pendingAddTable Examples.baseDraftId).emitted
      ∧ (deleteRow groups pendingAddTable Examples.baseDraftId).backups.get groups
          Examples.baseDraftId
          = some (⟨Examples.baseDraftId, QString.empty, []⟩, LoadState.DraftAdd)
      ∧ (deleteRow groups pendingAddTable Examples.baseDraftId).locallyAddedRows
          = [[(Strings.DraftId, QVariant.ulonglong Examples.baseDraftId)]] := by
  decide

/-- C10. Row deletion side effects, broken for a row in state `PendingEdit` and for the record of
a draft add. The polling groups table holds the row 5 that `draftEditRow(5, {name: "X"})` and
`markEditsPending()` left in state `PendingEdit`, with its backup. The journal entry of the
deletion of row 5 makes `processJournal` call `deleteRow(5)`: the row goes, no signal is emitted,
and the backup of row 5 stays in the ledger with the pending flag set, a backup without a row. In
the group members table `deleteRow` of the draft-added row `alice` emits
`draftEditInvalidated` and removes the backup, and the record of `alice` stays in
`locallyAddedRows`, a record without a row. -/
theorem C10_deleteRow_orphans_backup :
    submittedTable.map (fun t => (getRow groups t 5, t.backups.get groups 5, t.pendingEdits))
        = some (some (group 5 "X", LoadState.PendingEdit), some (group 5 "Z", LoadState.Loaded),
            true)
      ∧ submittedTable.map (fun t => decide (processJournal groups t [deleteEntry] 0
          = deleteRow groups t 5)) = some true
      ∧ submittedTable.map (fun t => (getRow groups (deleteRow groups t 5) 5,
            decide ((deleteRow groups t 5).emitted = t.emitted),
            (deleteRow groups t 5).backups.get groups 5, (deleteRow groups t 5).pendingEdits))
        = some (none, true, some (group 5 "Z", LoadState.Loaded), true)
      ∧ getRow members aliceOnlyTable (QString.ofString "alice")
        = some (⟨QString.ofString "alice", 0, []⟩, LoadState.DraftAdd)
      ∧ aliceOnlyTable.locallyAddedRows
        = [[(Strings.DraftId, QVariant.string (QString.ofString "alice")),
            (QString.ofString "account", QVariant.string (QString.ofString "alice"))]]
      ∧ getRow members (deleteRow members aliceOnlyTable (QString.ofString "alice"))
          (QString.ofString "alice") = none
      ∧ Emitted.draftEditInvalidated (QVariant.string (QString.ofString "alice"))
          ∈ (deleteRow members aliceOnlyTable (QString.ofString "alice")).emitted
      ∧ (deleteRow members aliceOnlyTable (QString.ofString "alice")).backups.get members
          (QString.ofString "alice") = none
      ∧ (deleteRow members aliceOnlyTable (QString.ofString "alice")).locallyAddedRows
        = aliceOnlyTable.locallyAddedRows := by
  refine ⟨?_, ?_, ?_, ?_, ?_, ?_, ?_, ?_, ?_⟩
  · decide
  · decide
  · decide
  · decide
  · decide
  · decide
  · decide
  · decide
  · decide

end Defects

/-! ## Settlement of a pending add -/

section MapFacts

theorem QVariantMap.find_insert_self (m : QVariantMap) (k : QString) (v : QVariant) :
    QVariantMap.find (QVariantMap.insert m k v) k = some v := by
  induction m with
  | nil => simp [QVariantMap.insert, QVariantMap.find]
  | cons e rest ih =>
    obtain ⟨k1, w⟩ := e
    simp only [QVariantMap.insert]
    by_cases h1 : k < k1
    · simp [h1, QVariantMap.find]
    · by_cases h2 : k1 < k
      · simp only [h1, h2, if_false, if_true, QVariantMap.find, if_neg (ne_of_lt h2)]
        exact ih
      · simp [h1, h2, QVariantMap.find]

theorem QVariantMap.remove_of_find_none (m : QVariantMap) (k : QString)
    (h : QVariantMap.find m k = none) : QVariantMap.remove m k = m := by
  induction m with
  | nil => rfl
  | cons e rest ih =>
    obtain ⟨k1, w⟩ := e
    simp only [QVariantMap.find] at h
    by_cases h1 : k1 = k
    · simp [h1] at h
    · simp only [h1, if_false] at h
      simp [QVariantMap.remove, h1, ih h]

end MapFacts

section QuietFacts

open AbstractTable

variable {Row Id : Type} [LinearOrder Id] (S : RowSchema Row Id)

end QuietFacts

section SettleFacts

open AbstractTable

variable {Row Id : Type} [LinearOrder Id] (S : RowSchema Row Id)

end SettleFacts

section SettleBatch

open AbstractTable

variable {Row Id : Type} [LinearOrder Id] (S : RowSchema Row Id)

theorem AbstractTable.requestMore_fields (t : AbstractTable Row Id) (count : Nat)
    (nextKey : Option QString) (loadCount : Nat) :
    (requestMore S t count nextKey loadCount).rowList = t.rowList
      ∧ (requestMore S t count nextKey loadCount).rowStates = t.rowStates
      ∧ (requestMore S t count nextKey loadCount).locallyAddedRows = t.locallyAddedRows
      ∧ (requestMore S t count nextKey loadCount).backups = t.backups
      ∧ (requestMore S t count nextKey loadCount).pendingEdits = t.pendingEdits
      ∧ ∃ es, (requestMore S t count nextKey loadCount).emitted = t.emitted ++ es := by
  cases nextKey with
  | none => exact ⟨rfl, rfl, rfl, rfl, rfl, [], by simp [requestMore]⟩
  | some key =>
    simp only [requestMore]
    split_ifs
    · exact ⟨rfl, rfl, rfl, rfl, rfl, _, rfl⟩
    · exact ⟨rfl, rfl, rfl, rfl, rfl, [], by simp⟩

end SettleBatch

section DraftAddFacts

open AbstractTable

variable {Row Id : Type} [LinearOrder Id] (S : RowSchema Row Id)

theorem lookup_setState_lowerBound {α σ Id : Type} [LinearOrder Id] (key : α → Id)
    (l : List α) (ss : List σ) (k0 k : Id) (a : α) (s : σ)
    (hl : ss.length = l.length) (ha : l[lowerBound key l k0]? = some a) (hk : key a = k0) :
    lookup key l (ss.set (lowerBound key l k0) s) k
      = if k = k0 then some (a, s) else lookup key l ss k := by
  induction l generalizing ss with
  | nil => simp at ha
  | cons b l ih =>
    cases ss with
    | nil => simp at hl
    | cons s0 ss =>
      simp only [lowerBound] at ha ⊢
      by_cases hb : key b < k0
      · simp only [if_pos hb, List.getElem?_cons_succ] at ha
        simp only [if_pos hb, List.set_cons_succ, lookup]
        rw [ih ss (by simpa using hl) ha]
        by_cases hkx : k = k0
        · subst hkx
          simp [ne_of_lt hb]
        · simp [hkx]
      · simp only [if_neg hb, List.getElem?_cons_zero, Option.some.injEq] at ha
        subst ha
        simp only [if_neg hb, List.set_cons_zero, lookup]
        by_cases hkx : k = k0
        · subst hkx
          simp [hk]
        · have h2 : ¬ key b = k := by rw [hk]; exact fun h => hkx h.symm
          simp [hkx, h2]

end DraftAddFacts

section SettleClaim

open AbstractTable

variable {Row Id : Type} [LinearOrder Id] (S : RowSchema Row Id)

end SettleClaim

section SettleWitness

open AbstractTable Examples

end SettleWitness

section MoreWitnesses

open AbstractTable Examples BlockchainInterface

theorem C6_journal_continuity_witness :
    (processJournalReply (fun e => decide (e.id ≠ 0)) ⟨SyncStatus.Idle, entry 10, []⟩
        (JournalReply.rows [entry 15, entry 16])).emitted = [ChainSignal.refreshAllTables]
      ∧ (processJournalReply (fun e => decide (e.id ≠ 0)) ⟨SyncStatus.Idle, entry 10, []⟩
        (JournalReply.rows [entry 15, entry 16])).lastJournalEntry = entry 16
      ∧ (processJournalReply (fun e => decide (e.id ≠ 0)) ⟨SyncStatus.Idle, entry 10, []⟩
        (JournalReply.rows [entry 15, entry 16])).syncStatus = SyncStatus.Idle :=
  C6_journal_continuity (fun e => decide (e.id ≠ 0)) ⟨SyncStatus.Idle, entry 10, []⟩
    [entry 15, entry 16] (by decide)

theorem C8_backup_first_write_wins_witness :
    (((BackupManager.empty.save groups (group 5 "A") LoadState.DraftEdit).save groups
          (group 5 "B") LoadState.DraftDelete).get groups 5
        = (BackupManager.empty.save groups (group 5 "A") LoadState.DraftEdit).get groups 5)
      ∧ ((BackupManager.empty : BackupManager PollingGroup).get groups 5 = none →
          ((BackupManager.empty.save groups (group 5 "A") LoadState.DraftEdit).save groups
            (group 5 "B") LoadState.DraftDelete).get groups 5
            = some (group 5 "A", LoadState.DraftEdit)) :=
  C8_backup_first_write_wins groups BackupManager.empty (group 5 "A") (group 5 "B")
    LoadState.DraftEdit LoadState.DraftDelete ⟨by decide, by decide⟩ rfl

end MoreWitnesses

section MovedRow

open AbstractTable Examples

/-- A change map that changes the id leaves the moved-from row in `rowList`: `draftEditRow` takes
the row out with `std::move` and returns at the id check before it puts a row back. In the group
members table the id of the moved-from row is the empty string, and the ids of `rowList` are no
longer strictly increasing. -/
theorem draftEditRow_leaves_moved_from_row :
    StrictlySorted GroupMember.account membersTable.rowList
      ∧ (draftEditRow members 0 membersTable (QVariant.string (QString.ofString "bob"))
            [(QString.ofString "account", QVariant.string (QString.ofString "carol"))]).map
          (fun t => t.rowList.map GroupMember.account)
        = some [QString.ofString "alice", QString.empty]
      ∧ ¬ StrictlySorted (fun a : QString => a) [QString.ofString "alice", QString.empty] := by
  decide

end MovedRow

section GuardClaims

open AbstractTable

variable {Row Id : Type} [LinearOrder Id] (S : RowSchema Row Id)

/-- C11. Pending guard: whenever `hasPendingEdits()` is true, `draftAddRow`, `draftEditRow` and
`draftDeleteRow` return at once for every argument and leave the table as it is: `rowList`,
`rowStates`, the backup ledger, `locallyAddedRows` and the pending flag are unchanged (and so is
every other data member, and nothing is sent out). -/
theorem C11_pending_guard (t : AbstractTable Row Id) (fieldMap changeMap : QVariantMap)
    (rowId : QVariant) (fuel : Nat) (h : hasPendingEdits t = true) :
    draftAddRow S t fieldMap = t
      ∧ draftEditRow S fuel t rowId changeMap = some t
      ∧ draftDeleteRow S t rowId = t := by
  simp only [hasPendingEdits] at h
  refine ⟨?_, ?_, ?_⟩
  · simp [draftAddRow, h]
  · simp [draftEditRow, h]
  · simp [draftDeleteRow, h]

end GuardClaims

section GuardWitness

open AbstractTable Examples

theorem C11_pending_guard_witness :
    draftAddRow groups (editedTable LoadState.PendingEdit true) nameX
        = editedTable LoadState.PendingEdit true
      ∧ draftEditRow groups 0 (editedTable LoadState.PendingEdit true) (QVariant.ulonglong 5) nameX
        = some (editedTable LoadState.PendingEdit true)
      ∧ draftDeleteRow groups (editedTable LoadState.PendingEdit true) (QVariant.ulonglong 5)
        = editedTable LoadState.PendingEdit true :=
  C11_pending_guard groups (editedTable LoadState.PendingEdit true) nameX nameX
    (QVariant.ulonglong 5) 0 rfl

/-- C12. Rejected edits are atomic, broken by `draftEditRow`. The polling groups table holds the
row `{id: 5, name: "Z"}` in state `Loaded`. `draftEditRow(5, {id: 6})` is rejected, since the
change map would change the id: the state stays `Loaded` and no backup is made. But the row was
moved out of `rowList` (`auto oldRow = std::move(*rowItr)`) before the check and is not put back,
so the cache is left with the moved-from row, whose name is empty. -/
theorem C12_rejected_edit_blanks_row :
    getRow groups loadedTable 5 = some (group 5 "Z", LoadState.Loaded)
      ∧ (draftEditRow groups 0 loadedTable (QVariant.ulonglong 5) setId6).map
          (fun t => (getRow groups t 5, t.backups, t.locallyAddedRows))
        = some (some (⟨5, QString.empty, []⟩, LoadState.Loaded), BackupManager.empty, [])
      ∧ (⟨5, QString.empty, []⟩ : PollingGroup) ≠ group 5 "Z" := by
  decide

/-- C16. `resetEdits()` clears all edit tracking, broken for the pending flag. The polling groups
table holds the row 5 from the backend; after `draftEditRow(5, {name: "X"})` and
`markEditsPending()` the flag is set. `resetEdits()` restores the row, empties the backup ledger
with `backups.clear()` and empties `locallyAddedRows`, but nothing clears `pendingEdits`:
`hasPendingEdits()` is still true, and `draftAddRow` on the table is still rejected. -/
theorem C16_resetEdits_keeps_pending_flag :
    submittedTable.map (fun t => hasPendingEdits t) = some true
      ∧ submittedTable.map (fun t => getRow groups (resetEdits groups t) 5)
        = some (some (group 5 "Z", LoadState.Loaded))
      ∧ submittedTable.map (fun t => (resetEdits groups t).backups) = some BackupManager.empty
      ∧ submittedTable.map (fun t => (resetEdits groups t).locallyAddedRows) = some []
      ∧ submittedTable.map (fun t => hasPendingEdits (resetEdits groups t)) = some true
      ∧ submittedTable.map (fun t => decide (draftAddRow groups (resetEdits groups t) nameX
          = resetEdits groups t)) = some true := by
  decide

/-- C18. In-flight refresh de-duplication, broken by a request that was not answered in time.
`refreshRow(5)` at second 0 is not answered. `refreshRow(5)` at second 7 sends the request again,
as the policy has it, but `loadingRows.insert` does not replace the entry of second 0. So
`refreshRow(5)` at second 8, one second after the call before it and with no reply in between,
finds the entry of second 0, takes the row for not loading, and sends one more request. -/
theorem C18_second_refresh_sends_request :
    (refreshRow groups waitingTable 5 7).loadingRows = [(5, 0)]
      ∧ (refreshRow groups (refreshRow groups waitingTable 5 7) 5 8).emitted
        = (refreshRow groups waitingTable 5 7).emitted
          ++ [Emitted.getTableRows (QString.ofString "poll.groups") scope
                (some (QString.ofString "5")) (some 1)] := by
  decide

end GuardWitness

section RefreshFacts

open AbstractTable

variable {Row Id : Type} [LinearOrder Id] (S : RowSchema Row Id)

theorem AbstractTable.loadingFind_loadingInsert (l : List (Id × Int)) (k : Id) (now : Int)
    (h : loadingFind l k = none) : loadingFind (loadingInsert l k now) k = some now := by
  induction l with
  | nil => simp [loadingInsert, loadingFind]
  | cons e rest ih =>
    obtain ⟨k0, v⟩ := e
    simp only [loadingFind] at h
    by_cases h0 : k0 = k
    · rw [if_pos h0] at h; cases h
    · rw [if_neg h0] at h
      simp only [loadingInsert]
      by_cases h1 : k < k0
      · simp [h1, loadingFind]
      · by_cases h2 : k0 < k
        · simp only [if_neg h1, if_pos h2, loadingFind, if_neg h0]
          exact ih h
        · exact absurd (le_antisymm (not_lt.mp h1) (not_lt.mp h2)) h0

/-- A second `refreshRow` within seven seconds of a first one that found no request under way
sends no request and leaves the table as it is. -/
theorem AbstractTable.refreshRow_again_quiet (t : AbstractTable Row Id) (k : Id) (t1 t2 : Int)
    (hnone : loadingFind t.loadingRows k = none) (hlt : t2 - t1 < 7) :
    (refreshRow S t k t1).emitted
        = t.emitted ++ [Emitted.getTableRows S.tableName t.scope (some (S.lowerBoundText k)) (some 1)]
      ∧ refreshRow S (refreshRow S t k t1) k t2 = refreshRow S t k t1 := by
  have h1 : refreshRow S t k t1
      = emit { t with loadingRows := loadingInsert t.loadingRows k t1 }
          (Emitted.getTableRows S.tableName t.scope (some (S.lowerBoundText k)) (some 1)) := by
    simp [refreshRow, rowIsLoading, hnone]
  refine ⟨by rw [h1]; rfl, ?_⟩
  rw [h1]
  simp [refreshRow, rowIsLoading, emit, loadingFind_loadingInsert _ _ _ hnone, hlt]

/-- A call of `draftEditRow` for an id that is not in the cache, or for a row in state
`DraftDelete`, leaves the table as it is. -/
theorem AbstractTable.draftEditRow_rejected_early (t : AbstractTable Row Id) (rowId : QVariant)
    (changeMap : QVariantMap) (fuel : Nat)
    (h : getRow S t (S.idValue rowId) = none
      ∨ ∃ row, getRow S t (S.idValue rowId) = some (row, LoadState.DraftDelete)) :
    draftEditRow S fuel t rowId changeMap = some t := by
  simp only [getRow] at h
  by_cases hp : t.pendingEdits = true
  · simp [draftEditRow, hp]
  · cases hr : t.rowList[lowerBound S.getId t.rowList (S.idValue rowId)]? with
    | none => simp only [draftEditRow, hr, hp]; rfl
    | some oldRow =>
      rw [hr] at h
      by_cases hi : S.getId oldRow = S.idValue rowId
      · simp only [hi, if_true] at h
        rcases h with h | ⟨row, h⟩
        · cases h
        · have hs := (Prod.mk.inj (Option.some.inj h)).2
          simp only [draftEditRow, hr, hp, hi, hs]
          simp
      · simp only [draftEditRow, hr, hp]
        simp [hi]

end RefreshFacts

section DraftIdFacts

open AbstractTable

variable {Row Id : Type} [LinearOrder Id] (S : RowSchema Row Id)

/-- What `draftAddRow` does on a table with integral ids when the draft id `d` that it assigns is
above every cached id and has no backup: the id is `BASE_DRAFT_ID`, or the id after the last one,
the new row is in the cache with state `DraftAdd`, the other rows are as they were, the ledger has
the new row as the backup for `d`, and `locallyAddedRows` has the field map with `DRAFT_ID`. -/
theorem AbstractTable.draftAddRow_assigns_draft_id (t : AbstractTable Row Id) (f : QVariantMap)
    (d zero : Id) (succ : Id → Id) (base : Id)
    (hkind : S.kind = IdKind.integral zero succ base)
    (hset : ∀ row i, S.getId (S.setId row i) = i)
    (hwf : t.WellFormed S) (hflag : t.pendingEdits = false)
    (hadd : draftAddId S t (Convert.fromVariantMap S f S.valueInit).1 = some d)
    (habove : ∀ row ∈ t.rowList, S.getId row < d)
    (hnobak : t.backups.get S d = none) :
    (d = match t.rowList.getLast? with
          | none => base
          | some last => if S.getId last < base then base else succ (S.getId last))
      ∧ base ≤ d
      ∧ getRow S (draftAddRow S t f) d
        = some (S.setId (Convert.fromVariantMap S f S.valueInit).1 d, LoadState.DraftAdd)
      ∧ (∀ k, k ≠ d → getRow S (draftAddRow S t f) k = getRow S t k)
      ∧ (draftAddRow S t f).rowList.length = t.rowList.length + 1
      ∧ (draftAddRow S t f).backups.get S d
        = some (S.setId (Convert.fromVariantMap S f S.valueInit).1 d, LoadState.DraftAdd)
      ∧ (∀ k, k ≠ d → (draftAddRow S t f).backups.get S k = t.backups.get S k)
      ∧ (draftAddRow S t f).locallyAddedRows
        = t.locallyAddedRows ++ [QVariantMap.insert f Strings.DraftId (S.idFromValue d)] := by
  generalize hparsed : (Convert.fromVariantMap S f S.valueInit).1 = parsed at hadd ⊢
  have hid : S.getId (S.setId parsed d) = d := hset parsed d
  have hd : d = match t.rowList.getLast? with
      | none => base
      | some last => if S.getId last < base then base else succ (S.getId last) := by
    simp only [draftAddId, hkind] at hadd
    split_ifs at hadd
    cases hl : t.rowList.getLast? with
    | none => rw [hl] at hadd; exact (Option.some.inj hadd).symm
    | some last =>
      rw [hl] at hadd
      simp only at hadd ⊢
      split_ifs at hadd ⊢ <;> exact (Option.some.inj hadd).symm
  have hbase : base ≤ d := by
    cases hl : t.rowList.getLast? with
    | none => rw [hl] at hd; exact le_of_eq hd.symm
    | some last =>
      rw [hl] at hd
      simp only at hd
      by_cases hlt : S.getId last < base
      · rw [if_pos hlt] at hd; exact le_of_eq hd.symm
      · exact le_trans (not_lt.mp hlt)
          (le_of_lt (habove last (List.mem_of_mem_getLast? (by rw [hl]; exact rfl))))
  have hno : ∀ a, t.rowList[lowerBound S.getId t.rowList (S.getId (S.setId parsed d))]? = some a →
      S.getId a ≠ S.getId (S.setId parsed d) := by
    intro a ha
    rw [hid]
    exact ne_of_lt (habove a (List.mem_iff_getElem?.mpr ⟨_, ha⟩))
  have hle := lowerBound_le_length S.getId t.rowList (S.getId (S.setId parsed d))
  have hadded : draftAddRow S t f = notifyUpdateRows S
      { t with rowList := t.rowList.insertIdx
                  (lowerBound S.getId t.rowList (S.getId (S.setId parsed d))) (S.setId parsed d),
                rowStates := t.rowStates.insertIdx
                  (lowerBound S.getId t.rowList (S.getId (S.setId parsed d))) LoadState.DraftAdd,
                locallyAddedRows := t.locallyAddedRows
                  ++ [QVariantMap.insert f Strings.DraftId (S.idFromValue d)],
                backups := t.backups.save S (S.setId parsed d) LoadState.DraftAdd }
      [S.setId parsed d] := by
    simp only [draftAddRow, hflag, hparsed, hadd, hkind, hid]
    simp
  generalize hta : draftAddRow S t f = ta at hadded ⊢
  have e1 : ta.rowList = t.rowList.insertIdx
      (lowerBound S.getId t.rowList (S.getId (S.setId parsed d))) (S.setId parsed d) := by
    rw [hadded]; rfl
  have e2 : ta.rowStates = t.rowStates.insertIdx
      (lowerBound S.getId t.rowList (S.getId (S.setId parsed d))) LoadState.DraftAdd := by
    rw [hadded]; rfl
  have e3 : ta.locallyAddedRows = t.locallyAddedRows
      ++ [QVariantMap.insert f Strings.DraftId (S.idFromValue d)] := by rw [hadded]; rfl
  have e4 : ta.backups = t.backups.save S (S.setId parsed d) LoadState.DraftAdd := by
    rw [hadded]; rfl
  have hwa : ta.WellFormed S := by
    refine ⟨?_, ?_, by rw [e4]; exact BackupManager.save_wellFormed S _ _ _ hwf.backups⟩
    · rw [e1]
      exact strictlySorted_insertIdx_lowerBound S.getId _ _ hwf.sorted hno
    · rw [e1, e2, List.length_insertIdx _ _ hle,
        List.length_insertIdx _ _ (by rw [hwf.parallel]; exact hle), hwf.parallel]
  have hla : ∀ k, getRow S ta k
      = if k = d then some (S.setId parsed d, LoadState.DraftAdd) else getRow S t k := by
    intro k
    rw [getRow_eq_lookup S ta k hwa, getRow_eq_lookup S t k hwf, e1, e2,
      lookup_insertIdx_lowerBound S.getId t.rowList t.rowStates (S.setId parsed d)
        LoadState.DraftAdd k hwf.parallel hno, hid]
  have hba : ∀ k, ta.backups.get S k
      = if k = d then some (S.setId parsed d, LoadState.DraftAdd) else t.backups.get S k := by
    intro k
    rw [e4, BackupManager.save_get S t.backups _ _ k hwf.backups, hid]
    by_cases hk : k = d
    · subst hk
      simp only [if_true, hnobak]
    · simp only [if_neg hk]
  refine ⟨hd, hbase, ?_, ?_, ?_, ?_, ?_, e3⟩
  · rw [hla d, if_pos rfl]
  · intro k hk
    rw [hla k, if_neg hk]
  · rw [e1, List.length_insertIdx _ _ hle]
  · rw [hba d, if_pos rfl]
  · intro k hk
    rw [hba k, if_neg hk]

end DraftIdFacts

section DraftIdClaim

open AbstractTable Examples

/-- C13. Draft id assignment, broken at the end of the id range. The polling groups table holds
the rows with the ids 0 and `2 ^ 64 - 1` from the backend, its pending flag is clear, and the field
map `{name: "X"}` specifies no id. `draftAddRow` assigns the largest id plus one, which is 0 in the
64-bit id type: the id of the new row is below `BASE_DRAFT_ID`, it is the id of a row that the
cache already holds, and the record in `locallyAddedRows` carries `DRAFT_ID` 0. -/
theorem C13_draft_id_wraps :
    fullRangeTable.pendingEdits = false
      ∧ fullRangeTable.rowList.map PollingGroup.id = [0, 2 ^ 64 - 1]
      ∧ draftAddId groups fullRangeTable (Convert.fromVariantMap groups nameX groups.valueInit).1
        = some 0
      ∧ (0 : Nat) < Examples.baseDraftId
      ∧ (getRow groups fullRangeTable 0).isSome = true
      ∧ (draftAddRow groups fullRangeTable nameX).rowList
        = [group 0 "X", group 0 "first", group (2 ^ 64 - 1) "last"]
      ∧ (draftAddRow groups fullRangeTable nameX).rowStates
        = [LoadState.DraftAdd, LoadState.Loaded, LoadState.Loaded]
      ∧ (draftAddRow groups fullRangeTable nameX).locallyAddedRows
        = [[(Strings.DraftId, QVariant.ulonglong 0),
            (QString.ofString "name", QVariant.string (QString.ofString "X"))]] := by
  decide

end DraftIdClaim

section DraftFacts

open AbstractTable

variable {α σ Id : Type} [LinearOrder Id] (key : α → Id)

/-- An element put at the lower bound of its key is found there. -/
theorem lowerBound_insertIdx_self (l : List α) (x : α) :
    lowerBound key (l.insertIdx (lowerBound key l (key x)) x) (key x) = lowerBound key l (key x) := by
  induction l with
  | nil => simp [lowerBound]
  | cons b l ih =>
    simp only [lowerBound]
    by_cases hb : key b < key x
    · rw [if_pos hb, List.insertIdx_succ_cons]
      simp only [lowerBound, if_pos hb, ih]
    · rw [if_neg hb]
      simp [lowerBound]

theorem getElem?_insertIdx_lowerBound (l : List α) (x : α) :
    (l.insertIdx (lowerBound key l (key x)) x)[lowerBound key l (key x)]? = some x := by
  induction l with
  | nil => simp [lowerBound]
  | cons b l ih =>
    simp only [lowerBound]
    by_cases hb : key b < key x
    · rw [if_pos hb, List.insertIdx_succ_cons, List.getElem?_cons_succ]
      exact ih
    · rw [if_neg hb]
      simp

theorem getD_insertIdx_self (ss : List σ) (n : Nat) (s dflt : σ) (h : n ≤ ss.length) :
    (ss.insertIdx n s).getD n dflt = s := by
  induction n generalizing ss with
  | zero => simp
  | succ n ih =>
    cases ss with
    | nil => simp at h
    | cons a ss =>
      rw [List.insertIdx_succ_cons, List.getD_cons_succ]
      exact ih ss (by simpa using h)

theorem QVariant.cmp_self (v : QVariant) : QVariant.cmp v v = true := by
  cases v <;> simp [QVariant.cmp]

end DraftFacts

section DraftBackupFacts

variable {Row Id : Type} [LinearOrder Id] (S : RowSchema Row Id)

/-- A backup that `save` has made for an id without one is taken back by `remove`. -/
theorem BackupManager.remove_save (b : BackupManager Row) (row : Row) (st : LoadState)
    (hnone : b.get S (S.getId row) = none) :
    ((b.save S row st).remove S (S.getId row)).2 = b := by
  have hsave : b.save S row st
      = ⟨b.rows.insertIdx (lowerBound S.getId b.rows (S.getId row)) row,
         b.states.insertIdx (lowerBound S.getId b.rows (S.getId row)) st⟩ := by
    simp only [BackupManager.get] at hnone
    simp only [BackupManager.save]
    cases hr : b.rows[lowerBound S.getId b.rows (S.getId row)]? with
    | none => rfl
    | some r =>
      rw [hr] at hnone
      by_cases hi : S.getId r = S.getId row
      · simp [hi] at hnone
      · simp [hi]
  rw [hsave]
  simp only [BackupManager.remove, lowerBound_insertIdx_self, getElem?_insertIdx_lowerBound,
    if_true, List.eraseIdx_insertIdx]

/-- Nothing is removed for an id without a backup. -/
theorem BackupManager.remove_of_get_none (b : BackupManager Row) (k : Id)
    (hnone : b.get S k = none) : (b.remove S k).2 = b := by
  simp only [BackupManager.get] at hnone
  simp only [BackupManager.remove]
  cases hr : b.rows[lowerBound S.getId b.rows k]? with
  | none => rfl
  | some r =>
    rw [hr] at hnone
    by_cases hi : S.getId r = k
    · simp [hi] at hnone
    · simp [hi]

end DraftBackupFacts

section DraftAddDelete

open AbstractTable

variable {Row Id : Type} [LinearOrder Id] (S : RowSchema Row Id)

/-- What `draftAddRow` does when it accepts the field map and gives the new row the id `d`. -/
theorem AbstractTable.draftAddRow_accepted (t : AbstractTable Row Id) (f : QVariantMap) (d : Id)
    (hset : ∀ row i, S.getId (S.setId row i) = i) (hflag : t.pendingEdits = false)
    (hadd : draftAddId S t (Convert.fromVariantMap S f S.valueInit).1 = some d) :
    ∃ newRow, S.getId newRow = d
      ∧ draftAddRow S t f = notifyUpdateRows S
          { t with rowList := t.rowList.insertIdx (lowerBound S.getId t.rowList d) newRow,
                   rowStates := t.rowStates.insertIdx (lowerBound S.getId t.rowList d)
                     LoadState.DraftAdd,
                   locallyAddedRows := t.locallyAddedRows
                     ++ [QVariantMap.insert f Strings.DraftId (S.idFromValue d)],
                   backups := t.backups.save S newRow LoadState.DraftAdd } [newRow] := by
  generalize hparsed : (Convert.fromVariantMap S f S.valueInit).1 = parsed at hadd
  cases hk : S.kind with
  | integral zero succ base =>
    refine ⟨S.setId parsed d, hset parsed d, ?_⟩
    simp only [draftAddRow, hflag, hparsed, hadd, hk, hset]
    simp
  | other =>
    have hd : S.getId parsed = d := by
      simp only [draftAddId, hk] at hadd
      split_ifs at hadd
      exact Option.some.inj hadd
    refine ⟨parsed, hd, ?_⟩
    simp only [draftAddRow, hflag, hparsed, hadd, hk, hd]
    simp

/-- The ledger after `deleteRow` took out a row with a draft. -/
theorem AbstractTable.deleteRow_draft_backups (t : AbstractTable Row Id) (k : Id) (row : Row)
    (hr : t.rowList[lowerBound S.getId t.rowList k]? = some row) (hi : S.getId row = k)
    (hs : t.rowStates.getD (lowerBound S.getId t.rowList k) LoadState.Loaded = LoadState.DraftAdd) :
    (deleteRow S t k).backups = (t.backups.remove S k).2 := by
  simp only [deleteRow, hr, hi, if_true, hs]
  simp [notifyDeleteRow, emit]

end DraftAddDelete

section DraftAddDeleteClaim

open AbstractTable

variable {Row Id : Type} [LinearOrder Id] (S : RowSchema Row Id)

/-- What `draftDeleteRow` does to a row in state `DraftAdd`. -/
theorem AbstractTable.draftDeleteRow_draftAdd (t : AbstractTable Row Id) (rowId : QVariant)
    (row : Row) (hflag : t.pendingEdits = false)
    (hr : t.rowList[lowerBound S.getId t.rowList (S.idValue rowId)]? = some row)
    (hi : S.getId row = S.idValue rowId)
    (hs : t.rowStates.getD (lowerBound S.getId t.rowList (S.idValue rowId)) LoadState.Loaded
      = LoadState.DraftAdd) :
    (draftDeleteRow S t rowId).rowList
        = t.rowList.eraseIdx (lowerBound S.getId t.rowList (S.idValue rowId))
      ∧ (draftDeleteRow S t rowId).rowStates
        = t.rowStates.eraseIdx (lowerBound S.getId t.rowList (S.idValue rowId))
      ∧ (draftDeleteRow S t rowId).locallyAddedRows
        = t.locallyAddedRows.filter
            (fun r => !QVariant.cmp (QVariantMap.value r Strings.DraftId) rowId)
      ∧ (draftDeleteRow S t rowId).backups
        = ((t.backups.remove S (S.idValue rowId)).2.remove S (S.idValue rowId)).2 := by
  simp only [draftDeleteRow, hflag, hr, hi, hs, Bool.false_eq_true, if_false, ne_eq,
    not_true_eq_false, if_true, deleteBackupRow_rowList, deleteBackupRow_rowStates,
    deleteBackupRow_locallyAddedRows, deleteBackupRow_backups]
  generalize ht1 : ({ t with
      locallyAddedRows := (t.locallyAddedRows.filter
        (fun r => !QVariant.cmp (QVariantMap.value r Strings.DraftId) rowId)),
      pendingEdits := false } : AbstractTable Row Id) = t1
  have h1 : t1.rowList = t.rowList := by rw [← ht1]
  have h2 : t1.rowStates = t.rowStates := by rw [← ht1]
  have h3 : t1.backups = t.backups := by rw [← ht1]
  have h4 : t1.locallyAddedRows = t.locallyAddedRows.filter
      (fun r => !QVariant.cmp (QVariantMap.value r Strings.DraftId) rowId) := by rw [← ht1]
  obtain ⟨g1, g2, g3⟩ := deleteRow_found S t1 (S.idValue rowId) row (by rw [h1]; exact hr) hi
  have g4 := deleteRow_draft_backups S t1 (S.idValue rowId) row (by rw [h1]; exact hr) hi
    (by rw [h1, h2]; exact hs)
  refine ⟨?_, ?_, ?_, ?_⟩
  · rw [g1, h1]
  · rw [g2, h1, h2]
  · rw [g3, h4]
  · rw [g4, h3]

/-- C14 (amended). A draft add deleted before submission leaves no trace: for a table (cache
ordered by id, one state a row) with the pending flag clear that holds no backup for the id `d`
that `draftAddRow(f)` assigns and no locally-added-row record whose `DRAFT_ID` equals `d`,
`draftAddRow(f)` followed by `draftDeleteRow(d)` leaves `rowList`, `rowStates`, the backup ledger
and `locallyAddedRows` equal to what they were before the `draftAddRow`. -/
theorem C14_draft_add_then_delete (t : AbstractTable Row Id) (f : QVariantMap) (d : Id)
    (hset : ∀ row i, S.getId (S.setId row i) = i)
    (hconv : S.idValue (S.idFromValue d) = d)
    (hwf : t.WellFormed S) (hflag : t.pendingEdits = false)
    (hadd : draftAddId S t (Convert.fromVariantMap S f S.valueInit).1 = some d)
    (hnobak : t.backups.get S d = none)
    (hnorec : ∀ r ∈ t.locallyAddedRows,
      QVariant.cmp (QVariantMap.value r Strings.DraftId) (S.idFromValue d) = false) :
    (draftDeleteRow S (draftAddRow S t f) (S.idFromValue d)).rowList = t.rowList
      ∧ (draftDeleteRow S (draftAddRow S t f) (S.idFromValue d)).rowStates = t.rowStates
      ∧ (draftDeleteRow S (draftAddRow S t f) (S.idFromValue d)).backups = t.backups
      ∧ (draftDeleteRow S (draftAddRow S t f) (S.idFromValue d)).locallyAddedRows
        = t.locallyAddedRows := by
  obtain ⟨newRow, hid, hadded⟩ := draftAddRow_accepted S t f d hset hflag hadd
  have hle : lowerBound S.getId t.rowList d ≤ t.rowStates.length := by
    rw [hwf.parallel]; exact lowerBound_le_length S.getId t.rowList d
  generalize hta : draftAddRow S t f = ta at hadded ⊢
  have e1 : ta.rowList = t.rowList.insertIdx (lowerBound S.getId t.rowList d) newRow := by
    rw [hadded]; rfl
  have e2 : ta.rowStates = t.rowStates.insertIdx (lowerBound S.getId t.rowList d)
      LoadState.DraftAdd := by rw [hadded]; rfl
  have e3 : ta.locallyAddedRows = t.locallyAddedRows
      ++ [QVariantMap.insert f Strings.DraftId (S.idFromValue d)] := by rw [hadded]; rfl
  have e4 : ta.backups = t.backups.save S newRow LoadState.DraftAdd := by rw [hadded]; rfl
  have e5 : ta.pendingEdits = false := by rw [hadded]; exact hflag
  have hlb : lowerBound S.getId ta.rowList d = lowerBound S.getId t.rowList d := by
    rw [e1, ← hid]; exact lowerBound_insertIdx_self S.getId t.rowList newRow
  obtain ⟨g1, g2, g3, g4⟩ := draftDeleteRow_draftAdd S ta (S.idFromValue d) newRow e5
    (by rw [hconv, hlb, e1, ← hid]; exact getElem?_insertIdx_lowerBound S.getId t.rowList newRow)
    (by rw [hconv, hid])
    (by rw [hconv, hlb, e2]; exact getD_insertIdx_self _ _ _ _ hle)
  rw [hconv, hlb] at g1 g2
  rw [hconv] at g4
  refine ⟨?_, ?_, ?_, ?_⟩
  · rw [g1, e1, List.eraseIdx_insertIdx]
  · rw [g2, e2, List.eraseIdx_insertIdx]
  · rw [g4, e4]
    have h1 : ((t.backups.save S newRow LoadState.DraftAdd).remove S d).2 = t.backups := by
      rw [← hid]
      exact BackupManager.remove_save S t.backups newRow LoadState.DraftAdd (by rw [hid]; exact hnobak)
    rw [h1, BackupManager.remove_of_get_none S t.backups d hnobak]
  · rw [g3, e3, List.filter_append]
    have h1 : t.locallyAddedRows.filter
        (fun r => !QVariant.cmp (QVariantMap.value r Strings.DraftId) (S.idFromValue d))
        = t.locallyAddedRows := by
      apply List.filter_eq_self.mpr
      intro r hr
      rw [hnorec r hr]; rfl
    rw [h1]
    simp [QVariantMap.value, QVariantMap.find_insert_self, QVariant.cmp_self]

end DraftAddDeleteClaim

section DraftAddDeleteWitness

open AbstractTable Examples

theorem C14_draft_add_then_delete_witness :
    (draftDeleteRow groups (draftAddRow groups loadedTable nameX) (QVariant.ulonglong (2 ^ 63))).rowList
        = loadedTable.rowList
      ∧ (draftDeleteRow groups (draftAddRow groups loadedTable nameX)
          (QVariant.ulonglong (2 ^ 63))).rowStates = loadedTable.rowStates
      ∧ (draftDeleteRow groups (draftAddRow groups loadedTable nameX)
          (QVariant.ulonglong (2 ^ 63))).backups = loadedTable.backups
      ∧ (draftDeleteRow groups (draftAddRow groups loadedTable nameX)
          (QVariant.ulonglong (2 ^ 63))).locallyAddedRows = loadedTable.locallyAddedRows :=
  C14_draft_add_then_delete groups loadedTable nameX (2 ^ 63) (fun _ _ => rfl) rfl
    ⟨by decide, by decide, ⟨by decide, by decide⟩⟩ (by decide) (by decide) (by decide) (by decide)

/-- C14, as stated, fails in a table that still holds a record with the draft id. The group
members table holds no row and no backup, its pending flag is clear, and `locallyAddedRows` holds
the record of an earlier draft add of `alice` whose row a `deleteRow` took out. `draftAddRow`
accepts `{account: "alice"}` and adds a second record with `DRAFT_ID` `alice`;
`draftDeleteRow("alice")` then removes every record with that `DRAFT_ID`, the earlier one too. -/
theorem C14_earlier_record_removed :
    staleRecordTable.pendingEdits = false
      ∧ staleRecordTable.rowList = []
      ∧ staleRecordTable.backups = BackupManager.empty
      ∧ staleRecordTable.locallyAddedRows
        = [[(QString.ofString "DRAFT_ID", QVariant.string (QString.ofString "alice")),
            (QString.ofString "account", QVariant.string (QString.ofString "alice"))]]
      ∧ (draftAddRow members staleRecordTable aliceMap).rowList = [member "alice" 0]
      ∧ (draftDeleteRow members (draftAddRow members staleRecordTable aliceMap)
          (QVariant.string (QString.ofString "alice"))).locallyAddedRows = [] := by
  decide

end DraftAddDeleteWitness

section PendingFacts

open AbstractTable

variable {Row Id : Type} [LinearOrder Id] (S : RowSchema Row Id)

theorem AbstractTable.pendingOf_pendingOf (st : LoadState) : pendingOf (pendingOf st) = pendingOf st := by
  cases st <;> rfl

/-- The callback of `markEditsPending` for one backup changes the state of the row with the id
of the backup, and nothing else. -/
theorem AbstractTable.markPendingStep_spec (acc : AbstractTable Row Id × List Row) (bak : Row)
    (hwf : acc.1.WellFormed S) :
    (markPendingStep S acc bak).1.rowList = acc.1.rowList
      ∧ (markPendingStep S acc bak).1.backups = acc.1.backups
      ∧ (markPendingStep S acc bak).1.locallyAddedRows = acc.1.locallyAddedRows
      ∧ (markPendingStep S acc bak).1.pendingEdits = acc.1.pendingEdits
      ∧ (markPendingStep S acc bak).1.emitted = acc.1.emitted
      ∧ (markPendingStep S acc bak).1.rowStates.length = acc.1.rowStates.length
      ∧ ∀ k, lookup S.getId (markPendingStep S acc bak).1.rowList
            (markPendingStep S acc bak).1.rowStates k
          = if k = S.getId bak then
              (lookup S.getId acc.1.rowList acc.1.rowStates k).map (fun e => (e.1, pendingOf e.2))
            else lookup S.getId acc.1.rowList acc.1.rowStates k := by
  have hget := getRow_eq_lookup S acc.1 (S.getId bak) hwf
  simp only [getRow] at hget
  cases hr : acc.1.rowList[lowerBound S.getId acc.1.rowList (S.getId bak)]? with
  | none =>
    rw [hr] at hget
    have hstep : markPendingStep S acc bak = acc := by simp only [markPendingStep, hr]
    rw [hstep]
    refine ⟨rfl, rfl, rfl, rfl, rfl, rfl, ?_⟩
    intro k
    by_cases hk : k = S.getId bak
    · subst hk
      rw [if_pos rfl, ← hget]; rfl
    · rw [if_neg hk]
  | some row =>
    rw [hr] at hget
    by_cases hi : S.getId row = S.getId bak
    · simp only [hi, if_true] at hget
      have hstep : markPendingStep S acc bak
          = (({ (acc.1) with rowStates :=
                (acc.1.rowStates.set (lowerBound S.getId acc.1.rowList (S.getId bak))
                  (pendingOf (acc.1.rowStates.getD
                    (lowerBound S.getId acc.1.rowList (S.getId bak)) LoadState.Loaded))) }
              : AbstractTable Row Id), acc.2 ++ [row]) := by
        simp only [markPendingStep, hr, hi, if_true]
      rw [hstep]
      refine ⟨rfl, rfl, rfl, rfl, rfl, by simp, ?_⟩
      intro k
      show lookup S.getId acc.1.rowList (acc.1.rowStates.set _ _) k = _
      rw [lookup_setState_lowerBound S.getId acc.1.rowList acc.1.rowStates (S.getId bak) k row _
        hwf.parallel hr hi]
      by_cases hk : k = S.getId bak
      · subst hk
        rw [if_pos rfl, if_pos rfl, ← hget]; rfl
      · rw [if_neg hk, if_neg hk]
    · simp only [hi, if_false] at hget
      have hstep : markPendingStep S acc bak = acc := by
        simp only [markPendingStep, hr, hi, if_false]
      rw [hstep]
      refine ⟨rfl, rfl, rfl, rfl, rfl, rfl, ?_⟩
      intro k
      by_cases hk : k = S.getId bak
      · subst hk
        rw [if_pos rfl, ← hget]; rfl
      · rw [if_neg hk]

/-- The loop of `markEditsPending` over the backups `bs`. -/
theorem AbstractTable.foldl_markPendingStep_spec (bs : List Row)
    (acc : AbstractTable Row Id × List Row) (hwf : acc.1.WellFormed S) :
    (bs.foldl (markPendingStep S) acc).1.rowList = acc.1.rowList
      ∧ (bs.foldl (markPendingStep S) acc).1.backups = acc.1.backups
      ∧ (bs.foldl (markPendingStep S) acc).1.locallyAddedRows = acc.1.locallyAddedRows
      ∧ (bs.foldl (markPendingStep S) acc).1.pendingEdits = acc.1.pendingEdits
      ∧ (bs.foldl (markPendingStep S) acc).1.emitted = acc.1.emitted
      ∧ (bs.foldl (markPendingStep S) acc).1.rowStates.length = acc.1.rowStates.length
      ∧ ∀ k, lookup S.getId (bs.foldl (markPendingStep S) acc).1.rowList
            (bs.foldl (markPendingStep S) acc).1.rowStates k
          = (lookup S.getId acc.1.rowList acc.1.rowStates k).map
              (fun e => (e.1, if k ∈ bs.map S.getId then pendingOf e.2 else e.2)) := by
  induction bs generalizing acc with
  | nil =>
    refine ⟨rfl, rfl, rfl, rfl, rfl, rfl, ?_⟩
    intro k
    simp
  | cons a rest ih =>
    obtain ⟨s1, s2, s3, s4, s5, s6, s7⟩ := markPendingStep_spec S acc a hwf
    have hw1 : (markPendingStep S acc a).1.WellFormed S :=
      ⟨by rw [s1]; exact hwf.sorted, by rw [s6, s1]; exact hwf.parallel,
        by rw [s2]; exact hwf.backups⟩
    obtain ⟨f1, f2, f3, f4, f5, f6, f7⟩ := ih (markPendingStep S acc a) hw1
    rw [List.foldl_cons]
    refine ⟨f1.trans s1, f2.trans s2, f3.trans s3, f4.trans s4, f5.trans s5, f6.trans s6, ?_⟩
    intro k
    rw [f7 k, s7 k]
    cases hl : lookup S.getId acc.1.rowList acc.1.rowStates k with
    | none => simp
    | some e =>
      by_cases hk : k = S.getId a
      · subst hk
        by_cases hm : S.getId a ∈ rest.map S.getId
        · simp only [if_pos hm, if_true, Option.map_some', pendingOf_pendingOf,
            List.map_cons, List.mem_cons, true_or]
        · simp only [if_neg hm, if_true, Option.map_some', List.map_cons, List.mem_cons, true_or]
      · by_cases hm : k ∈ rest.map S.getId
        · simp [hk, hm]
        · simp [hk, hm]

/-- The ids with a backup are those of the rows of the ledger. -/
theorem BackupManager.get_isSome_iff (b : BackupManager Row) (k : Id) (h : b.WellFormed S) :
    (b.get S k).isSome = true ↔ k ∈ b.rows.map S.getId := by
  rw [BackupManager.get_eq_lookup S b k h]
  constructor
  · intro hs
    obtain ⟨e, he⟩ := Option.isSome_iff_exists.mp hs
    obtain ⟨h1, h2⟩ := lookup_some_mem S.getId _ _ _ _ he
    exact List.mem_map.mpr ⟨e.1, h1, h2⟩
  · intro hm
    obtain ⟨a, ha, hk⟩ := List.mem_map.mp hm
    exact lookup_isSome_of_mem S.getId _ _ _ h.parallel a ha hk

end PendingFacts

section PendingClaim

open AbstractTable

variable {Row Id : Type} [LinearOrder Id] (S : RowSchema Row Id)

/-- C15. Promotion to pending: on a table (cache ordered by id, one state a row, ledger ordered by
id) `markEditsPending()` changes the state of every row that has a backup from `DraftEdit` to
`PendingEdit`, from `DraftAdd` to `PendingAdd` and from `DraftDelete` to `PendingDelete`; a
backed-up row in any other state keeps its state, rows without a backup keep their state, no row
value and no backup changes, no row is added or removed, `locallyAddedRows` stays, and
`hasPendingEdits()` becomes true when at least one backup exists. -/
theorem C15_markEditsPending_promotes (t : AbstractTable Row Id) (hwf : t.WellFormed S) :
    (∀ k row st, getRow S t k = some (row, st) → (t.backups.get S k).isSome = true →
        (st = LoadState.DraftEdit →
          getRow S (markEditsPending S t) k = some (row, LoadState.PendingEdit))
        ∧ (st = LoadState.DraftAdd →
          getRow S (markEditsPending S t) k = some (row, LoadState.PendingAdd))
        ∧ (st = LoadState.DraftDelete →
          getRow S (markEditsPending S t) k = some (row, LoadState.PendingDelete))
        ∧ (st ≠ LoadState.DraftEdit → st ≠ LoadState.DraftAdd → st ≠ LoadState.DraftDelete →
          getRow S (markEditsPending S t) k = some (row, st)))
      ∧ (∀ k, t.backups.get S k = none → getRow S (markEditsPending S t) k = getRow S t k)
      ∧ (markEditsPending S t).rowList = t.rowList
      ∧ (markEditsPending S t).backups = t.backups
      ∧ (markEditsPending S t).locallyAddedRows = t.locallyAddedRows
      ∧ (t.backups.isEmpty = false → hasPendingEdits (markEditsPending S t) = true) := by
  obtain ⟨f1, f2, f3, f4, f5, f6, f7⟩ :=
    foldl_markPendingStep_spec S t.backups.rows (t, []) hwf
  generalize hr : t.backups.rows.foldl (markPendingStep S) (t, []) = r at f1 f2 f3 f4 f5 f6 f7
  have hfields : (markEditsPending S t).rowList = r.1.rowList
      ∧ (markEditsPending S t).rowStates = r.1.rowStates
      ∧ (markEditsPending S t).backups = r.1.backups
      ∧ (markEditsPending S t).locallyAddedRows = r.1.locallyAddedRows
      ∧ (r.1.backups.isEmpty = false → (markEditsPending S t).pendingEdits = true) := by
    simp only [markEditsPending, hr, notifyUpdateRows]
    split_ifs with hb
    · exact ⟨rfl, rfl, rfl, rfl, fun _ => rfl⟩
    · refine ⟨rfl, rfl, rfl, rfl, fun he => ?_⟩
      simp [he] at hb
  obtain ⟨e1, e2, e3, e4, e5⟩ := hfields
  have hw1 : (markEditsPending S t).WellFormed S :=
    ⟨by rw [e1, f1]; exact hwf.sorted, by rw [e1, e2, f6, f1]; exact hwf.parallel,
      by rw [e3, f2]; exact hwf.backups⟩
  have hget : ∀ k, getRow S (markEditsPending S t) k
      = (getRow S t k).map
          (fun e => (e.1, if k ∈ t.backups.rows.map S.getId then pendingOf e.2 else e.2)) := by
    intro k
    rw [getRow_eq_lookup S _ k hw1, getRow_eq_lookup S t k hwf, e1, e2, f7 k]
  refine ⟨?_, ?_, e1.trans f1, e3.trans f2, e4.trans f3, ?_⟩
  · intro k row st hrow hbak
    have hm := (BackupManager.get_isSome_iff S t.backups k hwf.backups).mp hbak
    have h := hget k
    rw [hrow] at h
    simp only [Option.map_some', if_pos hm] at h
    refine ⟨?_, ?_, ?_, ?_⟩
    · intro hs; rw [h, hs]; rfl
    · intro hs; rw [h, hs]; rfl
    · intro hs; rw [h, hs]; rfl
    · intro h1 h2 h3
      rw [h]
      simp only [pendingOf, if_neg h1, if_neg h2, if_neg h3]
  · intro k hnone
    have hm : ¬ k ∈ t.backups.rows.map S.getId := by
      intro hin
      have := (BackupManager.get_isSome_iff S t.backups k hwf.backups).mpr hin
      rw [hnone] at this
      exact absurd this (by simp)
    rw [hget k]
    cases getRow S t k with
    | none => rfl
    | some e => simp only [Option.map_some', if_neg hm]
  · intro he
    exact e5 (by rw [f2]; exact he)

end PendingClaim

section PendingWitness

open AbstractTable Examples

theorem C15_markEditsPending_promotes_witness :
    getRow groups (markEditsPending groups (editedTable LoadState.DraftEdit false)) 5
        = some (group 5 "A", LoadState.PendingEdit)
      ∧ hasPendingEdits (markEditsPending groups (editedTable LoadState.DraftEdit false)) = true :=
  have h := C15_markEditsPending_promotes groups (editedTable LoadState.DraftEdit false)
    ⟨by decide, by decide, ⟨by decide, by decide⟩⟩
  ⟨(h.1 5 (group 5 "A") LoadState.DraftEdit (by decide) (by decide)).1 rfl,
    h.2.2.2.2.2 (by decide)⟩

end PendingWitness

section RecordFacts

open AbstractTable

variable {Row Id : Type} [LinearOrder Id] (S : RowSchema Row Id)

theorem QVariantMap.find_assign (m : QVariantMap) (k k0 : QString) (v : QVariant) :
    QVariantMap.find (QVariantMap.assign m k v) k0
      = if k0 = k then (QVariantMap.find m k).map (fun _ => v) else QVariantMap.find m k0 := by
  induction m with
  | nil => simp [QVariantMap.assign, QVariantMap.find]
  | cons e rest ih =>
    obtain ⟨k1, w⟩ := e
    simp only [QVariantMap.assign]
    by_cases h1 : k1 = k
    · subst h1
      by_cases h0 : k0 = k1
      · subst h0
        simp [QVariantMap.find]
      · have h2 : ¬ k1 = k0 := fun h => h0 h.symm
        simp [QVariantMap.find, h0, h2]
    · rw [if_neg h1]
      simp only [QVariantMap.find, ih]
      by_cases h0 : k0 = k
      · subst h0
        simp [h1]
      · simp only [if_neg h0]

/-- The loop over the keys of the change map does not end when a key is not in the record. -/
theorem AbstractTable.foldChanges_stuck (changeMap : QVariantMap) (fuel : Nat) (ks : List QString)
    (record : QVariantMap) (h : ∃ k ∈ ks, QVariantMap.find record k = none) :
    foldChanges fuel ks record changeMap = none := by
  induction fuel generalizing ks record with
  | zero =>
    obtain ⟨k, hk, _⟩ := h
    cases ks with
    | nil => cases hk
    | cons a rest => rfl
  | succ fuel ih =>
    obtain ⟨k, hk, hnone⟩ := h
    cases ks with
    | nil => cases hk
    | cons a rest =>
      simp only [foldChanges]
      cases ha : QVariantMap.find record a with
      | none => exact ih (a :: rest) record ⟨k, hk, hnone⟩
      | some w =>
        have hne : k ≠ a := by
          intro e
          rw [e, ha] at hnone
          cases hnone
        have hin : k ∈ rest := by
          rcases List.mem_cons.mp hk with e | e
          · exact absurd e hne
          · exact e
        exact ih rest _ ⟨k, hin, by rw [QVariantMap.find_assign, if_neg hne]; exact hnone⟩

/-- The loop over the keys of the change map ends when the record has every key, and it then has
given every key the value of the change map. -/
theorem AbstractTable.foldChanges_total (changeMap : QVariantMap) (ks : List QString)
    (record : QVariantMap) (h : ∀ k ∈ ks, (QVariantMap.find record k).isSome = true)
    (fuel : Nat) (hfuel : ks.length ≤ fuel) :
    ∃ record1, foldChanges fuel ks record changeMap = some record1
      ∧ ∀ k0, QVariantMap.find record1 k0
          = if k0 ∈ ks then some (QVariantMap.value changeMap k0) else QVariantMap.find record k0 := by
  induction ks generalizing record fuel with
  | nil =>
    refine ⟨record, ?_, fun k0 => by simp⟩
    cases fuel <;> rfl
  | cons a rest ih =>
    cases fuel with
    | zero => simp at hfuel
    | succ fuel =>
      obtain ⟨w, hw⟩ := Option.isSome_iff_exists.mp (h a (List.mem_cons_self _ _))
      have hrest : ∀ k ∈ rest, (QVariantMap.find
          (QVariantMap.assign record a (QVariantMap.value changeMap a)) k).isSome = true := by
        intro k hk
        rw [QVariantMap.find_assign]
        by_cases e : k = a
        · rw [if_pos e, hw]; rfl
        · rw [if_neg e]; exact h k (List.mem_cons_of_mem _ hk)
      obtain ⟨record1, h1, h2⟩ := ih _ hrest fuel (by simpa using hfuel)
      refine ⟨record1, ?_, ?_⟩
      · simp only [foldChanges, hw]
        exact h1
      · intro k0
        rw [h2 k0, QVariantMap.find_assign]
        by_cases hin : k0 ∈ rest
        · simp [hin]
        · by_cases e : k0 = a
          · subst e
            simp [hin, hw]
          · simp [hin, e]

/-- A call of `draftEditRow` on a row in state `DraftAdd` does not return when the change map
has a key that the record of the row does not have. -/
theorem AbstractTable.draftEditRow_never_returns (t : AbstractTable Row Id) (rowId : QVariant)
    (changeMap : QVariantMap) (oldRow : Row) (j : Nat)
    (hflag : t.pendingEdits = false)
    (hr : t.rowList[lowerBound S.getId t.rowList (S.idValue rowId)]? = some oldRow)
    (hi : S.getId oldRow = S.idValue rowId)
    (hs : t.rowStates.getD (lowerBound S.getId t.rowList (S.idValue rowId)) LoadState.Loaded
      = LoadState.DraftAdd)
    (hkeep : S.getId (Convert.fromVariantMap S changeMap oldRow).1 = S.getId oldRow)
    (hj : findFirst (fun row => QVariant.cmp (QVariantMap.value row Strings.DraftId) rowId)
      t.locallyAddedRows = some j)
    (hmiss : ∃ k ∈ QVariantMap.keys changeMap,
      QVariantMap.find (t.locallyAddedRows.getD j []) k = none)
    (fuel : Nat) :
    draftEditRow S fuel t rowId changeMap = none := by
  simp only [draftEditRow, hflag, hr, hi, hs, hkeep, hj,
    foldChanges_stuck changeMap fuel _ _ hmiss]
  simp

end RecordFacts

section RecordClaim

open AbstractTable Examples

/-- C17. Edits to a draft-added row are folded into its record, broken for a field that the
record does not have. After `draftAddRow({name: "X"})` the table holds the row with the draft id
`2 ^ 63` in state `DraftAdd`, and its record has the keys `DRAFT_ID` and `name`. The change map
`{tags: ["t"]}` keeps the id. In `draftEditRow` the loop over the keys of the change map takes a key
off its list only when the record has it, so for the key `tags` it goes round for ever:
`draftEditRow` does not return, with however many turns, and the record never maps `tags` to the
value of the change map. -/
theorem C17_draft_edit_of_new_field_hangs (fuel : Nat) :
    getRow groups draftXTable (2 ^ 63) = some (group (2 ^ 63) "X", LoadState.DraftAdd)
      ∧ draftXTable.locallyAddedRows
        = [[(Strings.DraftId, QVariant.ulonglong (2 ^ 63)),
            (QString.ofString "name", QVariant.string (QString.ofString "X"))]]
      ∧ groups.getId (Convert.fromVariantMap groups setTags (group (2 ^ 63) "X")).1 = 2 ^ 63
      ∧ draftEditRow groups fuel draftXTable (QVariant.ulonglong (2 ^ 63)) setTags = none := by
  refine ⟨by decide, by decide, by decide, ?_⟩
  exact draftEditRow_never_returns groups draftXTable (QVariant.ulonglong (2 ^ 63)) setTags
    (group (2 ^ 63) "X") 0 (by decide) (by decide) (by decide) (by decide) (by decide) (by decide)
    ⟨QString.ofString "tags", by decide, by decide⟩ fuel

end RecordClaim

section RecordFactsMore

open AbstractTable

variable {Row Id : Type} [LinearOrder Id] (S : RowSchema Row Id)

/-- A call of `draftEditRow` on a row in state `DraftAdd` whose record has every key of the
change map returns: the record then gives every key of the change map the value of the change
map, the row has the edited value and keeps its state, and the ledger is as it was. -/
theorem AbstractTable.draftEditRow_draftAdd_returns (t : AbstractTable Row Id) (rowId : QVariant)
    (changeMap : QVariantMap) (oldRow : Row) (j : Nat)
    (hflag : t.pendingEdits = false)
    (hr : t.rowList[lowerBound S.getId t.rowList (S.idValue rowId)]? = some oldRow)
    (hi : S.getId oldRow = S.idValue rowId)
    (hs : t.rowStates.getD (lowerBound S.getId t.rowList (S.idValue rowId)) LoadState.Loaded
      = LoadState.DraftAdd)
    (hkeep : S.getId (Convert.fromVariantMap S changeMap oldRow).1 = S.getId oldRow)
    (hj : findFirst (fun row => QVariant.cmp (QVariantMap.value row Strings.DraftId) rowId)
      t.locallyAddedRows = some j)
    (hall : ∀ k ∈ QVariantMap.keys changeMap,
      (QVariantMap.find (t.locallyAddedRows.getD j []) k).isSome = true)
    (fuel : Nat) (hfuel : (QVariantMap.keys changeMap).length ≤ fuel) :
    ∃ record1 t1, draftEditRow S fuel t rowId changeMap = some t1
      ∧ (∀ k0, QVariantMap.find record1 k0
          = if k0 ∈ QVariantMap.keys changeMap then some (QVariantMap.value changeMap k0)
            else QVariantMap.find (t.locallyAddedRows.getD j []) k0)
      ∧ t1.locallyAddedRows = t.locallyAddedRows.set j record1
      ∧ t1.rowList = t.rowList.set (lowerBound S.getId t.rowList (S.idValue rowId))
          (Convert.fromVariantMap S changeMap oldRow).1
      ∧ t1.rowStates = t.rowStates
      ∧ t1.backups = t.backups := by
  obtain ⟨record1, h1, h2⟩ := foldChanges_total changeMap _ _ hall fuel hfuel
  have hres : ∃ t1, draftEditRow S fuel t rowId changeMap = some t1
      ∧ t1.locallyAddedRows = t.locallyAddedRows.set j record1
      ∧ t1.rowList = t.rowList.set (lowerBound S.getId t.rowList (S.idValue rowId))
          (Convert.fromVariantMap S changeMap oldRow).1
      ∧ t1.rowStates = t.rowStates
      ∧ t1.backups = t.backups := by
    simp only [draftEditRow, hflag, hr, hi, hs, hkeep, hj, h1]
    simp [notifyUpdateRows]
  obtain ⟨t1, g1, g2, g3, g4, g5⟩ := hres
  exact ⟨record1, t1, g1, h2, g2, g3, g4, g5⟩

end RecordFactsMore

section ConvertFacts

variable {Row Id : Type}

theorem QVariantMap.find_remove_ne (m : QVariantMap) (k k0 : QString) (h : k0 ≠ k) :
    QVariantMap.find (QVariantMap.remove m k) k0 = QVariantMap.find m k0 := by
  induction m with
  | nil => rfl
  | cons e rest ih =>
    obtain ⟨k1, v1⟩ := e
    simp only [QVariantMap.remove, QVariantMap.find]
    by_cases h1 : k1 = k
    · have h2 : ¬ k1 = k0 := fun h3 => h (h3.symm.trans h1)
      rw [if_pos h1, if_neg h2, ih]
    · rw [if_neg h1]
      simp only [QVariantMap.find, ih]

theorem QVariantMap.keys_remove (m : QVariantMap) (k : QString) :
    QVariantMap.keys (QVariantMap.remove m k)
      = (QVariantMap.keys m).filter (fun k1 => decide (k1 ≠ k)) := by
  induction m with
  | nil => rfl
  | cons e rest ih =>
    obtain ⟨k1, v1⟩ := e
    simp only [QVariantMap.keys] at ih
    simp only [QVariantMap.remove, QVariantMap.keys, List.map_cons, List.filter_cons]
    by_cases h1 : k1 = k
    · simp [h1, ih]
    · simp [h1, ih]

theorem QVariantMap.filter_keys_of_find_none (m : QVariantMap) (k : QString)
    (h : QVariantMap.find m k = none) :
    (QVariantMap.keys m).filter (fun k1 => decide (k1 ≠ k)) = QVariantMap.keys m := by
  rw [← QVariantMap.keys_remove, QVariantMap.remove_of_find_none m k h]

/-- The member loop of `fromVariantMap` leaves alone what no member of the list writes. -/
theorem Convert.foldl_fromVariantStep_frame {β : Type} (g : Row → β) (ms : List (Member Row))
    (hg : ∀ mem ∈ ms, ∀ r v, g (mem.set r v) = g r) (acc : QVariantMap × Row) :
    g (ms.foldl Convert.fromVariantStep acc).2 = g acc.2 := by
  induction ms generalizing acc with
  | nil => rfl
  | cons a rest ih =>
    rw [List.foldl_cons, ih (fun mem h => hg mem (List.mem_cons_of_mem _ h))]
    simp only [Convert.fromVariantStep]
    cases QVariantMap.find acc.1 a.name with
    | none => rfl
    | some v => exact hg a (List.mem_cons_self _ _) _ _

/-- The keys that the member loop of `fromVariantMap` leaves in the map. -/
theorem Convert.foldl_fromVariantStep_keys (ms : List (Member Row)) (acc : QVariantMap × Row) :
    QVariantMap.keys (ms.foldl Convert.fromVariantStep acc).1
      = (QVariantMap.keys acc.1).filter (fun k => decide (k ∉ ms.map (fun mem => mem.name))) := by
  induction ms generalizing acc with
  | nil => simp
  | cons a rest ih =>
    rw [List.foldl_cons, ih]
    have h1 : QVariantMap.keys (Convert.fromVariantStep acc a).1
        = (QVariantMap.keys acc.1).filter (fun k1 => decide (k1 ≠ a.name)) := by
      simp only [Convert.fromVariantStep]
      cases hf : QVariantMap.find acc.1 a.name with
      | none => exact (QVariantMap.filter_keys_of_find_none _ _ hf).symm
      | some v => exact QVariantMap.keys_remove _ _
    rw [h1, List.filter_filter]
    apply List.filter_congr
    intro k _
    by_cases hk : k = a.name
    · simp [hk]
    · simp [hk]

/-- The fields that the member loop of `fromVariantMap` gives the row. -/
theorem Convert.foldl_fromVariantStep_get (ms : List (Member Row))
    (hnames : ms.Pairwise (fun a b => a.name ≠ b.name))
    (hset : ∀ mem ∈ ms, ∀ r v, mem.get (mem.set r v) = v)
    (hframe : ∀ a ∈ ms, ∀ b ∈ ms, a.name ≠ b.name → ∀ r v, b.get (a.set r v) = b.get r)
    (acc : QVariantMap × Row) (mem : Member Row) (hmem : mem ∈ ms) :
    mem.get (ms.foldl Convert.fromVariantStep acc).2
      = match QVariantMap.find acc.1 mem.name with
        | some v => mem.value v
        | none => mem.get acc.2 := by
  induction ms generalizing acc with
  | nil => cases hmem
  | cons a rest ih =>
    rw [List.pairwise_cons] at hnames
    rw [List.foldl_cons]
    rcases List.mem_cons.mp hmem with h | h
    · subst h
      rw [Convert.foldl_fromVariantStep_frame mem.get rest
        (fun b hb r v => hframe b (List.mem_cons_of_mem _ hb) mem (List.mem_cons_self _ _)
          (fun e => hnames.1 b hb e.symm) r v)]
      simp only [Convert.fromVariantStep]
      cases QVariantMap.find acc.1 mem.name with
      | none => rfl
      | some v => exact hset mem (List.mem_cons_self _ _) _ _
    · have hne : a.name ≠ mem.name := hnames.1 mem h
      rw [ih hnames.2 (fun b hb => hset b (List.mem_cons_of_mem _ hb))
        (fun b hb c hc => hframe b (List.mem_cons_of_mem _ hb) c (List.mem_cons_of_mem _ hc))
        _ h]
      simp only [Convert.fromVariantStep]
      cases hf : QVariantMap.find acc.1 a.name with
      | none => rfl
      | some v =>
        simp only []
        rw [QVariantMap.find_remove_ne _ _ _ hne.symm,
          hframe a (List.mem_cons_self _ _) mem (List.mem_cons_of_mem _ h) hne]

end ConvertFacts

section ConvertClaims

variable {Row Id : Type} (S : RowSchema Row Id)

/-- C20. Unknown versus missing fields: for a schema whose members have distinct names and write
their own field only, `Convert::fromVariantMap(m, d, &unused)` returns a row in which every
schema field whose name is a key of `m` has the value that `m` gives it (converted to the type of
the field) and every schema field missing from `m` has the value it has in `d`, and it sets
`unused` to the keys of `m` that are not schema field names, in the order of the map. -/
theorem C20_fromVariantMap_fields (m : QVariantMap) (d : Row)
    (hnames : S.members.Pairwise (fun a b => a.name ≠ b.name))
    (hset : ∀ mem ∈ S.members, ∀ r v, mem.get (mem.set r v) = v)
    (hframe : ∀ a ∈ S.members, ∀ b ∈ S.members, a.name ≠ b.name →
      ∀ r v, b.get (a.set r v) = b.get r) :
    (∀ mem ∈ S.members, ∀ v, QVariantMap.find m mem.name = some v →
        mem.get (Convert.fromVariantMap S m d).1 = mem.value v)
      ∧ (∀ mem ∈ S.members, QVariantMap.find m mem.name = none →
        mem.get (Convert.fromVariantMap S m d).1 = mem.get d)
      ∧ (Convert.fromVariantMap S m d).2
        = (QVariantMap.keys m).filter (fun k => decide (k ∉ S.members.map (fun mem => mem.name))) := by
  refine ⟨?_, ?_, ?_⟩
  · intro mem hmem v hv
    simp only [Convert.fromVariantMap]
    rw [Convert.foldl_fromVariantStep_get S.members hnames hset hframe _ mem hmem]
    simp only [hv]
  · intro mem hmem hv
    simp only [Convert.fromVariantMap]
    rw [Convert.foldl_fromVariantStep_get S.members hnames hset hframe _ mem hmem]
    simp only [hv]
  · simp only [Convert.fromVariantMap]
    exact Convert.foldl_fromVariantStep_keys S.members _

end ConvertClaims

section RoundTrip

open Examples

/-- The members of the polling groups schema have distinct names and write their own field. -/
theorem PollingGroup.schema_lawful (baseDraftId : Nat) :
    (PollingGroup.schema baseDraftId).members.Pairwise (fun a b => a.name ≠ b.name)
      ∧ (∀ mem ∈ (PollingGroup.schema baseDraftId).members, ∀ r v, mem.get (mem.set r v) = v)
      ∧ (∀ a ∈ (PollingGroup.schema baseDraftId).members,
          ∀ b ∈ (PollingGroup.schema baseDraftId).members, a.name ≠ b.name →
            ∀ r v, b.get (a.set r v) = b.get r) := by
  refine ⟨?_, ?_, ?_⟩
  · have h : (PollingGroup.schema baseDraftId).members = (PollingGroup.schema 0).members := rfl
    rw [h]
    decide
  · intro mem hmem r v
    simp only [PollingGroup.schema, List.mem_cons, List.mem_singleton, List.not_mem_nil,
      or_false] at hmem
    rcases hmem with h | h | h <;> subst h <;> rfl
  · intro a ha b hb hne r v
    simp only [PollingGroup.schema, List.mem_cons, List.mem_singleton, List.not_mem_nil,
      or_false] at ha hb
    rcases ha with h | h | h <;> subst h <;> rcases hb with h | h | h <;> subst h <;>
      first | rfl | exact absurd rfl hne

/-- C19. Round-trip law: for every row `r` of the two reflected schemas,
`Convert::fromVariantMap(Convert::toVariantMap(r), d)` is `r` for every default row `d` (also the
default argument `Row()`), and it reports no unused keys. A `GroupMember` holds a 32-bit
weight. -/
theorem C19_convert_round_trip (baseDraftId indeterminate : Nat) :
    (∀ r d : PollingGroup,
        Convert.fromVariantMap (PollingGroup.schema baseDraftId)
          (Convert.toVariantMap (PollingGroup.schema baseDraftId) r) d = (r, []))
      ∧ (∀ r d : GroupMember, r.weight < 2 ^ 32 →
        Convert.fromVariantMap (GroupMember.schema indeterminate)
          (Convert.toVariantMap (GroupMember.schema indeterminate) r) d = (r, [])) := by
  refine ⟨?_, ?_⟩
  · intro r d
    rfl
  · intro r d hw
    obtain ⟨account, weight, tags⟩ := r
    have h : Convert.fromVariantMap (GroupMember.schema indeterminate)
        (Convert.toVariantMap (GroupMember.schema indeterminate) ⟨account, weight, tags⟩) d
        = (⟨account, weight % 2 ^ 32, tags⟩, []) := rfl
    rw [h, Nat.mod_eq_of_lt hw]

theorem C19_convert_round_trip_witness :
    (∀ r d : PollingGroup,
        Convert.fromVariantMap (PollingGroup.schema baseDraftId)
          (Convert.toVariantMap (PollingGroup.schema baseDraftId) r) d = (r, []))
      ∧ Convert.fromVariantMap (GroupMember.schema 0)
          (Convert.toVariantMap (GroupMember.schema 0) (member "bob" 2)) (member "" 0)
        = (member "bob" 2, []) :=
  ⟨(C19_convert_round_trip baseDraftId 0).1,
    (C19_convert_round_trip baseDraftId 0).2 (member "bob" 2) (member "" 0) (by decide)⟩

theorem C20_fromVariantMap_fields_witness :
    Convert.fromVariantMap groups
        [(QString.ofString "name", QVariant.string (QString.ofString "X")),
          (QString.ofString "size", QVariant.ulonglong 3)] (group 5 "Z")
      = (group 5 "X", [QString.ofString "size"]) := by
  have h := C20_fromVariantMap_fields groups
    [(QString.ofString "name", QVariant.string (QString.ofString "X")),
      (QString.ofString "size", QVariant.ulonglong 3)] (group 5 "Z")
    (PollingGroup.schema_lawful baseDraftId).1 (PollingGroup.schema_lawful baseDraftId).2.1
    (PollingGroup.schema_lawful baseDraftId).2.2
  exact Prod.ext (by decide) (h.2.2.trans (by decide))

end RoundTrip

section ConnectionFacts

theorem BlockchainInterface.updateSyncStatus_syncStatus (d : BlockchainInterface)
    (status : SyncStatus) : (BlockchainInterface.updateSyncStatus d status).syncStatus = status := by
  simp only [BlockchainInterface.updateSyncStatus]
  split_ifs with h
  · rfl
  · exact (not_not.mp h).symm

/-- The status after the slot of a reply without an error. -/
theorem Connection.replyFinished_status (c : Connection) (now : Int) :
    (Connection.replyFinished c false now).chain.syncStatus
      = if now - c.headBlockTime > 10 then SyncStatus.SynchronizedStale
        else SyncStatus.Synchronized := by
  simp only [Connection.replyFinished, Bool.false_eq_true, if_false,
    BlockchainInterface.updateSyncStatus_syncStatus]
  by_cases h : now - c.headBlockTime > 10
  · simp [h]
  · simp [h]

/-- The status after the slots of a reply with an error. -/
theorem Connection.complete_failed_status (c : Connection) (now : Int) :
    (Connection.complete c ⟨true, now⟩).chain.syncStatus
      = if c.chain.syncStatus = SyncStatus.Synchronized
          ∨ c.chain.syncStatus = SyncStatus.SynchronizedStale then SyncStatus.RecoveringConnection
        else SyncStatus.WaitingForConnection := by
  simp only [Connection.complete, Connection.replyFinished, Connection.replyErrorOccurred, if_true,
    BlockchainInterface.updateSyncStatus_syncStatus]
  cases c.chain.syncStatus <;> decide

end ConnectionFacts

section ClosedClaims

open AbstractTable Examples

/-- C22. View projections follow the cache, broken by `getNew`. The empty polling groups table
has one model, and the `modelIds` of the model are the ids of the cache, both empty. `getNew(5)`,
which the journal entry of an added row asks for, puts the `Loading` placeholder with id 5 into
`rowList` and does not call `updateRows` of the models: the cache has the id 5, the model has no
id. -/
theorem C22_getNew_leaves_models_behind :
    ModelsFollow groups watchedTable
      ∧ watchedTable.models = [[]]
      ∧ (getNew groups watchedTable 5 1).rowList.map groups.getId = [5]
      ∧ (getNew groups watchedTable 5 1).models = [[]]
      ∧ ¬ ModelsFollow groups (getNew groups watchedTable 5 1) := by
  refine ⟨?_, by decide, by decide, by decide, ?_⟩
  · intro ids hids
    have h : watchedTable.models = [[]] := by decide
    rw [h] at hids
    simp only [List.mem_singleton] at hids
    rw [hids]
    decide
  · intro h
    have h1 := h [] (by decide)
    exact absurd h1 (by decide)

/-- C23. Journal Add placeholder, broken for the fields that a default-initialised row leaves
without a value. `getNew` makes the placeholder with `Row row; row.setId(id);`. In the group
members table the member `weight` of `row` is a `uint32_t` that nothing initialises: whatever
value `w` it happens to hold is the weight of the placeholder, and the placeholder carries the
default value of every field but the id only when `w` happens to be 0. -/
theorem C23_placeholder_weight_indeterminate (w : Nat) :
    getRow (GroupMember.schema w)
        (getNew (GroupMember.schema w) (AbstractTable.init scope) (QString.ofString "alice") 0)
        (QString.ofString "alice")
      = some (⟨QString.ofString "alice", w, []⟩, LoadState.Loading)
      ∧ ((⟨QString.ofString "alice", w, []⟩ : GroupMember)
          = (GroupMember.schema w).setId (GroupMember.schema w).valueInit (QString.ofString "alice")
        ↔ w = 0) := by
  refine ⟨rfl, ?_⟩
  constructor
  · intro h
    exact congrArg GroupMember.weight h
  · intro h
    subst h
    rfl

/-- C24, as stated, fails: the polling groups table of scope `1` holds the row 5, the scope `2`
is another scope, and after `updateScope("2")` the scope is `2` and the cache is not empty: it
holds the row 5 of the old scope in state `Loaded`. -/
theorem C24_updateScope_keeps_rows :
    loadedTable.scope = QString.ofString "1"
      ∧ QString.ofString "2" ≠ loadedTable.scope
      ∧ (updateScope groups loadedTable (QString.ofString "2")).scope = QString.ofString "2"
      ∧ (updateScope groups loadedTable (QString.ofString "2")).rowList = [group 5 "Z"]
      ∧ (updateScope groups loadedTable (QString.ofString "2")).rowStates = [LoadState.Loaded]
      ∧ (updateScope groups loadedTable (QString.ofString "2")).rowList ≠ [] := by
  refine ⟨?_, ?_, ?_, ?_, ?_, ?_⟩
  · decide
  · decide
  · decide
  · decide
  · decide
  · decide

/-- C25. Configurable staleness threshold, broken by the constant in `connectNetworkReply`.
After `setSyncStaleSeconds(30)` a call succeeds at second 20 with the head block time of second 0:
the head block is 20 seconds old, within the threshold of 30, and the status becomes
`SynchronizedStale`. The slot compares with the constant 10 and never reads `syncStaleSeconds`: for
every threshold the status after a call that succeeds is `SynchronizedStale` if `now - h > 10` and
`Synchronized` otherwise. -/
theorem C25_threshold_is_constant :
    (Connection.setSyncStaleSeconds connected 30).syncStaleSeconds = 30
      ∧ (Connection.replyFinished (Connection.setSyncStaleSeconds connected 30) false 20).chain.syncStatus
        = SyncStatus.SynchronizedStale
      ∧ ∀ (c : Connection) (s : Nat) (now : Int),
          (Connection.replyFinished (Connection.setSyncStaleSeconds c s) false now).chain.syncStatus
            = if now - c.headBlockTime > 10 then SyncStatus.SynchronizedStale
              else SyncStatus.Synchronized := by
  refine ⟨by decide, by decide, ?_⟩
  intro c s now
  have h : (Connection.setSyncStaleSeconds c s).chain = c.chain
      ∧ (Connection.setSyncStaleSeconds c s).headBlockTime = c.headBlockTime := by
    simp only [Connection.setSyncStaleSeconds]
    split_ifs <;> exact ⟨rfl, rfl⟩
  rw [Connection.replyFinished_status, h.2]

/-- C26. Error transitions of the sync status, broken for the second error in a row. After
`connectNow()` a call succeeds, and the status is `Synchronized`; the next call has an error, and
the status is `RecoveringConnection`; the call after that has an error too, and the status becomes
`WaitingForConnection`, although a call has succeeded earlier in the sequence: the slot looks at
the status of the moment, which is `RecoveringConnection`, not at what went before. -/
theorem C26_second_error_forgets_connection :
    connected.chain.syncStatus = SyncStatus.WaitingForConnection
      ∧ (Connection.completeAll connected [⟨false, 1⟩]).chain.syncStatus = SyncStatus.Synchronized
      ∧ (Connection.completeAll connected [⟨false, 1⟩, ⟨true, 2⟩]).chain.syncStatus
        = SyncStatus.RecoveringConnection
      ∧ (Connection.completeAll connected [⟨false, 1⟩, ⟨true, 2⟩, ⟨true, 3⟩]).chain.syncStatus
        = SyncStatus.WaitingForConnection := by
  decide

/-- C29. `draftEditRow` terminates, broken for a key that the record does not have. After
`draftAddRow({account: "alice"})` the group members table holds the row of `alice` in state
`DraftAdd`, and its record has the keys `DRAFT_ID` and `account`. `draftEditRow("alice",
{weight: 5})` reaches the loop that copies the changed values into the record; the record has no
key `weight`, the loop never takes the key off its list, and the call does not return, with however
many turns. -/
theorem C29_draftEditRow_does_not_terminate (fuel : Nat) :
    getRow members aliceOnlyTable (QString.ofString "alice")
        = some (member "alice" 0, LoadState.DraftAdd)
      ∧ aliceOnlyTable.locallyAddedRows
        = [[(Strings.DraftId, QVariant.string (QString.ofString "alice")),
            (QString.ofString "account", QVariant.string (QString.ofString "alice"))]]
      ∧ draftEditRow members fuel aliceOnlyTable (QVariant.string (QString.ofString "alice"))
          (setWeight 5) = none := by
  refine ⟨by decide, by decide, ?_⟩
  exact draftEditRow_never_returns members aliceOnlyTable
    (QVariant.string (QString.ofString "alice")) (setWeight 5) (member "alice" 0) 0
    (by decide) (by decide) (by decide) (by decide) (by decide) (by decide)
    ⟨QString.ofString "weight", by decide, by decide⟩ fuel

/-- C30. Name encoding stays in bounds, broken for a string of twelve characters. On
`"aaaaaaaaaaaa"` the loop reads the positions 0 to 11 and ends with `i == 12`, and the statement
after the loop then reads `str[12]`, the position at the length of the string. -/
theorem C30_reads_position_at_length :
    twelve.units.length = 12
      ∧ (eosio.string_to_uint64_t_trace twelve).2 = [0, 1, 2, 3, 4, 5, 6, 7, 8, 9, 10, 11, 12]
      ∧ ¬ ∀ i ∈ (eosio.string_to_uint64_t_trace twelve).2, i < twelve.units.length := by
  decide

end ClosedClaims

section ScopeClaim

open AbstractTable

variable {Row Id : Type} [LinearOrder Id] (S : RowSchema Row Id)

/-- C24 (amended). Scope change reloads the cache without clearing it: for every table state and
every new scope different from the current one, `updateScope(newScope)` sets the scope to
`newScope`, emits `scopeChanged(newScope)` and then requests the rows of the table in the new
scope from the start (`fullRefresh()`), and it leaves `rowList`, `rowStates`, the backup ledger,
`locallyAddedRows`, the pending flag, the rows being loaded and the models as they are. -/
theorem C24_updateScope_reloads (t : AbstractTable Row Id) (newScope : QString)
    (h : newScope ≠ t.scope) :
    (updateScope S t newScope).scope = newScope
      ∧ (updateScope S t newScope).emitted
        = t.emitted ++ [Emitted.scopeChanged newScope,
            Emitted.getTableRows S.tableName newScope none none]
      ∧ (updateScope S t newScope).rowList = t.rowList
      ∧ (updateScope S t newScope).rowStates = t.rowStates
      ∧ (updateScope S t newScope).backups = t.backups
      ∧ (updateScope S t newScope).locallyAddedRows = t.locallyAddedRows
      ∧ (updateScope S t newScope).pendingEdits = t.pendingEdits
      ∧ (updateScope S t newScope).loadingRows = t.loadingRows
      ∧ (updateScope S t newScope).models = t.models := by
  have hstep : updateScope S t newScope
      = fullRefresh S (emit { t with scope := newScope } (.scopeChanged newScope)) := by
    simp only [updateScope, if_pos h]
  rw [hstep]
  refine ⟨rfl, ?_, rfl, rfl, rfl, rfl, rfl, rfl, rfl⟩
  simp [fullRefresh, emit]

end ScopeClaim

section ScopeWitness

open AbstractTable Examples

/-- Instance of C24 (amended) on the polling groups table of scope `1` that holds the row 5, with
the new scope `2`. -/
theorem C24_updateScope_reloads_witness :
    QString.ofString "2" ≠ loadedTable.scope
      ∧ (updateScope groups loadedTable (QString.ofString "2")).scope = QString.ofString "2"
      ∧ (updateScope groups loadedTable (QString.ofString "2")).emitted
        = loadedTable.emitted ++ [Emitted.scopeChanged (QString.ofString "2"),
            Emitted.getTableRows groups.tableName (QString.ofString "2") none none]
      ∧ (updateScope groups loadedTable (QString.ofString "2")).rowList = loadedTable.rowList
      ∧ (updateScope groups loadedTable (QString.ofString "2")).rowStates
        = loadedTable.rowStates :=
  have h := C24_updateScope_reloads groups loadedTable (QString.ofString "2") (by decide)
  ⟨by decide, h.1, h.2.1, h.2.2.1, h.2.2.2.1⟩

end ScopeWitness

section StaleFacts

open AbstractTable

variable {Row Id : Type} [LinearOrder Id] (S : RowSchema Row Id)

/-- A call of `refreshRow` leaves the cache, the ledger and the records as they are. -/
theorem AbstractTable.refreshRow_fields (t : AbstractTable Row Id) (k : Id) (now : Int) :
    (refreshRow S t k now).rowList = t.rowList
      ∧ (refreshRow S t k now).rowStates = t.rowStates
      ∧ (refreshRow S t k now).backups = t.backups
      ∧ (refreshRow S t k now).locallyAddedRows = t.locallyAddedRows
      ∧ (refreshRow S t k now).models = t.models
      ∧ (refreshRow S t k now).pendingEdits = t.pendingEdits := by
  simp only [refreshRow, rowIsLoading, emit]
  cases loadingFind t.loadingRows k with
  | none => simp
  | some since =>
    by_cases h : now - since < 7
    · simp [h]
    · simp [h]

theorem AbstractTable.foldl_refreshRow_fields {μ : Type} (ms : List μ)
    (t : AbstractTable Row Id) (k : Id) (now : Int) :
    (ms.foldl (fun acc _ => refreshRow S acc k now) t).rowList = t.rowList
      ∧ (ms.foldl (fun acc _ => refreshRow S acc k now) t).rowStates = t.rowStates
      ∧ (ms.foldl (fun acc _ => refreshRow S acc k now) t).backups = t.backups
      ∧ (ms.foldl (fun acc _ => refreshRow S acc k now) t).locallyAddedRows = t.locallyAddedRows
      ∧ (ms.foldl (fun acc _ => refreshRow S acc k now) t).models = t.models
      ∧ (ms.foldl (fun acc _ => refreshRow S acc k now) t).pendingEdits = t.pendingEdits := by
  induction ms generalizing t with
  | nil => exact ⟨rfl, rfl, rfl, rfl, rfl, rfl⟩
  | cons m rest ih =>
    rw [List.foldl_cons]
    obtain ⟨a1, a2, a3, a4, a5, a6⟩ := ih (refreshRow S t k now)
    obtain ⟨b1, b2, b3, b4, b5, b6⟩ := refreshRow_fields S t k now
    exact ⟨a1.trans b1, a2.trans b2, a3.trans b3, a4.trans b4, a5.trans b5, a6.trans b6⟩

/-- The notification `markRowStale` of the models leaves the cache, the ledger and the records as
they are. -/
theorem AbstractTable.notifyMarkRowStale_fields (t : AbstractTable Row Id) (k : Id) (now : Int) :
    (notifyMarkRowStale S t k now).rowList = t.rowList
      ∧ (notifyMarkRowStale S t k now).rowStates = t.rowStates
      ∧ (notifyMarkRowStale S t k now).backups = t.backups
      ∧ (notifyMarkRowStale S t k now).locallyAddedRows = t.locallyAddedRows
      ∧ (notifyMarkRowStale S t k now).models = t.models
      ∧ (notifyMarkRowStale S t k now).pendingEdits = t.pendingEdits :=
  foldl_refreshRow_fields S t.models t k now

end StaleFacts

section StaleClaim

open AbstractTable

variable {Row Id : Type} [LinearOrder Id] (S : RowSchema Row Id)

/-- C27. A journal Modify does not disturb a submitted edit: on a table (cache ordered by id, one
state a row) `markStale(k)` for a row in state `PendingEdit` or `PendingDelete` does what
`refreshRow(k)` does and no more, so the value of the row, its state, the rest of the cache, the
backup ledger and `locallyAddedRows` are unchanged; for a row in state `Loaded` the state becomes
`Stale` and the value, the other rows, the ledger and `locallyAddedRows` are unchanged. -/
theorem C27_markStale_frame (t : AbstractTable Row Id) (k : Id) (now : Int) (row : Row)
    (st : LoadState) (hwf : t.WellFormed S) (hrow : getRow S t k = some (row, st)) :
    (st = LoadState.PendingEdit ∨ st = LoadState.PendingDelete →
        markStale S t k now = refreshRow S t k now
          ∧ getRow S (markStale S t k now) k = some (row, st)
          ∧ (markStale S t k now).rowList = t.rowList
          ∧ (markStale S t k now).rowStates = t.rowStates
          ∧ (markStale S t k now).backups = t.backups
          ∧ (markStale S t k now).locallyAddedRows = t.locallyAddedRows)
      ∧ (st = LoadState.Loaded →
        getRow S (markStale S t k now) k = some (row, LoadState.Stale)
          ∧ (∀ k1, k1 ≠ k → getRow S (markStale S t k now) k1 = getRow S t k1)
          ∧ (markStale S t k now).rowList = t.rowList
          ∧ (markStale S t k now).backups = t.backups
          ∧ (markStale S t k now).locallyAddedRows = t.locallyAddedRows) := by
  have hl := hrow
  rw [getRow_eq_lookup S t k hwf] at hl
  obtain ⟨hr, hi, hs⟩ := lookup_some_at S t k hwf row st hl
  refine ⟨?_, ?_⟩
  · intro hst
    have hm : markStale S t k now = refreshRow S t k now := by
      simp only [markStale, hr, hi, if_true, hs, hst]
    obtain ⟨b1, b2, b3, b4, _, _⟩ := refreshRow_fields S t k now
    rw [hm]
    refine ⟨rfl, ?_, b1, b2, b3, b4⟩
    rw [getRow_congr S t (refreshRow S t k now) k b1 b2]
    exact hrow
  · intro hst
    subst hst
    have hm : markStale S t k now = notifyMarkRowStale S
        { t with rowStates := (t.rowStates.set (lowerBound S.getId t.rowList k) LoadState.Stale) }
        k now := by
      simp only [markStale, hr, hi, if_true, hs]
      simp
    obtain ⟨b1, b2, b3, b4, _, _⟩ := notifyMarkRowStale_fields S
      { t with rowStates := (t.rowStates.set (lowerBound S.getId t.rowList k) LoadState.Stale) }
      k now
    have hw1 : (markStale S t k now).WellFormed S := by
      rw [hm]
      exact ⟨by rw [b1]; exact hwf.sorted, by rw [b1, b2]; simp [hwf.parallel],
        by rw [b3]; exact hwf.backups⟩
    have hget : ∀ k1, getRow S (markStale S t k now) k1
        = if k1 = k then some (row, LoadState.Stale) else getRow S t k1 := by
      intro k1
      rw [getRow_eq_lookup S _ k1 hw1, getRow_eq_lookup S t k1 hwf, hm, b1, b2]
      exact lookup_setState_lowerBound S.getId t.rowList t.rowStates k k1 row LoadState.Stale
        hwf.parallel hr hi
    rw [hm]
    refine ⟨?_, ?_, b1, b3, b4⟩
    · rw [← hm, hget k, if_pos rfl]
    · intro k1 hk1
      rw [← hm, hget k1, if_neg hk1]

end StaleClaim

section StaleWitness

open AbstractTable Examples

theorem C27_markStale_frame_witness :
    markStale groups (editedTable LoadState.PendingEdit true) 5 3
        = refreshRow groups (editedTable LoadState.PendingEdit true) 5 3
      ∧ getRow groups (markStale groups (editedTable LoadState.PendingEdit true) 5 3) 5
        = some (group 5 "A", LoadState.PendingEdit)
      ∧ (markStale groups (editedTable LoadState.PendingEdit true) 5 3).backups
        = (editedTable LoadState.PendingEdit true).backups :=
  have h := (C27_markStale_frame groups (editedTable LoadState.PendingEdit true) 5 3
    (group 5 "A") LoadState.PendingEdit ⟨by decide, by decide, ⟨by decide, by decide⟩⟩
    (by decide)).1 (Or.inl rfl)
  ⟨h.1, h.2.1, h.2.2.2.2.1⟩

end StaleWitness

section ParallelFacts

open AbstractTable

variable {Row Id : Type} [LinearOrder Id] (S : RowSchema Row Id)

theorem length_insertIdx_parallel {α β : Type} (l1 : List α) (l2 : List β) (n : Nat) (a : α) (b : β)
    (h : l1.length = l2.length) : (l1.insertIdx n a).length = (l2.insertIdx n b).length := by
  induction n generalizing l1 l2 with
  | zero => simp [h]
  | succ n ih =>
    cases l1 with
    | nil =>
      cases l2 with
      | nil => rfl
      | cons y l2 => simp at h
    | cons x l1 =>
      cases l2 with
      | nil => simp at h
      | cons y l2 =>
        rw [List.insertIdx_succ_cons, List.insertIdx_succ_cons, List.length_cons, List.length_cons,
          ih l1 l2 (by simpa using h)]

theorem length_eraseIdx_parallel {α β : Type} (l1 : List α) (l2 : List β) (n : Nat)
    (h : l1.length = l2.length) : (l1.eraseIdx n).length = (l2.eraseIdx n).length := by
  rw [List.length_eraseIdx, List.length_eraseIdx, h]

theorem AbstractTable.deleteRow_parallel (t : AbstractTable Row Id) (k : Id)
    (h : t.rowStates.length = t.rowList.length) :
    (deleteRow S t k).rowStates.length = (deleteRow S t k).rowList.length := by
  simp only [deleteRow, notifyDeleteRow]
  cases hr : t.rowList[lowerBound S.getId t.rowList k]? with
  | none => exact h
  | some row =>
    simp only []
    have he := length_eraseIdx_parallel t.rowStates t.rowList (lowerBound S.getId t.rowList k) h
    split_ifs <;> first | exact h | simpa using he

theorem AbstractTable.checkPendingInsertion_parallel (t : AbstractTable Row Id) (newRow : Row)
    (h : t.rowStates.length = t.rowList.length) :
    (checkPendingInsertion S t newRow).rowStates.length
      = (checkPendingInsertion S t newRow).rowList.length := by
  simp only [checkPendingInsertion]
  split_ifs with h1 h2
  · exact h
  · exact h
  · cases hf : findFirst (matchesRow S newRow) t.locallyAddedRows with
    | none => exact h
    | some j =>
      simp only [deleteBackupRow_rowList, deleteBackupRow_rowStates, emit]
      split_ifs
      · exact deleteRow_parallel S _ _ h
      · exact h

theorem AbstractTable.placeRow_parallel (t : AbstractTable Row Id) (pos : Nat) (newRow : Row)
    (h : t.rowStates.length = t.rowList.length) :
    (placeRow S t pos newRow).rowStates.length = (placeRow S t pos newRow).rowList.length := by
  have hins : (checkPendingInsertion S
      { t with rowList := t.rowList.insertIdx pos newRow,
               rowStates := t.rowStates.insertIdx pos LoadState.Loaded } newRow).rowStates.length
      = (checkPendingInsertion S
      { t with rowList := t.rowList.insertIdx pos newRow,
               rowStates := t.rowStates.insertIdx pos LoadState.Loaded } newRow).rowList.length :=
    checkPendingInsertion_parallel S _ _ (length_insertIdx_parallel _ _ _ _ _ h)
  simp only [placeRow]
  cases hr : t.rowList[pos]? with
  | none => exact hins
  | some oldRow =>
    simp only []
    split_ifs
    · exact checkPendingInsertion_parallel S _ _ (by simp [h])
    · rw [checkOverwrittenEdit_rowList, checkOverwrittenEdit_rowStates]
      simp [h]
    · exact hins

theorem AbstractTable.updateLoop_parallel (rows : List Row) (pos : Nat) (t : AbstractTable Row Id)
    (h : t.rowStates.length = t.rowList.length) :
    (updateLoop S rows pos t).rowStates.length = (updateLoop S rows pos t).rowList.length := by
  induction rows generalizing pos t with
  | nil => exact h
  | cons r rest ih =>
    cases rest with
    | nil => exact placeRow_parallel S t pos r h
    | cons next rest1 =>
      simp only [updateLoop]
      exact ih _ _ (placeRow_parallel S t pos r h)

theorem AbstractTable.processRowsResponse_parallel (t : AbstractTable Row Id)
    (reply : RowsReply Row) (loadCount : Nat) (h : t.rowStates.length = t.rowList.length) :
    (processRowsResponse S t reply loadCount).rowStates.length
      = (processRowsResponse S t reply loadCount).rowList.length := by
  cases reply with
  | networkError => exact h
  | notSensible => exact h
  | rows newRows nextKey =>
    obtain ⟨q1, q2, _⟩ := requestMore_fields S t newRows.length nextKey loadCount
    have h0 : (requestMore S t newRows.length nextKey loadCount).rowStates.length
        = (requestMore S t newRows.length nextKey loadCount).rowList.length := by
      rw [q1, q2]; exact h
    cases newRows with
    | nil => exact h0
    | cons first rest =>
      simp only [processRowsResponse, notifyUpdateRows]
      split_ifs
      · simp only [List.length_append, List.length_replicate, h0]
      · exact updateLoop_parallel S _ _ _ h0

end ParallelFacts

section ParallelOps

open AbstractTable

variable {Row Id : Type} [LinearOrder Id] (S : RowSchema Row Id)

theorem AbstractTable.markStale_parallel (t : AbstractTable Row Id) (k : Id) (now : Int)
    (h : t.rowStates.length = t.rowList.length) :
    (markStale S t k now).rowStates.length = (markStale S t k now).rowList.length := by
  have hn : ∀ t1 : AbstractTable Row Id, t1.rowStates.length = t1.rowList.length →
      (notifyMarkRowStale S t1 k now).rowStates.length
        = (notifyMarkRowStale S t1 k now).rowList.length := by
    intro t1 h1
    obtain ⟨b1, b2, _⟩ := notifyMarkRowStale_fields S t1 k now
    rw [b1, b2]; exact h1
  simp only [markStale]
  cases hr : t.rowList[lowerBound S.getId t.rowList k]? with
  | none => exact hn t h
  | some row =>
    simp only []
    split_ifs with h1 h2 h3
    · obtain ⟨b1, b2, _⟩ := refreshRow_fields S t k now
      rw [b1, b2]; exact h
    · apply hn
      cases hb : (deleteBackupRow S (emit t (Emitted.draftEditInvalidated (S.idFromValue k))) k).1 with
      | none => simp [emit, h]
      | some bak => simp [emit, h]
    · apply hn
      simp [h]
    · exact hn t h

theorem AbstractTable.getNew_parallel (t : AbstractTable Row Id) (k : Id) (now : Int)
    (h : t.rowStates.length = t.rowList.length) :
    (getNew S t k now).rowStates.length = (getNew S t k now).rowList.length := by
  obtain ⟨b1, b2, _⟩ := refreshRow_fields S t k now
  have h1 : (refreshRow S t k now).rowStates.length = (refreshRow S t k now).rowList.length := by
    rw [b1, b2]; exact h
  simp only [getNew]
  split_ifs
  · exact h1
  · exact length_insertIdx_parallel _ _ _ _ _ h1

theorem AbstractTable.draftAddRow_parallel (t : AbstractTable Row Id) (f : QVariantMap)
    (h : t.rowStates.length = t.rowList.length) :
    (draftAddRow S t f).rowStates.length = (draftAddRow S t f).rowList.length := by
  simp only [draftAddRow]
  split_ifs
  · exact h
  · cases draftAddId S t (Convert.fromVariantMap S f S.valueInit).1 with
    | none => exact h
    | some d => exact length_insertIdx_parallel _ _ _ _ _ h

theorem AbstractTable.draftEditRow_lengths (t t1 : AbstractTable Row Id) (fuel : Nat)
    (rowId : QVariant) (changeMap : QVariantMap)
    (hres : draftEditRow S fuel t rowId changeMap = some t1) :
    t1.rowList.length = t.rowList.length ∧ t1.rowStates.length = t.rowStates.length := by
  by_cases hp : t.pendingEdits = true
  · rw [draftEditRow, if_pos hp] at hres
    cases hres
    exact ⟨rfl, rfl⟩
  · rw [draftEditRow, if_neg hp] at hres
    simp only [] at hres
    cases hr : t.rowList[lowerBound S.getId t.rowList (S.idValue rowId)]? with
    | none =>
      rw [hr] at hres
      cases hres
      exact ⟨rfl, rfl⟩
    | some oldRow =>
      rw [hr] at hres
      simp only [] at hres
      by_cases h1 : S.getId oldRow ≠ S.idValue rowId
      · rw [if_pos h1] at hres
        cases hres
        exact ⟨rfl, rfl⟩
      · rw [if_neg h1] at hres
        by_cases h2 : t.rowStates.getD (lowerBound S.getId t.rowList (S.idValue rowId))
            LoadState.Loaded = LoadState.DraftDelete
        · rw [if_pos h2] at hres
          cases hres
          exact ⟨rfl, rfl⟩
        · rw [if_neg h2] at hres
          by_cases h3 : S.getId (Convert.fromVariantMap S changeMap oldRow).1 ≠ S.getId oldRow
          · rw [if_pos h3] at hres
            cases hres
            simp
          · rw [if_neg h3] at hres
            obtain ⟨a, ha, rfl⟩ := Option.map_eq_some'.mp hres
            have hlen : a.rowList.length = t.rowList.length
                ∧ a.rowStates.length = t.rowStates.length := by
              by_cases h4 : t.rowStates.getD (lowerBound S.getId t.rowList (S.idValue rowId))
                    LoadState.Loaded ≠ LoadState.DraftAdd
                  ∧ t.rowStates.getD (lowerBound S.getId t.rowList (S.idValue rowId))
                    LoadState.Loaded ≠ LoadState.DraftEdit
              · rw [if_pos h4] at ha
                cases ha
                simp
              · rw [if_neg h4] at ha
                by_cases h5 : t.rowStates.getD (lowerBound S.getId t.rowList (S.idValue rowId))
                    LoadState.Loaded = LoadState.DraftAdd
                · rw [if_pos h5] at ha
                  cases hf : findFirst
                      (fun row => QVariant.cmp (QVariantMap.value row Strings.DraftId) rowId)
                      t.locallyAddedRows with
                  | none =>
                    rw [hf] at ha
                    cases ha
                    simp
                  | some j =>
                    rw [hf] at ha
                    obtain ⟨r, _, rfl⟩ := Option.map_eq_some'.mp ha
                    simp
                · rw [if_neg h5] at ha
                  cases ha
                  simp
            simpa [notifyUpdateRows] using hlen
theorem AbstractTable.draftEditRow_parallel (t t1 : AbstractTable Row Id) (fuel : Nat)
    (rowId : QVariant) (changeMap : QVariantMap)
    (h : t.rowStates.length = t.rowList.length)
    (hres : draftEditRow S fuel t rowId changeMap = some t1) :
    t1.rowStates.length = t1.rowList.length := by
  obtain ⟨h1, h2⟩ := draftEditRow_lengths S t t1 fuel rowId changeMap hres
  rw [h1, h2]; exact h

theorem AbstractTable.draftDeleteRow_parallel (t : AbstractTable Row Id) (rowId : QVariant)
    (h : t.rowStates.length = t.rowList.length) :
    (draftDeleteRow S t rowId).rowStates.length = (draftDeleteRow S t rowId).rowList.length := by
  cases hr : t.rowList[lowerBound S.getId t.rowList (S.idValue rowId)]? with
  | none =>
    simp only [draftDeleteRow, hr]
    split_ifs <;> exact h
  | some row =>
    simp only [draftDeleteRow, hr]
    split_ifs
    · exact h
    · exact h
    · rw [deleteBackupRow_rowList, deleteBackupRow_rowStates]
      exact deleteRow_parallel S _ _ h
    · simp [notifyUpdateRows, h]

theorem AbstractTable.markPendingStep_parallel (acc : AbstractTable Row Id × List Row) (bak : Row)
    (h : acc.1.rowStates.length = acc.1.rowList.length) :
    (markPendingStep S acc bak).1.rowStates.length = (markPendingStep S acc bak).1.rowList.length := by
  simp only [markPendingStep]
  cases hr : acc.1.rowList[lowerBound S.getId acc.1.rowList (S.getId bak)]? with
  | none => exact h
  | some row =>
    simp only []
    split_ifs
    · simp [h]
    · exact h

theorem AbstractTable.markEditsPending_parallel (t : AbstractTable Row Id)
    (h : t.rowStates.length = t.rowList.length) :
    (markEditsPending S t).rowStates.length = (markEditsPending S t).rowList.length := by
  have hfold : ∀ (bs : List Row) (acc : AbstractTable Row Id × List Row),
      acc.1.rowStates.length = acc.1.rowList.length →
      (bs.foldl (markPendingStep S) acc).1.rowStates.length
        = (bs.foldl (markPendingStep S) acc).1.rowList.length := by
    intro bs
    induction bs with
    | nil => intro acc ha; exact ha
    | cons b rest ih =>
      intro acc ha
      rw [List.foldl_cons]
      exact ih _ (markPendingStep_parallel S acc b ha)
  have h1 := hfold t.backups.rows (t, []) h
  simp only [markEditsPending, notifyUpdateRows]
  split_ifs
  · exact h1
  · exact h1

theorem AbstractTable.resetEditsLoop_parallel (fuel i : Nat) (t : AbstractTable Row Id)
    (h : t.rowStates.length = t.rowList.length) :
    (resetEditsLoop S fuel i t).rowStates.length = (resetEditsLoop S fuel i t).rowList.length := by
  induction fuel generalizing i t with
  | zero => exact h
  | succ fuel ih =>
    simp only [resetEditsLoop]
    cases hb : t.backups.rows[i]? with
    | none => exact h
    | some bak =>
      simp only []
      split_ifs
      · exact ih _ _ (deleteRow_parallel S _ _ h)
      · exact ih _ _ (by simp [h])
      · exact ih _ _ (by simp [h])
      · exact ih _ _ h

theorem AbstractTable.resetEdits_parallel (t : AbstractTable Row Id)
    (h : t.rowStates.length = t.rowList.length) :
    (resetEdits S t).rowStates.length = (resetEdits S t).rowList.length := by
  simp only [resetEdits, notifyUpdateRows]
  exact resetEditsLoop_parallel S _ _ t h

end ParallelOps

section ParallelClaim

open AbstractTable

variable {Row Id : Type} [LinearOrder Id] (S : RowSchema Row Id)

/-- C21. Single-state invariant: when `rowStates` has the length of `rowList`, it has the length
of `rowList` after `processRowsResponse` (for every reply), `deleteRow`, `markStale`, `getNew`,
`draftAddRow`, `draftEditRow` (whenever it returns), `draftDeleteRow`, `markEditsPending` and
`resetEdits`: every cached row has one state, the one at its own index. -/
theorem C21_one_state_per_row (t : AbstractTable Row Id)
    (h : t.rowStates.length = t.rowList.length) :
    (∀ reply loadCount, (processRowsResponse S t reply loadCount).rowStates.length
        = (processRowsResponse S t reply loadCount).rowList.length)
      ∧ (∀ k, (deleteRow S t k).rowStates.length = (deleteRow S t k).rowList.length)
      ∧ (∀ k now, (markStale S t k now).rowStates.length = (markStale S t k now).rowList.length)
      ∧ (∀ k now, (getNew S t k now).rowStates.length = (getNew S t k now).rowList.length)
      ∧ (∀ f, (draftAddRow S t f).rowStates.length = (draftAddRow S t f).rowList.length)
      ∧ (∀ fuel rowId changeMap t1, draftEditRow S fuel t rowId changeMap = some t1 →
          t1.rowStates.length = t1.rowList.length)
      ∧ (∀ rowId, (draftDeleteRow S t rowId).rowStates.length
          = (draftDeleteRow S t rowId).rowList.length)
      ∧ (markEditsPending S t).rowStates.length = (markEditsPending S t).rowList.length
      ∧ (resetEdits S t).rowStates.length = (resetEdits S t).rowList.length :=
  ⟨fun reply loadCount => processRowsResponse_parallel S t reply loadCount h,
    fun k => deleteRow_parallel S t k h,
    fun k now => markStale_parallel S t k now h,
    fun k now => getNew_parallel S t k now h,
    fun f => draftAddRow_parallel S t f h,
    fun fuel rowId changeMap t1 hres => draftEditRow_parallel S t t1 fuel rowId changeMap h hres,
    fun rowId => draftDeleteRow_parallel S t rowId h,
    markEditsPending_parallel S t h,
    resetEdits_parallel S t h⟩

end ParallelClaim

section ParallelWitness

open AbstractTable Examples

/-- Instance of C21 on the polling groups table that holds the row 5: the hypothesis holds, and
the invariant holds after a reply with two rows, after `deleteRow(5)`, after
`draftEditRow(5, {name: "X"})`, which returns, and after `resetEdits()`. -/
theorem C21_one_state_per_row_witness :
    loadedTable.rowStates.length = loadedTable.rowList.length
      ∧ (processRowsResponse groups loadedTable (RowsReply.rows [group 3 "B", group 5 "C"] none)
          0).rowStates.length
        = (processRowsResponse groups loadedTable (RowsReply.rows [group 3 "B", group 5 "C"] none)
          0).rowList.length
      ∧ (deleteRow groups loadedTable 5).rowStates.length
        = (deleteRow groups loadedTable 5).rowList.length
      ∧ (∃ t1, draftEditRow groups 0 loadedTable (QVariant.ulonglong 5) nameX = some t1
          ∧ t1.rowStates.length = t1.rowList.length)
      ∧ (resetEdits groups loadedTable).rowStates.length
        = (resetEdits groups loadedTable).rowList.length :=
  have h := C21_one_state_per_row groups loadedTable (by decide)
  have hsome : (draftEditRow groups 0 loadedTable (QVariant.ulonglong 5) nameX).isSome = true := by
    decide
  ⟨by decide, h.1 _ _, h.2.1 5,
    ⟨(draftEditRow groups 0 loadedTable (QVariant.ulonglong 5) nameX).get hsome,
      (Option.some_get hsome).symm, h.2.2.2.2.2.1 0 _ _ _ (Option.some_get hsome).symm⟩,
    h.2.2.2.2.2.2.2.2⟩

end ParallelWitness

section NameFacts

open eosio

theorem eosio.symbolAt_of_length_le (s : QString) (i : Nat) (h : s.units.length ≤ i) :
    symbolAt s i = 0 := by
  have hd : s.units.getD i 0 = 0 := List.getD_eq_default _ _ h
  simp only [symbolAt, latin1At, hd]
  decide

theorem eosio.upperBits_eq_mul (f : Nat → Nat) (i : Nat) (hi : i ≤ 12) :
    ∃ a, upperBits f i = 2 ^ (64 - 5 * i) * a := by
  induction i with
  | zero => exact ⟨0, rfl⟩
  | succ i ih =>
    obtain ⟨a, ha⟩ := ih (by omega)
    refine ⟨32 * a + f i % 32, ?_⟩
    have h1 : 64 - 5 * i = (59 - 5 * i) + 5 := by omega
    have h2 : 64 - 5 * (i + 1) = 59 - 5 * i := by omega
    rw [upperBits, ha, h1, h2, pow_add]
    ring

theorem eosio.upperBits_step (f : Nat → Nat) (i : Nat) (hi : i < 12) :
    upperBits f i ||| ((f i &&& 0x1f) <<< (64 - 5 * (i + 1))) % 2 ^ 64 = upperBits f (i + 1) := by
  obtain ⟨a, ha⟩ := upperBits_eq_mul f i (by omega)
  have hand : f i &&& 0x1f = f i % 32 := by
    have := Nat.and_pow_two_sub_one_eq_mod (f i) 5
    simpa using this
  have h1 : 64 - 5 * i = (59 - 5 * i) + 5 := by omega
  have h2 : 64 - 5 * (i + 1) = 59 - 5 * i := by omega
  have hx : f i % 32 * 2 ^ (59 - 5 * i) < 2 ^ (64 - 5 * i) := by
    rw [h1, pow_add]
    have hm : f i % 32 < 32 := Nat.mod_lt _ (by decide)
    have hp : 0 < 2 ^ (59 - 5 * i) := Nat.pow_pos (by decide)
    calc f i % 32 * 2 ^ (59 - 5 * i) < 32 * 2 ^ (59 - 5 * i) := Nat.mul_lt_mul_of_pos_right hm hp
      _ = 2 ^ (59 - 5 * i) * 2 ^ 5 := by ring
  have hlt : f i % 32 * 2 ^ (59 - 5 * i) < 2 ^ 64 :=
    lt_of_lt_of_le hx (Nat.pow_le_pow_right (by decide) (by omega))
  rw [hand, Nat.shiftLeft_eq, h2, Nat.mod_eq_of_lt hlt, upperBits, ha,
    ← Nat.mul_add_lt_is_or hx a]

theorem eosio.upperBits_stable (s : QString) (i j : Nat) (h : s.units.length ≤ i) :
    upperBits (symbolAt s) (i + j) = upperBits (symbolAt s) i := by
  induction j with
  | zero => rfl
  | succ j ih =>
    rw [← Nat.add_assoc, upperBits, ih, symbolAt_of_length_le s (i + j) (by omega)]
    simp

/-- The loop of `string_to_uint64_t` ends with the upper bits of the twelve symbols. -/
theorem eosio.encodeLoop_value (s : QString) (fuel i : Nat) (reads : List Nat)
    (h : i + fuel = 12) :
    (encodeLoop s fuel i (upperBits (symbolAt s) i) reads).2.1 = upperBits (symbolAt s) 12
      ∧ ((encodeLoop s fuel i (upperBits (symbolAt s) i) reads).1 = 12
        ∨ s.units.length ≤ 12) := by
  induction fuel generalizing i reads with
  | zero =>
    have hi : i = 12 := by omega
    subst hi
    exact ⟨rfl, Or.inl rfl⟩
  | succ fuel ih =>
    simp only [encodeLoop]
    by_cases hc : i < s.units.length ∧ i < 12
    · rw [if_pos hc]
      have hstep := upperBits_step (symbolAt s) i hc.2
      simp only [symbolAt] at hstep ih ⊢
      rw [hstep]
      exact ih (i + 1) _ (by omega)
    · rw [if_neg hc]
      have hlen : s.units.length ≤ i := by
        by_contra hcon
        exact hc ⟨by omega, by omega⟩
      refine ⟨?_, Or.inr (by omega)⟩
      have := upperBits_stable s i (12 - i) hlen
      rw [show i + (12 - i) = 12 by omega] at this
      exact this.symm

/-- The value of `string_to_uint64_t` is the name with the symbols of the characters of the
string. -/
theorem eosio.string_to_uint64_t_eq (s : QString) :
    string_to_uint64_t s = nameValue (symbolAt s) := by
  obtain ⟨h1, h2⟩ := encodeLoop_value s 12 0 [] rfl
  have h0 : upperBits (symbolAt s) 0 = 0 := rfl
  rw [h0] at h1 h2
  obtain ⟨a, ha⟩ := upperBits_eq_mul (symbolAt s) 12 (le_refl _)
  have hand : symbolAt s 12 &&& 0x0F = symbolAt s 12 % 16 := by
    have := Nat.and_pow_two_sub_one_eq_mod (symbolAt s 12) 4
    simpa using this
  simp only [string_to_uint64_t, string_to_uint64_t_trace, nameValue]
  split_ifs with hc
  · simp only [symbolAt] at hand ha h1 ⊢
    rw [h1, hand, ha]
    exact (Nat.mul_add_lt_is_or (Nat.mod_lt _ (by decide)) a).symm
  · have hlen : s.units.length ≤ 12 := by
      rcases h2 with h | h
      · exact absurd h hc
      · exact h
    rw [h1, symbolAt_of_length_le s 12 hlen]
    rfl

end NameFacts

section NameRoundTrip

open eosio

theorem eosio.symbolAt_append_dot (l : List Nat) (i : Nat) :
    symbolAt ⟨l ++ [46]⟩ i = symbolAt ⟨l⟩ i := by
  simp only [symbolAt, latin1At]
  rcases Nat.lt_trichotomy i l.length with h | h | h
  · rw [List.getD_append _ _ _ _ h]
  · subst h
    have h1 : (l ++ [46]).getD l.length 0 = 46 := by simp
    have h2 : l.getD l.length 0 = 0 := List.getD_eq_default _ _ (le_refl _)
    rw [h1, h2]
    decide
  · have h1 : (l ++ [46]).getD i 0 = 0 :=
      List.getD_eq_default _ _ (by simp; omega)
    have h2 : l.getD i 0 = 0 := List.getD_eq_default _ _ (by omega)
    rw [h1, h2]

/-- The dots that `name_to_string` chops off the end do not change the symbols. -/
theorem eosio.symbolAt_chop (l : List Nat) (i : Nat) :
    symbolAt ⟨(l.reverse.dropWhile (fun c => c = 46)).reverse⟩ i = symbolAt ⟨l⟩ i := by
  induction l using List.reverseRecOn with
  | nil => rfl
  | append_singleton l0 a ih =>
    rw [List.reverse_append, List.reverse_singleton, List.singleton_append, List.dropWhile_cons]
    by_cases ha : a = 46
    · subst ha
      simp only [decide_True, if_true]
      rw [ih, symbolAt_append_dot]
    · simp only [ha, decide_False, Bool.false_eq_true, if_false, List.reverse_cons,
        List.reverse_reverse]

theorem eosio.symbol_charmap_32 (x : Nat) :
    char_to_symbol (if charmap.getD (x % 32) 46 > 255 then 0 else charmap.getD (x % 32) 46)
      = x % 32 := by
  have h : ∀ v, v < 32 →
      char_to_symbol (if charmap.getD v 46 > 255 then 0 else charmap.getD v 46) = v := by
    decide
  exact h (x % 32) (Nat.mod_lt _ (by decide))

theorem eosio.symbol_charmap_16 (x : Nat) :
    char_to_symbol (if charmap.getD (x % 16) 46 > 255 then 0 else charmap.getD (x % 16) 46)
      = x % 16 := by
  have h : ∀ v, v < 16 →
      char_to_symbol (if charmap.getD v 46 > 255 then 0 else charmap.getD v 46) = v := by
    decide
  exact h (x % 16) (Nat.mod_lt _ (by decide))

theorem eosio.upperChars_length (k tmp : Nat) : (upperChars k tmp).length = k := by
  induction k generalizing tmp with
  | zero => rfl
  | succ k ih => simp [upperChars, ih]

/-- The character that `name_to_string` writes at position `i` for the upper bits. -/
theorem eosio.upperChars_getD (k tmp i : Nat) (hi : i < k) :
    (upperChars k tmp).getD i 0 = charmap.getD (tmp / 32 ^ (k - 1 - i) % 32) 46 := by
  induction k generalizing tmp with
  | zero => omega
  | succ k ih =>
    simp only [upperChars]
    by_cases h : i < k
    · have e : k + 1 - 1 - i = (k - 1 - i) + 1 := by omega
      rw [List.getD_append _ _ _ _ (by rw [upperChars_length]; exact h), ih (tmp / 32) h,
        Nat.div_div_eq_div_mul, e, pow_succ']
    · have hik : i = k := by omega
      subst hik
      have h1 : (upperChars i (tmp / 32) ++ [charmap.getD (tmp % 32) 46]).getD i 0
          = charmap.getD (tmp % 32) 46 := by
        have := upperChars_length i (tmp / 32)
        rw [List.getD_eq_getElem?_getD, List.getElem?_append_right (by omega)]
        simp [this]
      rw [h1]
      simp

/-- The symbols of the characters that `name_to_string` writes, before it chops the dots. -/
theorem eosio.symbolAt_name (n i : Nat) :
    symbolAt ⟨upperChars 12 (n / 16) ++ [charmap.getD (n % 16) 46]⟩ i
      = if i < 12 then n / 16 / 32 ^ (11 - i) % 32 else if i = 12 then n % 16 else 0 := by
  simp only [symbolAt, latin1At]
  by_cases h : i < 12
  · rw [if_pos h, List.getD_append _ _ _ _ (by rw [upperChars_length]; exact h),
      upperChars_getD 12 (n / 16) i h, show 12 - 1 - i = 11 - i by omega]
    exact symbol_charmap_32 _
  · rw [if_neg h]
    by_cases h12 : i = 12
    · subst h12
      have h1 : (upperChars 12 (n / 16) ++ [charmap.getD (n % 16) 46]).getD 12 0
          = charmap.getD (n % 16) 46 := by
        have := upperChars_length 12 (n / 16)
        rw [List.getD_eq_getElem?_getD, List.getElem?_append_right (by omega)]
        simp [this]
      rw [h1, if_pos rfl]
      exact symbol_charmap_16 n
    · rw [if_neg h12]
      have h1 : (upperChars 12 (n / 16) ++ [charmap.getD (n % 16) 46]).getD i 0 = 0 :=
        List.getD_eq_default _ _ (by simp [upperChars_length]; omega)
      rw [h1]
      decide

/-- C28. Name encoding round trip: for every 64-bit value `n`,
`eosio::string_to_uint64_t(eosio::name_to_string(n))` is `n`. -/
theorem C28_name_round_trip (n : Nat) (hn : n < 2 ^ 64) :
    string_to_uint64_t (name_to_string n) = n := by
  rw [string_to_uint64_t_eq]
  have hf : symbolAt (name_to_string n)
      = fun i => if i < 12 then n / 16 / 32 ^ (11 - i) % 32 else if i = 12 then n % 16 else 0 := by
    funext i
    exact (symbolAt_chop _ i).trans (symbolAt_name n i)
  rw [hf]
  simp only [nameValue, upperBits]
  norm_num [Nat.div_div_eq_div_mul]
  clear hf
  norm_num at hn
  have e0 : n = 16 * (n / 16) + n % 16 := (Nat.div_add_mod n 16).symm
  have e1 : n / 16 = 32 * (n / 512) + n / 16 % 32 := by
    have h := (Nat.div_add_mod (n / 16) 32).symm
    rwa [Nat.div_div_eq_div_mul] at h
  have e2 : n / 512 = 32 * (n / 16384) + n / 512 % 32 := by
    have h := (Nat.div_add_mod (n / 512) 32).symm
    rwa [Nat.div_div_eq_div_mul] at h
  have e3 : n / 16384 = 32 * (n / 524288) + n / 16384 % 32 := by
    have h := (Nat.div_add_mod (n / 16384) 32).symm
    rwa [Nat.div_div_eq_div_mul] at h
  have e4 : n / 524288 = 32 * (n / 16777216) + n / 524288 % 32 := by
    have h := (Nat.div_add_mod (n / 524288) 32).symm
    rwa [Nat.div_div_eq_div_mul] at h
  have e5 : n / 16777216 = 32 * (n / 536870912) + n / 16777216 % 32 := by
    have h := (Nat.div_add_mod (n / 16777216) 32).symm
    rwa [Nat.div_div_eq_div_mul] at h
  have e6 : n / 536870912 = 32 * (n / 17179869184) + n / 536870912 % 32 := by
    have h := (Nat.div_add_mod (n / 536870912) 32).symm
    rwa [Nat.div_div_eq_div_mul] at h
  have e7 : n / 17179869184 = 32 * (n / 549755813888) + n / 17179869184 % 32 := by
    have h := (Nat.div_add_mod (n / 17179869184) 32).symm
    rwa [Nat.div_div_eq_div_mul] at h
  have e8 : n / 549755813888 = 32 * (n / 17592186044416) + n / 549755813888 % 32 := by
    have h := (Nat.div_add_mod (n / 549755813888) 32).symm
    rwa [Nat.div_div_eq_div_mul] at h
  have e9 : n / 17592186044416 = 32 * (n / 562949953421312) + n / 17592186044416 % 32 := by
    have h := (Nat.div_add_mod (n / 17592186044416) 32).symm
    rwa [Nat.div_div_eq_div_mul] at h
  have e10 : n / 562949953421312 = 32 * (n / 18014398509481984) + n / 562949953421312 % 32 := by
    have h := (Nat.div_add_mod (n / 562949953421312) 32).symm
    rwa [Nat.div_div_eq_div_mul] at h
  have e11 : n / 18014398509481984 = 32 * (n / 576460752303423488) + n / 18014398509481984 % 32 := by
    have h := (Nat.div_add_mod (n / 18014398509481984) 32).symm
    rwa [Nat.div_div_eq_div_mul] at h
  have e12 : n / 576460752303423488 % 32 = n / 576460752303423488 :=
    Nat.mod_eq_of_lt (Nat.div_lt_of_lt_mul (by omega))
  generalize n / 16 % 32 = m0 at *
  generalize n / 512 % 32 = m1 at *
  generalize n / 16384 % 32 = m2 at *
  generalize n / 524288 % 32 = m3 at *
  generalize n / 16777216 % 32 = m4 at *
  generalize n / 536870912 % 32 = m5 at *
  generalize n / 17179869184 % 32 = m6 at *
  generalize n / 549755813888 % 32 = m7 at *
  generalize n / 17592186044416 % 32 = m8 at *
  generalize n / 562949953421312 % 32 = m9 at *
  generalize n / 18014398509481984 % 32 = m10 at *
  generalize n % 16 = m at *
  rw [e12]
  generalize n / 16 = a0 at *
  generalize n / 512 = a1 at *
  generalize n / 16384 = a2 at *
  generalize n / 524288 = a3 at *
  generalize n / 16777216 = a4 at *
  generalize n / 536870912 = a5 at *
  generalize n / 17179869184 = a6 at *
  generalize n / 549755813888 = a7 at *
  generalize n / 17592186044416 = a8 at *
  generalize n / 562949953421312 = a9 at *
  generalize n / 18014398509481984 = a10 at *
  generalize n / 576460752303423488 = a11 at *
  omega

theorem C28_name_round_trip_witness :
    string_to_uint64_t (name_to_string 6138663577826885632) = 6138663577826885632 :=
  C28_name_round_trip 6138663577826885632 (by decide)

end NameRoundTrip

section ModelFacts

open AbstractTable

variable {Row Id : Type} [LinearOrder Id] (S : RowSchema Row Id)

/-- The search in the ids of the rows finds the position that the search in the rows finds. -/
theorem lowerBound_map_key {α : Type} (key : α → Id) (l : List α) (k : Id) :
    lowerBound id (l.map key) k = lowerBound key l k := by
  induction l with
  | nil => rfl
  | cons a rest ih => simp only [List.map_cons, lowerBound, id_eq, ih]

/-- Erasing a position and taking the ids are in either order. -/
theorem map_eraseIdx_key {α : Type} (key : α → Id) (l : List α) :
    ∀ j, (l.map key).eraseIdx j = (l.eraseIdx j).map key := by
  induction l with
  | nil => intro j; rfl
  | cons a rest ih =>
    intro j
    cases j with
    | zero => rfl
    | succ j => simp only [List.map_cons, List.eraseIdx_cons_succ, ih]

/-- Method `Model::deleteRow` on the ids of a list of rows removes the id that `deleteRow` of
the table removes the row of. -/
theorem AbstractTable.modelDeleteRow_map (rows : List Row) (d : Id) :
    modelDeleteRow d (rows.map S.getId)
      = (match rows[lowerBound S.getId rows d]? with
        | some row =>
          if S.getId row = d then rows.eraseIdx (lowerBound S.getId rows d) else rows
        | none => rows).map S.getId := by
  simp only [modelDeleteRow, lowerBound_map_key, List.getElem?_map]
  cases hr : rows[lowerBound S.getId rows d]? with
  | none => simp
  | some row =>
    by_cases hi : S.getId row = d
    · simp [hi, map_eraseIdx_key]
    · simp [hi]

/-- The rows and the models after `deleteRow`. -/
theorem AbstractTable.deleteRow_rows_models (t : AbstractTable Row Id) (d : Id) :
    (deleteRow S t d).rowList
        = (match t.rowList[lowerBound S.getId t.rowList d]? with
          | some row =>
            if S.getId row = d then t.rowList.eraseIdx (lowerBound S.getId t.rowList d)
            else t.rowList
          | none => t.rowList)
      ∧ (deleteRow S t d).models = t.models.map (modelDeleteRow d) := by
  cases hr : t.rowList[lowerBound S.getId t.rowList d]? with
  | none => simp [deleteRow, hr, notifyDeleteRow]
  | some row =>
    by_cases hi : S.getId row = d
    · simp only [deleteRow, hr, hi, if_true, notifyDeleteRow]
      split_ifs <;> simp [emit, deleteBackupRow] <;> split_ifs <;> simp [emit]
    · simp [deleteRow, hr, hi, notifyDeleteRow]

/-- Method `deleteRow` keeps the models in step with the cache. -/
theorem AbstractTable.deleteRow_models_follow (t : AbstractTable Row Id) (d : Id)
    (h : ModelsFollow S t) : ModelsFollow S (deleteRow S t d) := by
  intro ids hids
  rw [(deleteRow_rows_models S t d).2] at hids
  obtain ⟨ids0, h0, rfl⟩ := List.mem_map.mp hids
  rw [h ids0 h0, modelDeleteRow_map, (deleteRow_rows_models S t d).1]

end ModelFacts

section NameBounds

/-- The loop of `string_to_uint64_t` reads positions below the length only and does not step
past the length. -/
theorem eosio.encodeLoop_bounds (str : QString) :
    ∀ (fuel i n : Nat) (reads : List Nat), i ≤ str.units.length →
      (∀ j ∈ reads, j < str.units.length) →
      (eosio.encodeLoop str fuel i n reads).1 ≤ str.units.length
        ∧ ∀ j ∈ (eosio.encodeLoop str fuel i n reads).2.2, j < str.units.length := by
  intro fuel
  induction fuel with
  | zero => intro i n reads hi hr; exact ⟨hi, hr⟩
  | succ fuel ih =>
    intro i n reads hi hr
    by_cases hc : i < str.units.length ∧ i < 12
    · rw [eosio.encodeLoop, if_pos hc]
      refine ih (i + 1) _ (reads ++ [i]) hc.1 ?_
      intro j hj
      rcases List.mem_append.mp hj with h | h
      · exact hr j h
      · rw [List.mem_singleton.mp h]; exact hc.1
    · rw [eosio.encodeLoop, if_neg hc]
      exact ⟨hi, hr⟩

/-- On a string whose length is not 12, `string_to_uint64_t` reads positions below the length
only. -/
theorem eosio.string_to_uint64_t_reads_below_length (str : QString)
    (hlen : str.units.length ≠ 12) :
    ∀ i ∈ (eosio.string_to_uint64_t_trace str).2, i < str.units.length := by
  have hb := eosio.encodeLoop_bounds str 12 0 0 [] (Nat.zero_le _) (by simp)
  intro i hi
  by_cases h12 : (eosio.encodeLoop str 12 0 0 []).1 = 12
  · simp only [eosio.string_to_uint64_t_trace, h12, if_true] at hi
    rcases List.mem_append.mp hi with h | h
    · exact hb.2 i h
    · rw [List.mem_singleton.mp h]
      have := hb.1
      omega
  · simp only [eosio.string_to_uint64_t_trace, h12, if_false] at hi
    exact hb.2 i hi

end NameBounds

end Pollaris
